import Mathlib

/-! Bosphorus: CNF reading, clause chunking, clause encoding, deduplication, scheduling

A shallow embedding of `src/dimacscache.cpp` (`DIMACSCache::DIMACSCache`) and of
`src/library.cpp` (`Library::check_library_in_use`, `Library::read_cnf`,
`Library::simplify`, `Library::deduplicate`), followed by the properties proved
about them.

Conventions of the embedding.
* `std::vector<T>` is `List T`; `push_back` appends at the end.
* `size_t` counters (`maxVar`, `count`, `waits`, `countdowns`) are `Nat`: none of them
  can reach `2^64` in a run, every increment is by one per processed literal or turn.
* A literal holds its variable in 31 bits: `Lit.make` narrows the `size_t` counter that
  `Lit(maxVar, false)` receives, so an auxiliary variable is the counter modulo `2^31`.
* `exit(-1)` and an uncaught C++ exception are a value of `Except.error`.
* The PolyBoRi types and the strategy engines are external libraries; polynomials are
  given a concrete model (`BoolePolynomial`), engines are parameters.
-/

namespace Bosphorus

/-! ## Literals and clauses -/

/-- Modelled from the spec: the literal type `Lit` of `bosphorus/solvertypesmini.hpp`,
which is not among the sources: "a variable index (non-negative integer) and a polarity
bit". `sign = true` means the literal is negated (`Lit(std::abs(v) - 1, v < 0)`). -/
structure Lit where
  var : Nat
  sign : Bool
deriving DecidableEq, Repr

/-- Modelled from the spec: the constructor `Lit(var, is_inverted)` of
`bosphorus/solvertypesmini.hpp`, which is not among the sources. The "variable index
(non-negative integer) and a polarity bit" are held in one `uint32_t`, as the sources
read them (`std::max<uint32_t>(maxVar, lit.var()+1)`, dimacscache.cpp:44, 52):
`x = var + var + is_inverted`, with `var() = x >> 1` and `sign() = x & 1`, and an
argument of type `size_t` is narrowed to `uint32_t` first. The variable that comes out
is `var mod 2^31`. -/
def Lit.make (var : Nat) (is_inverted : Bool) : Lit :=
  let x := (var % 4294967296 + var % 4294967296 + (if is_inverted then 1 else 0)) % 4294967296
  { var := x / 2, sign := decide (x % 2 = 1) }

/-- Negation `~l`: same variable, flipped polarity. -/
def Lit.neg (l : Lit) : Lit := { var := l.var, sign := !l.sign }

/-- A clause is the ordered sequence of its literals (`Clause::getLits`). -/
abbrev Clause := List Lit

/-- The value `!l.sign()` as added to a `size_t`: 1 for a non-negated literal. -/
def Lit.positive (l : Lit) : Nat := if l.sign then 0 else 1

/-- The loop `for (const Lit& l : clause.getLits()) positive_count += !l.sign();`. -/
def positive_count (clause : Clause) : Nat :=
  clause.foldl (fun n l => n + l.positive) 0

/-- Truth value of a literal under an assignment of the variables. -/
def Lit.holds (σ : Nat → Bool) (l : Lit) : Bool := if l.sign then !σ l.var else σ l.var

/-- A clause is satisfied when some literal of it holds. -/
def Clause.sat (σ : Nat → Bool) (c : Clause) : Bool := c.any (Lit.holds σ)

/-! ## The chunking loop of `Library::read_cnf` (library.cpp, lines 76-131) -/

/-- `v.back()` of a vector, `d` standing for the undefined value on an empty vector. -/
def back {α : Type} (v : List α) (d : α) : α := v.getLastD d

/-- `v.back() = a`: overwrite the last element. -/
def setBack {α : Type} (v : List α) (a : α) : List α := v.dropLast ++ [a]

/-- The variables that the chunking loop reads and writes. -/
structure ChunkState where
  collect : List Lit
  count : Nat
  maxVar : Nat
  extra_clauses : List Clause
  chunked_clauses : List Clause
deriving DecidableEq, Repr

/-- Body of `for (auto l : clause.getLits())`, lines 100-122. -/
def chunkStep (cutNum : Nat) (s : ChunkState) (l : Lit) : ChunkState :=
  let collect := s.collect ++ [l]
  let count := s.count + l.positive
  if count > cutNum then
    let aux : Lit := Lit.make s.maxVar false
    let maxVar := s.maxVar + 1
    let prev := back collect l
    let collect := setBack collect aux.neg
    { collect := [aux, prev]
      count := 2
      maxVar := maxVar
      extra_clauses := s.extra_clauses ++ [collect]
      chunked_clauses := s.chunked_clauses ++ [collect] }
  else
    { s with collect := collect, count := count }

/-- Lines 98-128: the scan of one clause that has to be chopped up, with the final
`if (!collect.empty())` push. -/
def chopClause (cutNum : Nat) (s : ChunkState) (clause : Clause) : ChunkState :=
  let s1 := clause.foldl (chunkStep cutNum) { s with collect := [], count := 0 }
  if s1.collect ≠ [] then
    { s1 with
      extra_clauses := s1.extra_clauses ++ [s1.collect]
      chunked_clauses := s1.chunked_clauses ++ [s1.collect] }
  else s1

/-- Body of `for (auto clause : orig_clauses)`, lines 77-131. -/
def chunkClause (cutNum : Nat) (s : ChunkState) (clause : Clause) : ChunkState :=
  if clause.length ≤ cutNum then
    { s with chunked_clauses := s.chunked_clauses ++ [clause] }
  else if positive_count clause ≤ cutNum then
    { s with chunked_clauses := s.chunked_clauses ++ [clause] }
  else
    chopClause cutNum s clause

/-- The whole chunking loop: `maxVar` starts at the parsed value, `chunked_clauses` is
empty and `extra_clauses` is the member of the library (empty after
`check_library_in_use`). -/
def chunk (cutNum : Nat) (maxVar : Nat) (extra_clauses : List Clause)
    (orig_clauses : List Clause) : ChunkState :=
  orig_clauses.foldl (chunkClause cutNum)
    { collect := [], count := 0, maxVar := maxVar,
      extra_clauses := extra_clauses, chunked_clauses := [] }

/-! ## The DIMACS reader `DIMACSCache::DIMACSCache` (dimacscache.cpp, lines 56-98) -/

/-- The ways in which the constructor ends the program instead of returning. -/
inductive ParseError where
  /-- The stream cannot be opened: message and `exit(-1)`, lines 69-72. -/
  | cannotOpen
  /-- A line starts with `x`: message and `exit(-1)`, lines 78-81. -/
  | xorClause
  /-- The call `stoi(x)` throws `std::invalid_argument` (no digits), which nobody catches. -/
  | invalidArgument
  /-- The call `stoi(x)` throws `std::out_of_range` (not an `int`), which nobody catches. -/
  | outOfRange
  /-- The call `std::abs(v)` on the least `int`, which is undefined. -/
  | undefinedAbs
deriving DecidableEq, Repr

/-- `std::isspace` in the C locale: space, `\t`, `\n`, `\v`, `\f`, `\r`. -/
def isspace (c : Char) : Bool := c.toNat = 32 || (9 ≤ c.toNat && c.toNat ≤ 13)

/-- `std::isdigit`. -/
def isdigit (c : Char) : Bool := 48 ≤ c.toNat && c.toNat ≤ 57

/-- The number written by a string of decimal digits. -/
def digitsValue (ds : List Char) : Nat := ds.foldl (fun a c => 10 * a + (c.toNat - 48)) 0

/-- `std::stoi(x)`: skip leading white space, read an optional sign and the longest run
of decimal digits, ignore what follows; fail when there is no digit or when the number
does not fit the 32-bit type `int`. -/
def stoi (x : List Char) : Except ParseError Int :=
  let s := x.dropWhile isspace
  let negative := s.head? = some '-'
  let s := if s.head? = some '-' ∨ s.head? = some '+' then s.tail else s
  let ds := s.takeWhile isdigit
  if ds = [] then Except.error ParseError.invalidArgument
  else
    let v : Int := if negative then -(digitsValue ds : Int) else (digitsValue ds : Int)
    if v < -2147483648 ∨ 2147483647 < v then Except.error ParseError.outOfRange
    else Except.ok v

/-- Successive calls of `std::getline(ifs, temp)`: the lines of the text, where a last
line without `\n` counts when it is not empty. The first argument is the line being
read. -/
def getlinesFrom : List Char → List Char → List (List Char)
  | temp, [] => if temp = [] then [] else [temp]
  | temp, c :: cs => if c = '\n' then temp :: getlinesFrom [] cs else getlinesFrom (temp ++ [c]) cs

/-- All lines that the loop `while (std::getline(ifs, temp))` sees. -/
def getlines (text : List Char) : List (List Char) := getlinesFrom [] text

/-- The variables of the constructor: the token buffer `x`, the literal buffer `lits`,
and the members `clauses` and `maxVar`. -/
structure CacheState where
  x : List Char
  lits : List Lit
  clauses : List Clause
  maxVar : Nat
deriving DecidableEq, Repr

/-- `iss >> x` on the unread part of the line: returns the new unread part, whether the
stream is still `good()`, and the new `x`. White space is skipped; when nothing is left
the extraction fails and `x` keeps its value; otherwise `x` is the characters up to the
next white space, and reaching the end of the line sets `eofbit`. -/
def extract (iss : List Char) (x : List Char) : List Char × Bool × List Char :=
  let r := iss.dropWhile isspace
  if r = [] then ([], false, x)
  else
    (r.dropWhile (fun c => !isspace c), r.dropWhile (fun c => !isspace c) ≠ [],
      r.takeWhile (fun c => !isspace c))

/-- The loop `while (iss.good() && !iss.eof())`, lines 85-95, entered with a good stream.
The first argument bounds the number of iterations; `lineLoop` is called with more than
the length of the line, and every iteration but the last consumes a character. -/
def lineLoop : Nat → List Char → CacheState → Except ParseError CacheState
  | 0, _, st => Except.ok st
  | fuel + 1, iss, st =>
    let (iss, good, x) := extract iss st.x
    match stoi x with
    | Except.error e => Except.error e
    | Except.ok v =>
      if v = 0 then
        Except.ok { st with x := x, clauses := st.clauses ++ [st.lits] }
      else if v = -2147483648 then Except.error ParseError.undefinedAbs
      else
        let st : CacheState :=
          { x := x
            lits := st.lits ++ [{ var := v.natAbs - 1, sign := decide (v < 0) }]
            clauses := st.clauses
            maxVar := max st.maxVar v.natAbs }
        if good then lineLoop fuel iss st else Except.ok st

/-- Body of `while (std::getline(ifs, temp))`, lines 76-96. -/
def processLine (st : CacheState) (temp : List Char) : Except ParseError CacheState :=
  if temp.length = 0 ∨ temp.head? = some 'p' ∨ temp.head? = some 'c' then Except.ok st
  else if temp.head? = some 'x' then Except.error ParseError.xorClause
  else lineLoop (temp.length + 1) temp { st with lits := [] }

/-- The loop over the lines; the first failing line ends the program. -/
def parseLines : List (List Char) → CacheState → Except ParseError CacheState
  | [], st => Except.ok st
  | temp :: rest, st =>
    match processLine st temp with
    | Except.error e => Except.error e
    | Except.ok st => parseLines rest st

/-- What a constructed `DIMACSCache` offers: `getClauses()` and `getMaxVar()`. -/
structure DIMACSCache where
  clauses : List Clause
  maxVar : Nat
deriving DecidableEq, Repr

/-- The constructor applied to a file: `none` is a file that cannot be opened, `some
text` one with this content. `maxVar = 0; clauses.clear();` start the state. -/
def DIMACSCache.read (file : Option (List Char)) : Except ParseError DIMACSCache :=
  match file with
  | none => Except.error ParseError.cannotOpen
  | some text =>
    match parseLines (getlines text) { x := [], lits := [], clauses := [], maxVar := 0 } with
    | Except.error e => Except.error e
    | Except.ok st => Except.ok { clauses := st.clauses, maxVar := st.maxVar }

/-! ### The DIMACS format as the specification describes it -/

/-- A decimal integer token and its value: an optional sign followed by at least one
decimal digit. -/
inductive IntToken : List Char → Int → Prop where
  | unsigned (ds : List Char) (hne : ds ≠ []) (hd : ∀ c ∈ ds, isdigit c = true) :
      IntToken ds (digitsValue ds)
  | plus (ds : List Char) (hne : ds ≠ []) (hd : ∀ c ∈ ds, isdigit c = true) :
      IntToken ('+' :: ds) (digitsValue ds)
  | minus (ds : List Char) (hne : ds ≠ []) (hd : ∀ c ∈ ds, isdigit c = true) :
      IntToken ('-' :: ds) (-(digitsValue ds : Int))

/-- A clause line and the integers it lists: white-space separated non-zero decimal
integers followed by a token of value 0, with optional white space before the first
token and after the last. -/
inductive ClauseLine : List Char → List Int → Prop where
  | zero (ws z trail : List Char) (hws : ∀ c ∈ ws, isspace c = true) (hz : IntToken z 0)
      (htrail : ∀ c ∈ trail, isspace c = true) : ClauseLine (ws ++ z ++ trail) []
  | lit (ws t : List Char) (sp : Char) (rest : List Char) (v : Int) (vs : List Int)
      (hws : ∀ c ∈ ws, isspace c = true) (ht : IntToken t v) (hv : v ≠ 0)
      (hsp : isspace sp = true) (hrest : ClauseLine (sp :: rest) vs) :
      ClauseLine (ws ++ t ++ sp :: rest) (v :: vs)

/-- A list of lines in which every line is empty, starts with `c` or `p`, or is a
clause line, together with the integer lists of its clause lines in line order. -/
inductive Document : List (List Char) → List (List Int) → Prop where
  | nil : Document [] []
  | skip (ln : List Char) (lns : List (List Char)) (vss : List (List Int))
      (h : ln = [] ∨ ln.head? = some 'c' ∨ ln.head? = some 'p') (hrest : Document lns vss) :
      Document (ln :: lns) vss
  | clause (ln : List Char) (lns : List (List Char)) (vs : List Int) (vss : List (List Int))
      (h : ClauseLine ln vs) (hrest : Document lns vss) : Document (ln :: lns) (vs :: vss)

/-- The literal that a non-zero integer `v` denotes: variable `|v| - 1`, negated iff
`v < 0`. -/
def toLit (v : Int) : Lit := { var := v.natAbs - 1, sign := decide (v < 0) }

/-- The maximum of `|v|` over a list of integers, 0 for the empty list. -/
def maxAbs (vs : List Int) : Nat := vs.foldr (fun v m => max v.natAbs m) 0

/-! ## Boolean polynomials (PolyBoRi) -/

/-- A monomial of the Boolean ring: the set of its variables (`x*x = x`). -/
abbrev BooleMonomial := Finset Nat

/-- A polynomial over GF(2) modulo `x*x = x`: the set of its monomials, each with
coefficient 1. The empty set is the zero polynomial, `{∅}` is the constant 1. -/
abbrev BoolePolynomial := Finset BooleMonomial

namespace BoolePolynomial

/-- `BoolePolynomial(ring)`: the zero polynomial. -/
def zero : BoolePolynomial := ∅

/-- `BoolePolynomial(1, ring)`: the constant 1. -/
def one : BoolePolynomial := {∅}

/-- `BooleVariable(v, ring)` as a polynomial. -/
def BooleVariable (v : Nat) : BoolePolynomial := {{v}}

/-- Addition over GF(2): monomials occurring in both summands cancel. -/
def add (p q : BoolePolynomial) : BoolePolynomial := symmDiff p q

/-- Product of a monomial with a polynomial. -/
def mulMonom (m : BooleMonomial) (q : BoolePolynomial) : BoolePolynomial :=
  q.fold symmDiff ∅ (fun n => {m ∪ n})

/-- Multiplication: the GF(2) sum of all pairwise monomial products. -/
def mul (p q : BoolePolynomial) : BoolePolynomial :=
  p.fold symmDiff ∅ (fun m => mulMonom m q)

/-- Value of a monomial under an assignment. -/
def evalMonom (σ : Nat → Bool) (m : BooleMonomial) : ZMod 2 :=
  if ∀ v ∈ m, σ v = true then 1 else 0

/-- Value of a polynomial over GF(2) under an assignment. -/
def eval (σ : Nat → Bool) (p : BoolePolynomial) : ZMod 2 :=
  ∑ m ∈ p, evalMonom σ m

end BoolePolynomial

/-! ## The encoder loop of `Library::read_cnf` (library.cpp, lines 140-149) -/

/-- Body of `for (const Lit& l : clause.getLits())`, lines 142-148. -/
def encodeStep (poly : BoolePolynomial) (l : Lit) : BoolePolynomial :=
  let alsoAdd := if !l.sign then poly else BoolePolynomial.zero
  let poly := BoolePolynomial.mul poly (BoolePolynomial.BooleVariable l.var)
  BoolePolynomial.add poly alsoAdd

/-- Lines 141-148: the polynomial built for one clause. -/
def encodeClause (clause : Clause) : BoolePolynomial :=
  clause.foldl encodeStep BoolePolynomial.one

/-! ## `Library::deduplicate` (library.cpp, lines 402-414) -/

/-- Body of `for (const BoolePolynomial& p : learnt)`: the state is the vector `dedup`
and the set `hash` of the hash values inserted so far; `hash.insert(p.hash()).second`
is true exactly when the value was not yet in the set. The function `hash` is
`BoolePolynomial::hash()` of PolyBoRi. -/
def dedupStep (hash : BoolePolynomial → Nat) (st : List BoolePolynomial × List Nat)
    (p : BoolePolynomial) : List BoolePolynomial × List Nat :=
  if hash p ∈ st.2 then st else (st.1 ++ [p], hash p :: st.2)

/-- The new content of `learnt` after `learnt.swap(dedup)`. -/
def deduplicate (hash : BoolePolynomial → Nat) (learnt : List BoolePolynomial) :
    List BoolePolynomial :=
  (learnt.foldl (dedupStep hash) ([], [])).1

/-- The specification's reading of deduplication: the elements at the positions `i` such
that no earlier position `j < i` has the same hash value, in increasing order of `i`. -/
def firstOfEachHash (hash : BoolePolynomial → Nat) (learnt : List BoolePolynomial) :
    List BoolePolynomial :=
  (List.range learnt.length).filterMap (fun i =>
    if ∀ j, j < i → (learnt[j]?).map hash ≠ (learnt[i]?).map hash then learnt[i]? else none)

/-! ## `Library::simplify` (library.cpp, lines 248-400) -/

/-- Modelled from the spec: the three-valued `lbool` of the solver headers, which are
not among the sources: "a tri-state status: undetermined, satisfiable, unsatisfiable". -/
inductive lbool where
  | l_True
  | l_False
  | l_Undef
deriving DecidableEq, Repr

/-- Modelled from the spec: the type `Solution`, declared outside the sources; only its
status `ret` is read by `simplify`, and `Solution()` has `ret = l_Undef`. -/
structure Solution where
  ret : lbool
deriving DecidableEq, Repr

/-- The fields of `ConfigData` that `read_cnf` and `simplify` read. The deadline
`maxTime` is represented by the outcomes of the comparisons `cpuTime() > config.maxTime`
(see `simplify`). -/
structure ConfigData where
  cutNum : Nat
  doXL : Bool
  doEL : Bool
  doSAT : Bool
  minIter : Nat
deriving DecidableEq, Repr

/-- The external collaborators of `simplify`, as functions on their own states: `A` is
the equation system `ANF`, `C` the `CNF` object and `S` the `SimplifyBySat` object. A
function that mutates an argument returns its new value. -/
structure Engines (A C S : Type) where
  /-- `BoolePolynomial::hash()`. -/
  hash : BoolePolynomial → Nat
  /-- `anf->getOK()`. -/
  getOK : A → Bool
  /-- `anf->setNOTOK()`. -/
  setNOTOK : A → A
  /-- `anf->propagate()`, with its return value. -/
  propagate : A → Bool × A
  /-- `anf->addBoolePolynomial(p)`, with its return value. -/
  addBoolePolynomial : A → BoolePolynomial → Bool × A
  /-- `anf->contextualize(loop_learnt)`. -/
  contextualize : A → List BoolePolynomial → A
  /-- `extendedLinearization(config, anf->getEqs(), loop_learnt)`: the return value and
  the new `loop_learnt`. -/
  extendedLinearization : A → List BoolePolynomial → Bool × List BoolePolynomial
  /-- `elimLin(config, anf->getEqs(), loop_learnt)`: the return value and the new
  `loop_learnt`. -/
  elimLin : A → List BoolePolynomial → Bool × List BoolePolynomial
  /-- `new CNF(orig_cnf_file, *anf, extra_clauses, config)`. -/
  cnfFromFile : A → List Clause → C
  /-- `new CNF(*anf, config)`. -/
  cnfFromAnf : A → C
  /-- `cnf->update()`, with its return value. -/
  cnfUpdate : C → Nat × C
  /-- `new SimplifyBySat(*cnf, config)`. -/
  newSimplifyBySat : C → S
  /-- `sbs->simplify(numConfl_lim, numConfl_inc, maxTime, no_cls, loop_learnt, *anf,
  solution)`: the return value and the new values of what it may mutate. -/
  sbsSimplify : S → C → Nat → List BoolePolynomial → A → Solution →
    Int × S × C × List BoolePolynomial × A × Solution

/-- The local variables of `simplify`, lines 262-272, and two counters that are not in
the source and only record its run: `turns`, the number of completed passes through the
loop body, and `invoked`, the strategies whose engine has been called, in call order. -/
structure SimplifyState (A C S : Type) where
  anf : A
  loop_learnt : List BoolePolynomial
  solution : Solution
  changes : Nat → Bool
  waits : Nat → Nat
  countdowns : Nat → Nat
  numIters : Nat
  subIters : Nat
  cnf_sbs : Option (C × S)
  timeout : Bool
  turns : Nat
  invoked : List Nat

/-- The table `series`, line 367. -/
def series : List Nat := [0, 1, 1, 2, 3, 5, 8, 13, 21, 34, 55, 89]

/-- Lines 361-373 as a function of `changes[subIters]`, `waits[subIters]` and
`countdowns[subIters]`: the new `waits[subIters]` and `countdowns[subIters]`. -/
def schedule (changed : Bool) (waits countdown : Nat) : Nat × Nat :=
  if changed then (0, countdown)
  else if countdown > 0 then (waits, countdown - 1)
  else (waits + 1, series.getD (min waits (series.length - 1)) 0)

/-- The loop `for (size_t i = prevsz; i < loop_learnt.size(); ++i) num_learnt +=
anf->addBoolePolynomial(loop_learnt[i]);` on the polynomials from `prevsz` on. -/
def addLearnt {A C S : Type} (E : Engines A C S) (anf : A) (added : List BoolePolynomial) :
    Int × A :=
  added.foldl (fun acc p =>
    ((acc.1 + if (E.addBoolePolynomial acc.2 p).1 then 1 else 0),
      (E.addBoolePolynomial acc.2 p).2)) (0, anf)

/-- The `switch (subIters)` of lines 289-339: the value of `num_learnt` and the new
state. `orig_cnf_file` tells whether the file name is non-null. -/
def runStrategy {A C S : Type} (E : Engines A C S) (config : ConfigData)
    (extra_clauses : List Clause) (orig_cnf_file : Bool) (st : SimplifyState A C S) :
    Int × SimplifyState A C S :=
  let prevsz := st.loop_learnt.length
  match st.subIters with
  | 0 =>
    if config.doXL then
      let r := E.extendedLinearization st.anf st.loop_learnt
      let st := { st with loop_learnt := r.2, invoked := st.invoked ++ [0] }
      if !r.1 then (0, { st with anf := E.setNOTOK st.anf })
      else
        let a := addLearnt E st.anf (st.loop_learnt.drop prevsz)
        (a.1, { st with anf := a.2 })
    else (0, st)
  | 1 =>
    if config.doEL then
      let r := E.elimLin st.anf st.loop_learnt
      let st := { st with loop_learnt := r.2, invoked := st.invoked ++ [1] }
      if !r.1 then (0, { st with anf := E.setNOTOK st.anf })
      else
        let a := addLearnt E st.anf (st.loop_learnt.drop prevsz)
        (a.1, { st with anf := a.2 })
    else (0, st)
  | 2 =>
    if config.doSAT then
      let prepared : Nat × C × S :=
        if orig_cnf_file then
          match st.cnf_sbs with
          | none =>
            let cnf := E.cnfFromFile st.anf extra_clauses
            (0, cnf, E.newSimplifyBySat cnf)
          | some (cnf, sbs) => ((E.cnfUpdate cnf).1, (E.cnfUpdate cnf).2, sbs)
        else
          let cnf := E.cnfFromAnf st.anf
          (0, cnf, E.newSimplifyBySat cnf)
      let r := E.sbsSimplify prepared.2.2 prepared.2.1 prepared.1 st.loop_learnt st.anf
        st.solution
      (r.1,
        { st with
          cnf_sbs := some (r.2.2.1, r.2.1)
          loop_learnt := r.2.2.2.1
          anf := r.2.2.2.2.1
          solution := r.2.2.2.2.2
          invoked := st.invoked ++ [2] })
    else (0, st)
  | _ => (0, st)

/-- The condition of the `while`, lines 274-277. -/
def loopCond {A C S : Type} (E : Engines A C S) (config : ConfigData)
    (st : SimplifyState A C S) : Bool :=
  !st.timeout && E.getOK st.anf && decide (st.solution.ret = lbool.l_Undef) &&
    ((((false || st.changes 0) || st.changes 1) || st.changes 2) ||
      decide (st.numIters < config.minIter))

/-- One pass through the body of the `while`, lines 278-382. `timeout k` is the outcome
of the comparison `cpuTime() > config.maxTime` made at the end of the `k`-th pass. -/
def turn {A C S : Type} (E : Engines A C S) (config : ConfigData)
    (extra_clauses : List Clause) (orig_cnf_file : Bool) (timeout : Nat → Bool)
    (st : SimplifyState A C S) : SimplifyState A C S :=
  let sub := st.subIters
  -- lines 283-346
  let r : Int × SimplifyState A C S :=
    if st.countdowns sub > 0 then (0, st)
    else runStrategy E config extra_clauses orig_cnf_file st
  let num_learnt := r.1
  let st := r.2
  -- lines 348-358
  let st : SimplifyState A C S :=
    if num_learnt ≤ 0 then { st with changes := Function.update st.changes sub false }
    else
      { st with
        changes := Function.update st.changes sub true
        anf := (E.propagate st.anf).2 }
  -- lines 360-373
  let wc := schedule (st.changes sub) (st.waits sub) (st.countdowns sub)
  let st : SimplifyState A C S :=
    { st with
      waits := Function.update st.waits sub wc.1
      countdowns := Function.update st.countdowns sub wc.2 }
  -- lines 375-381
  let st : SimplifyState A C S :=
    if sub < 2 then { st with subIters := sub + 1 }
    else
      { st with
        numIters := st.numIters + 1
        subIters := 0
        loop_learnt := deduplicate E.hash st.loop_learnt }
  -- line 382
  { st with timeout := timeout (st.turns + 1), turns := st.turns + 1 }

/-- The `while` loop; the first argument bounds the number of passes, and the result is
`none` when the loop would go on after that many passes. -/
def simplifyLoop {A C S : Type} (E : Engines A C S) (config : ConfigData)
    (extra_clauses : List Clause) (orig_cnf_file : Bool) (timeout : Nat → Bool) :
    Nat → SimplifyState A C S → Option (SimplifyState A C S)
  | 0, st => if loopCond E config st then none else some st
  | fuel + 1, st =>
    if loopCond E config st then
      simplifyLoop E config extra_clauses orig_cnf_file timeout fuel
        (turn E config extra_clauses orig_cnf_file timeout st)
    else some st

/-- The state in which the loop is entered, lines 262-272: the initial propagation has
been done and `timeout 0` is the comparison of line 263. -/
def initialState {A C S : Type} (E : Engines A C S) (timeout : Nat → Bool) (anf : A)
    (loop_learnt : List BoolePolynomial) : SimplifyState A C S :=
  { anf := (E.propagate anf).2
    loop_learnt := loop_learnt
    solution := { ret := lbool.l_Undef }
    changes := fun _ => true
    waits := fun _ => 0
    countdowns := fun _ => 0
    numIters := 0
    subIters := 0
    cnf_sbs := none
    timeout := timeout 0
    turns := 0
    invoked := [] }

/-- `Library::simplify`: `timeoutAtStart` is the comparison of line 252. The result is
the returned solution with the final values of `*anf` and `loop_learnt`, or `none` when
the loop has not ended after `fuel` passes. -/
def simplify {A C S : Type} (E : Engines A C S) (config : ConfigData)
    (extra_clauses : List Clause) (timeoutAtStart : Bool) (timeout : Nat → Bool)
    (fuel : Nat) (anf : A) (orig_cnf_file : Bool) (loop_learnt : List BoolePolynomial) :
    Option (Solution × A × List BoolePolynomial) :=
  if timeoutAtStart then some ({ ret := lbool.l_Undef }, anf, loop_learnt)
  else
    match simplifyLoop E config extra_clauses orig_cnf_file timeout fuel
        (initialState E timeout anf loop_learnt) with
    | none => none
    | some st => some (st.solution, E.contextualize st.anf st.loop_learnt, st.loop_learnt)

/-- The pair `(waits[i], countdowns[i])` of a strategy after `n` of its turns none of
which has produced a new fact, from the initial `(0, 0)`: every such turn, skipped or
attempted, ends in the scheduling step with `changes[i] = false`. -/
def stalledRun : Nat → Nat × Nat
  | 0 => (0, 0)
  | n + 1 => schedule false (stalledRun n).1 (stalledRun n).2

/-- Whether the strategy is attempted in its turn number `n` (counted from 0) of a
stalled run: its countdown is 0 when the turn starts. -/
def attempted (n : Nat) : Bool := decide ((stalledRun n).2 = 0)

/-- The number of consecutive turns from turn `n` on in which the strategy is skipped,
looking at no more than `fuel` turns. -/
def countSkips : Nat → Nat → Nat
  | 0, _ => 0
  | fuel + 1, n => if attempted n then 0 else 1 + countSkips fuel (n + 1)

/-- The number of turns skipped between the attempt of turn `n` and the next attempt
(no countdown exceeds 89, so looking at 90 turns is enough). -/
def skippedAfter (n : Nat) : Nat := countSkips 90 (n + 1)


/-- Engines that never learn anything, on an equation system that is just its
consistency flag; used to run `simplify` on a concrete input. -/
def idleEngines : Engines Bool Unit Unit :=
  { hash := fun p => p.card
    getOK := fun a => a
    setNOTOK := fun _ => false
    propagate := fun a => (a, a)
    addBoolePolynomial := fun a _ => (false, a)
    contextualize := fun a _ => a
    extendedLinearization := fun _ l => (true, l)
    elimLin := fun _ l => (true, l)
    cnfFromFile := fun _ _ => ()
    cnfFromAnf := fun _ => ()
    cnfUpdate := fun _ => (0, ())
    newSimplifyBySat := fun _ => ()
    sbsSimplify := fun s c _ l a sol => (0, s, c, l, a, sol) }


/-! ## Observations of the chunking loop -/

/-- The clauses that the body of the loop over the clauses appends to `chunked_clauses`
for one clause when the counter `maxVar` has the value `m`. -/
def emitted (cutNum m : Nat) (clause : Clause) : List Clause :=
  (chunkClause cutNum
    { collect := [], count := 0, maxVar := m, extra_clauses := [], chunked_clauses := [] }
    clause).chunked_clauses

/-- The auxiliary variables that one step of the scan writes, read off its output: the
variable of the literal `~aux` that ends each clause the step appends to
`chunked_clauses` (`collect.back() = ~aux; ... chunked_clauses.push_back(collect)`,
lines 108-113). -/
def stepAllocations (cutNum : Nat) (s : ChunkState) (l : Lit) : List Nat :=
  ((chunkStep cutNum s l).chunked_clauses.drop s.chunked_clauses.length).filterMap
    (fun c => c.getLast?.map Lit.var)

/-- The auxiliary variables created while the scan reads the literals `ls` from the
state `s`, in creation order, each read from the auxiliary literal that its step
writes. -/
def scanAllocations (cutNum : Nat) : ChunkState → List Lit → List Nat
  | _, [] => []
  | s, l :: ls =>
    stepAllocations cutNum s l ++ scanAllocations cutNum (chunkStep cutNum s l) ls

/-- The auxiliary variables created for one clause: none when the clause is pushed
unchanged (lines 79-92), those of the scan otherwise. -/
def clauseAllocations (cutNum : Nat) (s : ChunkState) (clause : Clause) : List Nat :=
  if clause.length ≤ cutNum then []
  else if positive_count clause ≤ cutNum then []
  else scanAllocations cutNum { s with collect := [], count := 0 } clause

/-- The auxiliary variables created by the loop over the clauses, in creation order. -/
def allocations (cutNum : Nat) : ChunkState → List Clause → List Nat
  | _, [] => []
  | s, c :: cs => clauseAllocations cutNum s c ++ allocations cutNum (chunkClause cutNum s c) cs


/-- The clauses that the scan of the literals `ls` from the state `t` produces: those it
appends to `chunked_clauses`, followed by the bucket left at the end. -/
def pending (cutNum : Nat) (t : ChunkState) (ls : List Lit) : List Clause :=
  (ls.foldl (chunkStep cutNum)
      { t with extra_clauses := [], chunked_clauses := [] }).chunked_clauses ++
    [(ls.foldl (chunkStep cutNum) t).collect]

/-- Deleting the auxiliary literals from clauses that follow an emitted clause: the
first literal of each, and the last literal of each but the last one. -/
def stripAuxTail : List Clause → List Lit
  | [] => []
  | [c] => c.tail
  | c :: d :: cs => c.tail.dropLast ++ stripAuxTail (d :: cs)

/-- Deleting the auxiliary literals from the clauses emitted for one clause, and
concatenating what is left: the last literal of every clause but the last one goes, and
so does the first literal of every clause but the first one. -/
def stripAux : List Clause → List Lit
  | [] => []
  | [c] => c
  | c :: d :: cs => c.dropLast ++ stripAuxTail (d :: cs)

/-- The two occurrences of the auxiliary variable `a`, in emission order. -/
def auxPair (a : Nat) : List Lit := [{ var := a, sign := true }, { var := a, sign := false }]


/-! ## The encoding as the specification describes it -/

/-- The factor of a literal in the specification's product: `1 + x` for a non-negated
literal over the variable `x`, and `x` for a negated one. -/
def term (l : Lit) : BoolePolynomial :=
  if l.sign then BoolePolynomial.BooleVariable l.var
  else BoolePolynomial.add BoolePolynomial.one (BoolePolynomial.BooleVariable l.var)

/-- The specification's polynomial of a clause: the product of `term l` over its
literals `l`, taken in the Boolean polynomial ring, in the order of the clause. -/
def termProduct (clause : Clause) : BoolePolynomial :=
  (clause.map term).foldl BoolePolynomial.mul BoolePolynomial.one


/-- Engines like `idleEngines`, except that the linearization and the elimination
engine report the system as inconsistent; used to run `simplify` on a concrete input. -/
def failingEngines : Engines Bool Unit Unit :=
  { idleEngines with
    extendedLinearization := fun _ l => (false, l)
    elimLin := fun _ l => (false, l) }


/-! ## `Library::check_library_in_use`, `read_anf`, `read_cnf` (library.cpp, lines 36-156) -/

/-- Invariant of the scan for a bound of at least 2. -/
def BoundInv (L : Nat) (s : ChunkState) : Prop :=
  positive_count s.collect = s.count ∧ s.count ≤ L ∧
    ∀ c ∈ s.chunked_clauses, positive_count c ≤ L

/-- What the other direction maintains: every clause emitted so far is satisfied and
mentions only variables below the counter. -/
def GoodChunks (σ : Nat → Bool) (s : ChunkState) : Prop :=
  ∀ c ∈ s.chunked_clauses, (∀ l ∈ c, l.var < s.maxVar) ∧ Clause.sat σ c = true

/-- No character that starts a clause line is one of the markers `p`, `c`, `x`. -/
def NotMarker (c : Char) : Prop := c ≠ 'p' ∧ c ≠ 'c' ∧ c ≠ 'x'

/-- Invariant of the scan of a clause for a bound of at least 2, after the literals
`done` have been read: `base` is the content of `chunked_clauses` before the scan. -/
def SplitInv (L : Nat) (base : List Clause) (done : Clause) (t : ChunkState) : Prop :=
  t.count = positive_count t.collect ∧ t.count ≤ L ∧
    ∃ X, t.chunked_clauses = base ++ X ∧ (∀ c ∈ X, positive_count c = L) ∧
      (X = [] → t.count = positive_count done) ∧ (X ≠ [] → 2 ≤ t.count)

/-- Invariant of the reader: the variables of the literal buffer and of the stored
clauses are below `maxVar`. -/
def CacheInv (st : CacheState) : Prop :=
  (∀ l ∈ st.lits, l.var < st.maxVar) ∧ ∀ c ∈ st.clauses, ∀ l ∈ c, l.var < st.maxVar


/-! ## Properties -/

/-! ### Generic helpers -/

theorem foldl_inv {S A : Type} (P : S → Prop) (f : S → A → S)
    (h : ∀ s a, P s → P (f s a)) : ∀ (l : List A) (s : S), P s → P (l.foldl f s) := by
  intro l
  induction l with
  | nil => intro s hs; simpa using hs
  | cons a l ih => intro s hs; simpa using ih (f s a) (h s a hs)

theorem Lit.make_eq (v : Nat) (b : Bool) : Lit.make v b = { var := v % 2147483648, sign := b } := by
  unfold Lit.make
  cases b
  · simp only [Bool.false_eq_true, if_false, Lit.mk.injEq, decide_eq_false_iff_not]
    omega
  · simp only [if_true, Lit.mk.injEq, decide_eq_true_eq]
    omega

theorem back_append_singleton {α : Type} (v : List α) (l d : α) : back (v ++ [l]) d = l := by
  simp [back]

theorem setBack_append_singleton {α : Type} (v : List α) (l a : α) :
    setBack (v ++ [l]) a = v ++ [a] := by
  simp [setBack]

theorem positive_count_foldl (c : Clause) (n : Nat) :
    c.foldl (fun n l => n + l.positive) n = n + positive_count c := by
  induction c generalizing n with
  | nil => simp [positive_count]
  | cons a c ih =>
    simp only [positive_count, List.foldl_cons]
    rw [ih, ih (0 + a.positive)]
    omega

@[simp] theorem positive_count_nil : positive_count [] = 0 := rfl

@[simp] theorem positive_count_cons (a : Lit) (c : Clause) :
    positive_count (a :: c) = a.positive + positive_count c := by
  have h := positive_count_foldl c (0 + a.positive)
  simp only [positive_count, List.foldl_cons] at *
  omega

@[simp] theorem positive_count_append (c d : Clause) :
    positive_count (c ++ d) = positive_count c + positive_count d := by
  induction c with
  | nil => simp
  | cons a c ih => simp [ih]; omega

theorem positive_le_one (l : Lit) : l.positive ≤ 1 := by
  unfold Lit.positive; split <;> omega

theorem positive_count_le_length (c : Clause) : positive_count c ≤ c.length := by
  induction c with
  | nil => simp
  | cons a c ih => have := positive_le_one a; simp; omega

/-- The step of the scan, with `back` and `setBack` evaluated. -/
theorem chunkStep_eq (cutNum : Nat) (s : ChunkState) (l : Lit) :
    chunkStep cutNum s l =
      if s.count + l.positive > cutNum then
        { collect := [{ var := s.maxVar % 2147483648, sign := false }, l]
          count := 2
          maxVar := s.maxVar + 1
          extra_clauses := s.extra_clauses ++ [s.collect ++ [{ var := s.maxVar % 2147483648, sign := true }]]
          chunked_clauses :=
            s.chunked_clauses ++ [s.collect ++ [{ var := s.maxVar % 2147483648, sign := true }]] }
      else { s with collect := s.collect ++ [l], count := s.count + l.positive } := by
  simp [chunkStep, back_append_singleton, setBack_append_singleton, Lit.neg, Lit.make_eq]

/-! ### C1: positive-literal bound of the chunked clauses -/

theorem chunkStep_boundInv (L : Nat) (hL : 2 ≤ L) (s : ChunkState) (l : Lit)
    (h : BoundInv L s) : BoundInv L (chunkStep L s l) := by
  obtain ⟨h1, h2, h3⟩ := h
  rw [chunkStep_eq]
  have hl := positive_le_one l
  split
  · rename_i hgt
    have hl1 : l.positive = 1 := by omega
    refine ⟨?_, hL, ?_⟩
    · simp only [positive_count_cons, positive_count_nil, hl1]
      simp [Lit.positive]
    intro c hc
    simp only [List.mem_append, List.mem_singleton] at hc
    rcases hc with hc | hc
    · exact h3 c hc
    · subst hc
      simp [Lit.positive]
      omega
  · rename_i hle
    refine ⟨by simp [h1], by simpa using hle, h3⟩

theorem chunkClause_boundInv (L : Nat) (hL : 2 ≤ L) (s : ChunkState) (clause : Clause)
    (h : ∀ c ∈ s.chunked_clauses, positive_count c ≤ L) :
    ∀ c ∈ (chunkClause L s clause).chunked_clauses, positive_count c ≤ L := by
  unfold chunkClause
  split
  · rename_i hlen
    intro c hc
    simp only [List.mem_append, List.mem_singleton] at hc
    rcases hc with hc | hc
    · exact h c hc
    · subst hc; exact le_trans (positive_count_le_length _) hlen
  · split
    · rename_i hpc
      intro c hc
      simp only [List.mem_append, List.mem_singleton] at hc
      rcases hc with hc | hc
      · exact h c hc
      · subst hc; exact hpc
    · have hs : BoundInv L (clause.foldl (chunkStep L) { s with collect := [], count := 0 }) :=
        foldl_inv (BoundInv L) (chunkStep L) (chunkStep_boundInv L hL) clause _
          ⟨by simp, by simp, h⟩
      obtain ⟨h1, h2, h3⟩ := hs
      unfold chopClause
      simp only []
      split
      · intro c hc
        simp only [List.mem_append, List.mem_singleton] at hc
        rcases hc with hc | hc
        · exact h3 c hc
        · subst hc; omega
      · exact h3

/-- C1 (amended): for every bound `L ≥ 2`, every starting counter and every list of
original clauses, each clause that the chunking loop of `Library::read_cnf` puts into
`chunked_clauses` contains at most `L` non-negated literals. -/
theorem chunk_positive_count_le (L : Nat) (hL : 2 ≤ L) (maxVar : Nat) (extra : List Clause)
    (orig_clauses : List Clause) :
    ∀ c ∈ (chunk L maxVar extra orig_clauses).chunked_clauses, positive_count c ≤ L := by
  unfold chunk
  apply foldl_inv (fun s => ∀ c ∈ s.chunked_clauses, positive_count c ≤ L) (chunkClause L)
    (fun s a hs => chunkClause_boundInv L hL s a hs)
  simp

/-- Witness of C1 (amended) at `L = 2` and the clause `x0 ∨ x1 ∨ x2`. -/
theorem chunk_positive_count_le_witness :
    2 ≤ 2 ∧ ∀ c ∈ (chunk 2 3 [] [[⟨0, false⟩, ⟨1, false⟩, ⟨2, false⟩]]).chunked_clauses,
      positive_count c ≤ 2 :=
  ⟨by decide, chunk_positive_count_le 2 (by decide) 3 [] _⟩

/-- C1 as stated fails at `L = 1`: the clause `x0 ∨ x1` is chopped into `x0 ∨ ¬x2` and
`x2 ∨ x1`, and the second one has two non-negated literals. -/
theorem chunk_positive_count_counterexample :
    (chunk 1 2 [] [[⟨0, false⟩, ⟨1, false⟩]]).chunked_clauses =
        [[⟨0, false⟩, ⟨2, true⟩], [⟨2, false⟩, ⟨1, false⟩]] ∧
      ¬ (∀ c ∈ (chunk 1 2 [] [[⟨0, false⟩, ⟨1, false⟩]]).chunked_clauses,
          positive_count c ≤ 1) := by
  decide

/-! ### C4: the identity case of the chunker -/

/-- C4: when the clause's size is at most `L`, or its number of non-negated literals is
at most `L`, the chunker appends exactly one clause, the input clause itself, to
`chunked_clauses` and changes nothing else: `maxVar` keeps its value (no auxiliary
variable is allocated) and so does every other variable of the loop. -/
theorem chunkClause_identity (L : Nat) (s : ChunkState) (clause : Clause)
    (h : clause.length ≤ L ∨ positive_count clause ≤ L) :
    chunkClause L s clause = { s with chunked_clauses := s.chunked_clauses ++ [clause] } ∧
      (chunkClause L s clause).chunked_clauses = s.chunked_clauses ++ [clause] ∧
      (chunkClause L s clause).maxVar = s.maxVar := by
  have key : chunkClause L s clause =
      { s with chunked_clauses := s.chunked_clauses ++ [clause] } := by
    unfold chunkClause
    by_cases h1 : clause.length ≤ L
    · simp [h1]
    · have h2 : positive_count clause ≤ L := h.resolve_left h1
      simp [h1, h2]
  exact ⟨key, by rw [key], by rw [key]⟩

/-- Witness of C4: the clause `x0 ∨ ¬x1 ∨ ¬x2` has one non-negated literal and `L = 1`. -/
theorem chunkClause_identity_witness :
    (([⟨0, false⟩, ⟨1, true⟩, ⟨2, true⟩] : Clause).length ≤ 1 ∨
        positive_count [⟨0, false⟩, ⟨1, true⟩, ⟨2, true⟩] ≤ 1) ∧
      (chunkClause 1 ⟨[], 0, 3, [], []⟩ [⟨0, false⟩, ⟨1, true⟩, ⟨2, true⟩] =
          { (⟨[], 0, 3, [], []⟩ : ChunkState) with
            chunked_clauses := [] ++ [[⟨0, false⟩, ⟨1, true⟩, ⟨2, true⟩]] } ∧
        (chunkClause 1 ⟨[], 0, 3, [], []⟩
            [⟨0, false⟩, ⟨1, true⟩, ⟨2, true⟩]).chunked_clauses =
          [] ++ [[⟨0, false⟩, ⟨1, true⟩, ⟨2, true⟩]] ∧
        (chunkClause 1 ⟨[], 0, 3, [], []⟩ [⟨0, false⟩, ⟨1, true⟩, ⟨2, true⟩]).maxVar = 3) :=
  ⟨by decide, chunkClause_identity 1 ⟨[], 0, 3, [], []⟩ _ (by decide)⟩

/-! ### C2: equisatisfiability of the chunked clauses -/

@[simp] theorem sat_nil (σ : Nat → Bool) : Clause.sat σ [] = false := rfl

@[simp] theorem sat_cons (σ : Nat → Bool) (l : Lit) (c : Clause) :
    Clause.sat σ (l :: c) = (l.holds σ || Clause.sat σ c) := by
  simp [Clause.sat]

@[simp] theorem sat_append (σ : Nat → Bool) (c d : Clause) :
    Clause.sat σ (c ++ d) = (Clause.sat σ c || Clause.sat σ d) := by
  simp [Clause.sat]

theorem holds_congr (σ τ : Nat → Bool) (l : Lit) (h : τ l.var = σ l.var) :
    l.holds τ = l.holds σ := by
  simp [Lit.holds, h]

theorem sat_congr (σ τ : Nat → Bool) (c : Clause) (h : ∀ l ∈ c, τ l.var = σ l.var) :
    Clause.sat τ c = Clause.sat σ c := by
  induction c with
  | nil => rfl
  | cons a c ih =>
    simp only [sat_cons]
    rw [holds_congr σ τ a (h a (by simp)), ih (fun l hl => h l (by simp [hl]))]

/-- One direction, one step of the scan: if the clauses emitted so far and the bucket
are satisfied, so is the part of the clause read so far. -/
theorem chunkStep_sound (L : Nat) (σ : Nat → Bool) (Q : Prop) (s : ChunkState)
    (done : Clause) (l : Lit)
    (h : (∀ c ∈ s.chunked_clauses, Clause.sat σ c = true) →
      Q ∧ (Clause.sat σ s.collect = true → Clause.sat σ done = true)) :
    (∀ c ∈ (chunkStep L s l).chunked_clauses, Clause.sat σ c = true) →
      Q ∧ (Clause.sat σ (chunkStep L s l).collect = true →
        Clause.sat σ (done ++ [l]) = true) := by
  rw [chunkStep_eq]
  split
  · intro hall
    have hold : ∀ c ∈ s.chunked_clauses, Clause.sat σ c = true :=
      fun c hc => hall c (by simp [hc])
    have hnew := hall (s.collect ++ [{ var := s.maxVar % 2147483648, sign := true }]) (by simp)
    obtain ⟨hQ, hK⟩ := h hold
    refine ⟨hQ, ?_⟩
    intro hb
    simp only [sat_cons, sat_nil, sat_append, Lit.holds, Bool.or_false, Bool.or_eq_true,
      Bool.not_eq_true', if_true, Bool.false_eq_true, if_false] at hb hnew ⊢
    rcases hb with hb | hb
    · rcases hnew with hnew | hnew
      · exact Or.inl (hK hnew)
      · rw [hb] at hnew; cases hnew
    · exact Or.inr hb
  · intro hall
    obtain ⟨hQ, hK⟩ := h hall
    refine ⟨hQ, ?_⟩
    intro hb
    simp only [sat_append, Bool.or_eq_true] at hb ⊢
    rcases hb with hb | hb
    · exact Or.inl (hK hb)
    · exact Or.inr hb

theorem scan_sound (L : Nat) (σ : Nat → Bool) (Q : Prop) :
    ∀ (ls : List Lit) (s : ChunkState) (done : Clause),
      ((∀ c ∈ s.chunked_clauses, Clause.sat σ c = true) →
        Q ∧ (Clause.sat σ s.collect = true → Clause.sat σ done = true)) →
      (∀ c ∈ (ls.foldl (chunkStep L) s).chunked_clauses, Clause.sat σ c = true) →
        Q ∧ (Clause.sat σ (ls.foldl (chunkStep L) s).collect = true →
          Clause.sat σ (done ++ ls) = true) := by
  intro ls
  induction ls with
  | nil => intro s done h; simpa using h
  | cons l ls ih =>
    intro s done h
    have := ih (chunkStep L s l) (done ++ [l]) (chunkStep_sound L σ Q s done l h)
    simpa using this

theorem chunkStep_collect_ne_nil (L : Nat) (s : ChunkState) (l : Lit) :
    (chunkStep L s l).collect ≠ [] := by
  rw [chunkStep_eq]
  split <;> simp

theorem scan_collect_ne_nil (L : Nat) (ls : List Lit) (s : ChunkState) (h : ls ≠ []) :
    (ls.foldl (chunkStep L) s).collect ≠ [] := by
  cases ls with
  | nil => exact absurd rfl h
  | cons l ls =>
    simp only [List.foldl_cons]
    exact foldl_inv (fun t => t.collect ≠ []) (chunkStep L)
      (fun t a _ => chunkStep_collect_ne_nil L t a) ls _ (chunkStep_collect_ne_nil L s l)

/-- The result of chopping a clause that is longer than the bound: the last bucket is
not empty and is pushed. -/
theorem chopClause_eq (L : Nat) (s : ChunkState) (clause : Clause) (h : clause ≠ []) :
    chopClause L s clause =
      { clause.foldl (chunkStep L) { s with collect := [], count := 0 } with
        extra_clauses :=
          (clause.foldl (chunkStep L) { s with collect := [], count := 0 }).extra_clauses ++
            [(clause.foldl (chunkStep L) { s with collect := [], count := 0 }).collect]
        chunked_clauses :=
          (clause.foldl (chunkStep L) { s with collect := [], count := 0 }).chunked_clauses ++
            [(clause.foldl (chunkStep L) { s with collect := [], count := 0 }).collect] } := by
  unfold chopClause
  simp [scan_collect_ne_nil L clause _ h]

theorem chunkClause_sound (L : Nat) (σ : Nat → Bool) (s : ChunkState) (clause : Clause)
    (h : ∀ c ∈ (chunkClause L s clause).chunked_clauses, Clause.sat σ c = true) :
    (∀ c ∈ s.chunked_clauses, Clause.sat σ c = true) ∧ Clause.sat σ clause = true := by
  unfold chunkClause at h
  split at h
  · exact ⟨fun c hc => h c (by simp [hc]), h clause (by simp)⟩
  · split at h
    · exact ⟨fun c hc => h c (by simp [hc]), h clause (by simp)⟩
    · rename_i hlen _
      have hne : clause ≠ [] := by
        intro h0; subst h0; simp at hlen
      rw [chopClause_eq L s clause hne] at h
      have key := scan_sound L σ (∀ c ∈ s.chunked_clauses, Clause.sat σ c = true) clause
        { s with collect := [], count := 0 } [] (fun hall => ⟨hall, fun hc => by simp at hc⟩)
        (fun c hc => h c (by simp [hc]))
      exact ⟨key.1, by simpa using key.2 (h _ (by simp))⟩

theorem chunkAll_sound (L : Nat) (σ : Nat → Bool) :
    ∀ (cls : List Clause) (s : ChunkState),
      (∀ c ∈ (cls.foldl (chunkClause L) s).chunked_clauses, Clause.sat σ c = true) →
      (∀ c ∈ s.chunked_clauses, Clause.sat σ c = true) ∧ ∀ c ∈ cls, Clause.sat σ c = true := by
  intro cls
  induction cls with
  | nil => intro s h; exact ⟨by simpa using h, by simp⟩
  | cons a cls ih =>
    intro s h
    obtain ⟨h1, h2⟩ := ih (chunkClause L s a) (by simpa using h)
    obtain ⟨h3, h4⟩ := chunkClause_sound L σ s a h1
    refine ⟨h3, ?_⟩
    intro c hc
    simp only [List.mem_cons] at hc
    rcases hc with hc | hc
    · subst hc; exact h4
    · exact h2 c hc

theorem scan_maxVar_mono (L : Nat) :
    ∀ (ls : List Lit) (s : ChunkState), s.maxVar ≤ (ls.foldl (chunkStep L) s).maxVar := by
  intro ls
  induction ls with
  | nil => intro s; exact le_refl _
  | cons l ls ih =>
    intro s
    simp only [List.foldl_cons]
    refine le_trans ?_ (ih (chunkStep L s l))
    rw [chunkStep_eq]
    split
    · exact Nat.le_succ _
    · exact le_refl _

theorem chunkClause_maxVar_mono (L : Nat) (s : ChunkState) (clause : Clause) :
    s.maxVar ≤ (chunkClause L s clause).maxVar := by
  unfold chunkClause
  split
  · exact le_refl _
  · split
    · exact le_refl _
    · unfold chopClause
      simp only []
      split
      · exact scan_maxVar_mono L clause { s with collect := [], count := 0 }
      · exact scan_maxVar_mono L clause { s with collect := [], count := 0 }

theorem chunkAll_maxVar_mono (L : Nat) :
    ∀ (cls : List Clause) (s : ChunkState), s.maxVar ≤ (cls.foldl (chunkClause L) s).maxVar := by
  intro cls
  induction cls with
  | nil => intro s; exact le_refl _
  | cons a cls ih =>
    intro s
    simp only [List.foldl_cons]
    exact le_trans (chunkClause_maxVar_mono L s a) (ih (chunkClause L s a))

theorem scan_complete (L : Nat) :
    ∀ (ls : List Lit) (s : ChunkState) (σ : Nat → Bool) (done : Clause),
      (∀ l ∈ ls, l.var < s.maxVar) → (∀ l ∈ done, l.var < s.maxVar) →
      (∀ l ∈ s.collect, l.var < s.maxVar) → GoodChunks σ s →
      (Clause.sat σ done = true → Clause.sat σ s.collect = true) →
      (ls.foldl (chunkStep L) s).maxVar ≤ 2147483648 →
      ∃ τ : Nat → Bool, (∀ v, v < s.maxVar → τ v = σ v) ∧
        s.maxVar ≤ (ls.foldl (chunkStep L) s).maxVar ∧
        (∀ l ∈ (ls.foldl (chunkStep L) s).collect,
          l.var < (ls.foldl (chunkStep L) s).maxVar) ∧
        GoodChunks τ (ls.foldl (chunkStep L) s) ∧
        (Clause.sat τ (done ++ ls) = true →
          Clause.sat τ (ls.foldl (chunkStep L) s).collect = true) := by
  intro ls
  induction ls with
  | nil =>
    intro s σ done _ _ hcol hgood hK _
    exact ⟨σ, fun _ _ => rfl, le_refl _, hcol, hgood, by simpa using hK⟩
  | cons l ls ih =>
    intro s σ done hls hdone hcol hgood hK hfit
    have hl : l.var < s.maxVar := hls l (by simp)
    have hls1 : ∀ x ∈ ls, x.var < s.maxVar := fun x hx => hls x (by simp [hx])
    simp only [List.foldl_cons] at hfit ⊢
    by_cases hsplit : s.count + l.positive > L
    · -- a split: the auxiliary variable takes the value of the replaced bucket
      have hlt : s.maxVar < 2147483648 := by
        have hmono := scan_maxVar_mono L ls (chunkStep L s l)
        have hm1 : (chunkStep L s l).maxVar = s.maxVar + 1 := by
          rw [chunkStep_eq, if_pos hsplit]
        omega
      have hmod : s.maxVar % 2147483648 = s.maxVar := Nat.mod_eq_of_lt hlt
      have hstep : chunkStep L s l =
          { collect := [{ var := s.maxVar, sign := false }, l]
            count := 2
            maxVar := s.maxVar + 1
            extra_clauses :=
              s.extra_clauses ++ [s.collect ++ [{ var := s.maxVar, sign := true }]]
            chunked_clauses :=
              s.chunked_clauses ++ [s.collect ++ [{ var := s.maxVar, sign := true }]] } := by
        rw [chunkStep_eq, if_pos hsplit, hmod]
      rw [hstep] at hfit ⊢
      have hagree : ∀ v, v < s.maxVar →
          Function.update σ s.maxVar (Clause.sat σ s.collect) v = σ v := by
        intro v hv
        exact Function.update_noteq (Nat.ne_of_lt hv) _ _
      have hsat : ∀ c : Clause, (∀ x ∈ c, x.var < s.maxVar) →
          Clause.sat (Function.update σ s.maxVar (Clause.sat σ s.collect)) c =
            Clause.sat σ c :=
        fun c hc => sat_congr σ _ c (fun x hx => hagree _ (hc x hx))
      have haux : Function.update σ s.maxVar (Clause.sat σ s.collect) s.maxVar =
          Clause.sat σ s.collect := Function.update_same _ _ _
      obtain ⟨τ, h1, h2, h3, h4, h5⟩ := ih
        { collect := [{ var := s.maxVar, sign := false }, l]
          count := 2
          maxVar := s.maxVar + 1
          extra_clauses :=
            s.extra_clauses ++ [s.collect ++ [{ var := s.maxVar, sign := true }]]
          chunked_clauses :=
            s.chunked_clauses ++ [s.collect ++ [{ var := s.maxVar, sign := true }]] }
        (Function.update σ s.maxVar (Clause.sat σ s.collect)) (done ++ [l])
        (fun x hx => Nat.lt_succ_of_lt (hls1 x hx))
        (by
          intro x hx
          simp only [List.mem_append, List.mem_singleton] at hx
          rcases hx with hx | hx
          · exact Nat.lt_succ_of_lt (hdone x hx)
          · subst hx; exact Nat.lt_succ_of_lt hl)
        (by
          intro x hx
          simp only [List.mem_cons, List.mem_singleton, List.not_mem_nil, or_false] at hx
          rcases hx with hx | hx
          · subst hx; exact Nat.lt_succ_self _
          · subst hx; exact Nat.lt_succ_of_lt hl)
        (by
          intro c hc
          simp only [List.mem_append, List.mem_singleton] at hc
          rcases hc with hc | hc
          · obtain ⟨hv, hs⟩ := hgood c hc
            exact ⟨fun x hx => Nat.lt_succ_of_lt (hv x hx), by rw [hsat c hv]; exact hs⟩
          · subst hc
            refine ⟨?_, ?_⟩
            · intro x hx
              simp only [List.mem_append, List.mem_singleton] at hx
              rcases hx with hx | hx
              · exact Nat.lt_succ_of_lt (hcol x hx)
              · subst hx; exact Nat.lt_succ_self _
            · simp only [sat_append, sat_cons, sat_nil, Bool.or_false]
              rw [hsat s.collect hcol]
              simp only [Lit.holds, if_true, haux]
              cases Clause.sat σ s.collect <;> rfl)
        (by
          simp only [sat_append, sat_cons, sat_nil, Bool.or_false]
          rw [hsat done hdone]
          simp only [Lit.holds, Bool.false_eq_true, if_false, haux, Bool.or_eq_true]
          intro h
          rcases h with h | h
          · exact Or.inl (hK h)
          · exact Or.inr h)
        hfit
      refine ⟨τ, ?_, ?_, h3, h4, ?_⟩
      · intro v hv
        rw [h1 v (Nat.lt_succ_of_lt hv), hagree v hv]
      · exact le_trans (Nat.le_succ _) h2
      · simpa using h5
    · have hstep : chunkStep L s l =
          { s with collect := s.collect ++ [l], count := s.count + l.positive } := by
        rw [chunkStep_eq, if_neg hsplit]
      rw [hstep] at hfit ⊢
      obtain ⟨τ, h1, h2, h3, h4, h5⟩ := ih
        { s with collect := s.collect ++ [l], count := s.count + l.positive } σ (done ++ [l])
        hls1
        (by
          intro x hx
          simp only [List.mem_append, List.mem_singleton] at hx
          rcases hx with hx | hx
          · exact hdone x hx
          · subst hx; exact hl)
        (by
          intro x hx
          simp only [List.mem_append, List.mem_singleton] at hx
          rcases hx with hx | hx
          · exact hcol x hx
          · subst hx; exact hl)
        hgood
        (by
          simp only [sat_append, sat_cons, sat_nil, Bool.or_false, Bool.or_eq_true]
          intro h
          rcases h with h | h
          · exact Or.inl (hK h)
          · exact Or.inr h)
        hfit
      exact ⟨τ, h1, h2, h3, h4, by simpa using h5⟩

theorem chunkClause_complete (L : Nat) (s : ChunkState) (σ : Nat → Bool) (clause : Clause)
    (hvars : ∀ l ∈ clause, l.var < s.maxVar) (hgood : GoodChunks σ s)
    (hsat : Clause.sat σ clause = true)
    (hfit : (chunkClause L s clause).maxVar ≤ 2147483648) :
    ∃ τ : Nat → Bool, (∀ v, v < s.maxVar → τ v = σ v) ∧
      s.maxVar ≤ (chunkClause L s clause).maxVar ∧ GoodChunks τ (chunkClause L s clause) := by
  have hid : GoodChunks σ { s with chunked_clauses := s.chunked_clauses ++ [clause] } := by
    intro c hc
    simp only [List.mem_append, List.mem_singleton] at hc
    rcases hc with hc | hc
    · exact hgood c hc
    · subst hc; exact ⟨hvars, hsat⟩
  by_cases h1 : clause.length ≤ L
  · have e : chunkClause L s clause =
        { s with chunked_clauses := s.chunked_clauses ++ [clause] } := by
      simp [chunkClause, h1]
    rw [e]
    exact ⟨σ, fun _ _ => rfl, le_refl _, hid⟩
  · by_cases h2 : positive_count clause ≤ L
    · have e : chunkClause L s clause =
          { s with chunked_clauses := s.chunked_clauses ++ [clause] } := by
        simp [chunkClause, h1, h2]
      rw [e]
      exact ⟨σ, fun _ _ => rfl, le_refl _, hid⟩
    · have e : chunkClause L s clause = chopClause L s clause := by
        simp [chunkClause, h1, h2]
      have hne : clause ≠ [] := by
        intro h0; subst h0; simp at h1
      rw [e, chopClause_eq L s clause hne] at hfit
      rw [e, chopClause_eq L s clause hne]
      obtain ⟨τ, g1, g2, g3, g4, g5⟩ := scan_complete L clause
        { s with collect := [], count := 0 } σ [] hvars (by simp) (by simp) hgood (by simp)
        hfit
      refine ⟨τ, g1, g2, ?_⟩
      intro c hc
      simp only [List.mem_append, List.mem_singleton] at hc
      rcases hc with hc | hc
      · exact g4 c hc
      · subst hc
        refine ⟨g3, g5 ?_⟩
        rw [List.nil_append, sat_congr σ τ clause (fun x hx => g1 _ (hvars x hx))]
        exact hsat

theorem chunkAll_complete (L : Nat) :
    ∀ (cls : List Clause) (s : ChunkState) (σ : Nat → Bool),
      (∀ c ∈ cls, ∀ l ∈ c, l.var < s.maxVar) → GoodChunks σ s →
      (∀ c ∈ cls, Clause.sat σ c = true) →
      (cls.foldl (chunkClause L) s).maxVar ≤ 2147483648 →
      ∃ τ : Nat → Bool, (∀ v, v < s.maxVar → τ v = σ v) ∧
        GoodChunks τ (cls.foldl (chunkClause L) s) := by
  intro cls
  induction cls with
  | nil => intro s σ _ hgood _ _; exact ⟨σ, fun _ _ => rfl, by simpa using hgood⟩
  | cons a cls ih =>
    intro s σ hvars hgood hsat hfit
    simp only [List.foldl_cons] at hfit
    obtain ⟨τ, h1, h2, h3⟩ := chunkClause_complete L s σ a (hvars a (by simp)) hgood
      (hsat a (by simp)) (le_trans (chunkAll_maxVar_mono L cls (chunkClause L s a)) hfit)
    obtain ⟨ρ, g1, g2⟩ := ih (chunkClause L s a) τ
      (fun c hc l hl => lt_of_lt_of_le (hvars c (by simp [hc]) l hl) h2) h3
      (by
        intro c hc
        rw [sat_congr σ τ c (fun x hx => h1 _ (hvars c (by simp [hc]) x hx))]
        exact hsat c (by simp [hc]))
      hfit
    refine ⟨ρ, ?_, by simpa using g2⟩
    intro v hv
    rw [g1 v (lt_of_lt_of_le hv h2), h1 v hv]

/-- C2 (amended): for every bound `L`, when all variables of the original clauses are
below the starting value `m` of the counter and the counter ends at no more than `2^31`,
so that every auxiliary variable fits the 31 bits that a literal has for its variable,
the chunked clauses are equisatisfiable with the original ones under projection onto the
original variables: an assignment satisfying every original clause can be changed on
variables `≥ m` only so that it satisfies every chunked clause, and an assignment
satisfying every chunked clause satisfies every original clause. Clauses split several
times are covered. -/
theorem chunk_equisatisfiable (L m : Nat) (extra : List Clause) (orig_clauses : List Clause)
    (hvars : ∀ c ∈ orig_clauses, ∀ l ∈ c, l.var < m)
    (hfit : (chunk L m extra orig_clauses).maxVar ≤ 2147483648) :
    (∀ σ : Nat → Bool, (∀ c ∈ orig_clauses, Clause.sat σ c = true) →
      ∃ τ : Nat → Bool, (∀ v, v < m → τ v = σ v) ∧
        ∀ c ∈ (chunk L m extra orig_clauses).chunked_clauses, Clause.sat τ c = true) ∧
    (∀ σ : Nat → Bool,
      (∀ c ∈ (chunk L m extra orig_clauses).chunked_clauses, Clause.sat σ c = true) →
        ∀ c ∈ orig_clauses, Clause.sat σ c = true) := by
  refine ⟨?_, ?_⟩
  · intro σ hsat
    obtain ⟨τ, h1, h2⟩ := chunkAll_complete L orig_clauses
      { collect := [], count := 0, maxVar := m, extra_clauses := extra, chunked_clauses := [] }
      σ hvars (by intro c hc; simp at hc) hsat hfit
    exact ⟨τ, h1, fun c hc => (h2 c hc).2⟩
  · intro σ h
    exact (chunkAll_sound L σ orig_clauses _ h).2

/-- Witness of C2 (amended): `L = 2` and the clause `x0 ∨ x1 ∨ x2 ∨ x3 ∨ x4`, which is
split three times (auxiliary variables 5, 6 and 7). -/
theorem chunk_equisatisfiable_witness :
    ((∀ c ∈ [[(⟨0, false⟩ : Lit), ⟨1, false⟩, ⟨2, false⟩, ⟨3, false⟩, ⟨4, false⟩]],
        ∀ l ∈ c, l.var < 5) ∧
      (chunk 2 5 [] [[⟨0, false⟩, ⟨1, false⟩, ⟨2, false⟩, ⟨3, false⟩, ⟨4, false⟩]]).maxVar
        ≤ 2147483648) ∧
      (chunk 2 5 [] [[⟨0, false⟩, ⟨1, false⟩, ⟨2, false⟩, ⟨3, false⟩, ⟨4, false⟩]]).maxVar
        = 8 ∧
      ((∀ σ : Nat → Bool,
        (∀ c ∈ [[(⟨0, false⟩ : Lit), ⟨1, false⟩, ⟨2, false⟩, ⟨3, false⟩, ⟨4, false⟩]],
          Clause.sat σ c = true) →
        ∃ τ : Nat → Bool, (∀ v, v < 5 → τ v = σ v) ∧
          ∀ c ∈ (chunk 2 5 []
              [[⟨0, false⟩, ⟨1, false⟩, ⟨2, false⟩, ⟨3, false⟩, ⟨4, false⟩]]).chunked_clauses,
            Clause.sat τ c = true) ∧
      (∀ σ : Nat → Bool,
        (∀ c ∈ (chunk 2 5 []
            [[⟨0, false⟩, ⟨1, false⟩, ⟨2, false⟩, ⟨3, false⟩, ⟨4, false⟩]]).chunked_clauses,
          Clause.sat σ c = true) →
        ∀ c ∈ [[(⟨0, false⟩ : Lit), ⟨1, false⟩, ⟨2, false⟩, ⟨3, false⟩, ⟨4, false⟩]],
          Clause.sat σ c = true)) :=
  ⟨⟨by decide, by decide⟩, by decide, chunk_equisatisfiable 2 5 [] _ (by decide) (by decide)⟩

/-- C2 as stated fails once the counter passes `2^31`: with `m = 2^31 - 1`, `L = 2` and
the clause `x0 ∨ x1 ∨ x2 ∨ x3`, whose variables are below `m`, the second auxiliary
literal is built from the counter value `2^31` and comes out as variable 0, so the
chunked clauses are `x0 ∨ x1 ∨ ¬a`, `a ∨ x2 ∨ ¬x0` and `x0 ∨ x3` with `a = 2^31 - 1`.
The assignment that sets only `x1` satisfies the original clause, and no change of it on
variables `≥ m` satisfies `x0 ∨ x3`. -/
theorem chunk_equisatisfiable_counterexample :
    (∀ c ∈ [[(⟨0, false⟩ : Lit), ⟨1, false⟩, ⟨2, false⟩, ⟨3, false⟩]],
        ∀ l ∈ c, l.var < 2147483647) ∧
    (chunk 2 2147483647 [] [[⟨0, false⟩, ⟨1, false⟩, ⟨2, false⟩, ⟨3, false⟩]]).chunked_clauses =
      [[⟨0, false⟩, ⟨1, false⟩, ⟨2147483647, true⟩],
        [⟨2147483647, false⟩, ⟨2, false⟩, ⟨0, true⟩], [⟨0, false⟩, ⟨3, false⟩]] ∧
    ¬ (∀ σ : Nat → Bool,
      (∀ c ∈ [[(⟨0, false⟩ : Lit), ⟨1, false⟩, ⟨2, false⟩, ⟨3, false⟩]],
        Clause.sat σ c = true) →
      ∃ τ : Nat → Bool, (∀ v, v < 2147483647 → τ v = σ v) ∧
        ∀ c ∈ (chunk 2 2147483647 []
            [[⟨0, false⟩, ⟨1, false⟩, ⟨2, false⟩, ⟨3, false⟩]]).chunked_clauses,
          Clause.sat τ c = true) := by
  have hch : (chunk 2 2147483647 []
      [[⟨0, false⟩, ⟨1, false⟩, ⟨2, false⟩, ⟨3, false⟩]]).chunked_clauses =
        [[⟨0, false⟩, ⟨1, false⟩, ⟨2147483647, true⟩],
          [⟨2147483647, false⟩, ⟨2, false⟩, ⟨0, true⟩], [⟨0, false⟩, ⟨3, false⟩]] := by
    decide
  refine ⟨by decide, hch, ?_⟩
  intro h
  obtain ⟨τ, h1, h2⟩ := h (fun v => decide (v = 1)) (by
    intro c hc
    simp only [List.mem_singleton] at hc
    subst hc
    simp [Clause.sat, Lit.holds])
  have h0 : τ 0 = false := by rw [h1 0 (by decide)]; rfl
  have h3 : τ 3 = false := by rw [h1 3 (by decide)]; rfl
  have hlast := h2 [⟨0, false⟩, ⟨3, false⟩] (by rw [hch]; simp)
  simp [Clause.sat, Lit.holds, h0, h3] at hlast

/-! ### C3: the encoder's polynomial vanishes exactly on the satisfying assignments -/

namespace BoolePolynomial

theorem eval_zero (σ : Nat → Bool) : eval σ zero = 0 := by
  simp [eval, zero]

theorem eval_one (σ : Nat → Bool) : eval σ one = 1 := by
  rw [eval, one, Finset.sum_singleton, evalMonom, if_pos]
  intro v hv
  exact absurd hv (Finset.not_mem_empty v)

theorem eval_BooleVariable (σ : Nat → Bool) (v : Nat) :
    eval σ (BooleVariable v) = if σ v = true then 1 else 0 := by
  rw [eval, BooleVariable, Finset.sum_singleton, evalMonom]
  by_cases h : σ v = true
  · rw [if_pos h, if_pos]
    intro w hw
    rw [Finset.mem_singleton.mp hw]
    exact h
  · rw [if_neg h, if_neg]
    intro hall
    exact h (hall v (Finset.mem_singleton_self v))

theorem eval_symmDiff (σ : Nat → Bool) (p q : BoolePolynomial) :
    eval σ (symmDiff p q) = eval σ p + eval σ q := by
  unfold eval
  have hp := Finset.sum_inter_add_sum_diff p q (evalMonom σ)
  have hq := Finset.sum_inter_add_sum_diff q p (evalMonom σ)
  have hu : symmDiff p q = (p \ q) ∪ (q \ p) := rfl
  rw [hu, Finset.sum_union disjoint_sdiff_sdiff, ← hp, ← hq, Finset.inter_comm q p]
  have h2 : ∀ a : ZMod 2, a + a = 0 := fun a => CharTwo.add_self_eq_zero a
  have key : ∀ a b c : ZMod 2, b + c = a + b + (a + c) := by
    intro a b c
    have : a + b + (a + c) = (a + a) + (b + c) := by ring
    rw [this, h2, zero_add]
  exact key _ _ _

theorem eval_add (σ : Nat → Bool) (p q : BoolePolynomial) :
    eval σ (add p q) = eval σ p + eval σ q :=
  eval_symmDiff σ p q

theorem evalMonom_union (σ : Nat → Bool) (m n : BooleMonomial) :
    evalMonom σ (m ∪ n) = evalMonom σ m * evalMonom σ n := by
  unfold evalMonom
  by_cases hm : ∀ v ∈ m, σ v = true
  · by_cases hn : ∀ v ∈ n, σ v = true
    · have : ∀ v ∈ m ∪ n, σ v = true := by
        intro v hv
        rcases Finset.mem_union.mp hv with h | h
        · exact hm v h
        · exact hn v h
      rw [if_pos hm, if_pos hn, if_pos this, mul_one]
    · have : ¬ ∀ v ∈ m ∪ n, σ v = true :=
        fun h => hn (fun v hv => h v (Finset.mem_union_right _ hv))
      rw [if_neg hn, if_neg this, mul_zero]
  · have : ¬ ∀ v ∈ m ∪ n, σ v = true :=
      fun h => hm (fun v hv => h v (Finset.mem_union_left _ hv))
    rw [if_neg hm, if_neg this, zero_mul]

theorem eval_mulMonom (σ : Nat → Bool) (m : BooleMonomial) (q : BoolePolynomial) :
    eval σ (mulMonom m q) = evalMonom σ m * eval σ q := by
  unfold mulMonom
  induction q using Finset.induction_on with
  | empty => simp [eval]
  | insert hn ih =>
    rename_i n q
    rw [Finset.fold_insert hn, eval_symmDiff, ih]
    have h1 : eval σ {m ∪ n} = evalMonom σ m * evalMonom σ n := by
      simp [eval, evalMonom_union]
    have h2 : eval σ (insert n q) = evalMonom σ n + eval σ q := by
      simp [eval, Finset.sum_insert hn]
    rw [h1, h2]
    ring

theorem eval_mul (σ : Nat → Bool) (p q : BoolePolynomial) :
    eval σ (mul p q) = eval σ p * eval σ q := by
  unfold mul
  induction p using Finset.induction_on with
  | empty => simp [eval]
  | insert hm ih =>
    rename_i m p
    rw [Finset.fold_insert hm, eval_symmDiff, ih, eval_mulMonom]
    have h2 : eval σ (insert m p) = evalMonom σ m + eval σ p := by
      simp [eval, Finset.sum_insert hm]
    rw [h2]
    ring

end BoolePolynomial

/-- The factor that one literal contributes to the value of the polynomial. -/
theorem eval_encodeStep (σ : Nat → Bool) (poly : BoolePolynomial) (l : Lit) :
    BoolePolynomial.eval σ (encodeStep poly l) =
      BoolePolynomial.eval σ poly * (if l.holds σ = true then 0 else 1) := by
  unfold encodeStep
  simp only [BoolePolynomial.eval_add, BoolePolynomial.eval_mul,
    BoolePolynomial.eval_BooleVariable]
  have h2 : ∀ a : ZMod 2, a + a = 0 := fun a => CharTwo.add_self_eq_zero a
  cases hs : l.sign <;> cases hv : σ l.var <;>
    simp [Lit.holds, hs, hv, BoolePolynomial.eval_zero, h2]

theorem eval_encode_foldl (σ : Nat → Bool) (clause : Clause) (poly : BoolePolynomial) :
    BoolePolynomial.eval σ (clause.foldl encodeStep poly) =
      BoolePolynomial.eval σ poly * (if Clause.sat σ clause = true then 0 else 1) := by
  induction clause generalizing poly with
  | nil => simp
  | cons l c ih =>
    simp only [List.foldl_cons, ih, eval_encodeStep, sat_cons]
    cases l.holds σ <;> cases Clause.sat σ c <;> simp

theorem sat_iff (σ : Nat → Bool) (clause : Clause) :
    Clause.sat σ clause = true ↔
      ∃ l ∈ clause, (l.sign = false ∧ σ l.var = true) ∨ (l.sign = true ∧ σ l.var = false) := by
  simp only [Clause.sat, List.any_eq_true]
  constructor
  · rintro ⟨l, hl, h⟩
    refine ⟨l, hl, ?_⟩
    cases hs : l.sign <;> simp [Lit.holds, hs] at h ⊢ <;> exact h
  · rintro ⟨l, hl, h⟩
    refine ⟨l, hl, ?_⟩
    rcases h with ⟨hs, hv⟩ | ⟨hs, hv⟩ <;> simp [Lit.holds, hs, hv]

/-- C3: for every clause and every assignment, the polynomial that the encoder loop of
`Library::read_cnf` builds evaluates over GF(2) to 0 exactly when the assignment
satisfies the clause (some non-negated literal's variable is 1 or some negated literal's
variable is 0) and to 1 otherwise; the empty clause encodes to the constant 1, and the
clause `x0 ∨ ¬x1` encodes to `(1 + x0) * x1`, that is `x1 + x0*x1`. -/
theorem encodeClause_eval :
    (∀ (clause : Clause) (σ : Nat → Bool),
      (BoolePolynomial.eval σ (encodeClause clause) = 0 ↔
        ∃ l ∈ clause, (l.sign = false ∧ σ l.var = true) ∨ (l.sign = true ∧ σ l.var = false)) ∧
      ((¬ ∃ l ∈ clause, (l.sign = false ∧ σ l.var = true) ∨ (l.sign = true ∧ σ l.var = false)) →
        BoolePolynomial.eval σ (encodeClause clause) = 1)) ∧
    encodeClause [] = BoolePolynomial.one ∧
    encodeClause [⟨0, false⟩, ⟨1, true⟩] =
      BoolePolynomial.mul
        (BoolePolynomial.add BoolePolynomial.one (BoolePolynomial.BooleVariable 0))
        (BoolePolynomial.BooleVariable 1) ∧
    encodeClause [⟨0, false⟩, ⟨1, true⟩] = {{1}, {0, 1}} := by
  refine ⟨?_, rfl, by decide, by decide⟩
  intro clause σ
  have h := eval_encode_foldl σ clause BoolePolynomial.one
  rw [BoolePolynomial.eval_one, one_mul] at h
  have hdef : BoolePolynomial.eval σ (encodeClause clause) =
      if Clause.sat σ clause = true then 0 else 1 := h
  rw [← sat_iff]
  constructor
  · rw [hdef]
    by_cases hs : Clause.sat σ clause = true
    · simp [hs]
    · simp [hs]
  · intro hs
    rw [hdef, if_neg hs]

/-! ### C5 and C8: the DIMACS reader -/

theorem not_isspace_of_isdigit (c : Char) (h : isdigit c = true) : isspace c = false := by
  simp only [isdigit, isspace, Bool.and_eq_true, decide_eq_true_eq, Bool.or_eq_false_iff,
    decide_eq_false_iff_not, Bool.and_eq_false_imp] at *
  omega

theorem dropWhile_append_of_all {α : Type} (p : α → Bool) (ws l : List α)
    (h : ∀ c ∈ ws, p c = true) : (ws ++ l).dropWhile p = l.dropWhile p := by
  induction ws with
  | nil => rfl
  | cons a ws ih =>
    rw [List.cons_append, List.dropWhile_cons_of_pos (h a (by simp))]
    exact ih (fun c hc => h c (by simp [hc]))

theorem takeWhile_append_of_all {α : Type} (p : α → Bool) (ws l : List α)
    (h : ∀ c ∈ ws, p c = true) : (ws ++ l).takeWhile p = ws ++ l.takeWhile p := by
  induction ws with
  | nil => rfl
  | cons a ws ih =>
    rw [List.cons_append, List.takeWhile_cons_of_pos (h a (by simp))]
    rw [ih (fun c hc => h c (by simp [hc]))]
    rfl

theorem token_chars (t : List Char) (v : Int) (h : IntToken t v) :
    t ≠ [] ∧ ∀ c ∈ t, isspace c = false := by
  cases h with
  | unsigned ds hne hd => exact ⟨hne, fun c hc => not_isspace_of_isdigit c (hd c hc)⟩
  | plus ds hne hd =>
    refine ⟨by simp, ?_⟩
    intro c hc
    simp only [List.mem_cons] at hc
    rcases hc with hc | hc
    · subst hc; decide
    · exact not_isspace_of_isdigit c (hd c hc)
  | minus ds hne hd =>
    refine ⟨by simp, ?_⟩
    intro c hc
    simp only [List.mem_cons] at hc
    rcases hc with hc | hc
    · subst hc; decide
    · exact not_isspace_of_isdigit c (hd c hc)

/-- Reading the digits of a token whose sign has been consumed. -/
theorem takeWhile_digits (ds : List Char) (hd : ∀ c ∈ ds, isdigit c = true) :
    ds.takeWhile isdigit = ds := by
  have := takeWhile_append_of_all isdigit ds [] hd
  simpa using this

theorem dropWhile_token (t : List Char) (v : Int) (h : IntToken t v) :
    t.dropWhile isspace = t := by
  obtain ⟨hne, hc⟩ := token_chars t v h
  cases t with
  | nil => exact absurd rfl hne
  | cons a t => exact List.dropWhile_cons_of_neg (by simp [hc a (by simp)])

theorem stoi_unsigned (ds : List Char) (hne : ds ≠ []) (hd : ∀ c ∈ ds, isdigit c = true)
    (hr : digitsValue ds ≤ 2147483647) : stoi ds = Except.ok (digitsValue ds : Int) := by
  unfold stoi
  rw [dropWhile_token ds _ (IntToken.unsigned ds hne hd)]
  cases ds with
  | nil => exact absurd rfl hne
  | cons a ds =>
    have ha : isdigit a = true := hd a (by simp)
    have h1 : a ≠ '-' := by intro e; subst e; revert ha; decide
    have h2 : a ≠ '+' := by intro e; subst e; revert ha; decide
    simp only [List.head?_cons, Option.some.injEq, h1, h2, or_self, if_false,
      takeWhile_digits (a :: ds) hd]
    rw [if_neg (by simp), if_neg]
    omega

theorem stoi_plus (ds : List Char) (hne : ds ≠ []) (hd : ∀ c ∈ ds, isdigit c = true)
    (hr : digitsValue ds ≤ 2147483647) :
    stoi ('+' :: ds) = Except.ok (digitsValue ds : Int) := by
  unfold stoi
  rw [dropWhile_token _ _ (IntToken.plus ds hne hd)]
  have h1 : '+' ≠ '-' := by decide
  simp only [List.head?_cons, Option.some.injEq, h1, or_true, if_true, List.tail_cons,
    takeWhile_digits ds hd, if_false]
  rw [if_neg hne, if_neg]
  omega

theorem stoi_minus (ds : List Char) (hne : ds ≠ []) (hd : ∀ c ∈ ds, isdigit c = true)
    (hr : digitsValue ds ≤ 2147483647) :
    stoi ('-' :: ds) = Except.ok (-(digitsValue ds : Int)) := by
  unfold stoi
  rw [dropWhile_token _ _ (IntToken.minus ds hne hd)]
  simp only [List.head?_cons, true_or, if_true, List.tail_cons, takeWhile_digits ds hd]
  rw [if_neg hne, if_neg]
  omega

theorem stoi_token (t : List Char) (v : Int) (h : IntToken t v)
    (hr : v.natAbs ≤ 2147483647) : stoi t = Except.ok v := by
  cases h with
  | unsigned ds hne hd => exact stoi_unsigned _ hne hd (by simpa using hr)
  | plus ds hne hd => exact stoi_plus ds hne hd (by simpa using hr)
  | minus ds hne hd => exact stoi_minus ds hne hd (by simpa using hr)

theorem extract_token (ws t rest x : List Char) (hws : ∀ c ∈ ws, isspace c = true)
    (hne : t ≠ []) (ht : ∀ c ∈ t, isspace c = false)
    (hrest : rest = [] ∨ ∃ c r, rest = c :: r ∧ isspace c = true) :
    extract (ws ++ t ++ rest) x = (rest, decide (rest ≠ []), t) := by
  have hnot : ∀ c ∈ t, (fun c => !isspace c) c = true := fun c hc => by simp [ht c hc]
  have hdrop : (ws ++ t ++ rest).dropWhile isspace = t ++ rest := by
    rw [List.append_assoc, dropWhile_append_of_all isspace ws _ hws]
    cases t with
    | nil => exact absurd rfl hne
    | cons a t =>
      exact List.dropWhile_cons_of_neg (by simp [ht a (by simp)])
  have hnil : t ++ rest ≠ [] := by
    cases t with
    | nil => exact absurd rfl hne
    | cons a t => simp
  have htake : rest.takeWhile (fun c => !isspace c) = [] := by
    rcases hrest with h | ⟨c, r, h, hc⟩
    · subst h; rfl
    · subst h; exact List.takeWhile_cons_of_neg (by simp [hc])
  have hdrop2 : rest.dropWhile (fun c => !isspace c) = rest := by
    rcases hrest with h | ⟨c, r, h, hc⟩
    · subst h; rfl
    · subst h; exact List.dropWhile_cons_of_neg (by simp [hc])
  unfold extract
  simp only [hdrop, if_neg hnil]
  rw [dropWhile_append_of_all _ t rest hnot, takeWhile_append_of_all _ t rest hnot, htake,
    hdrop2, List.append_nil]

theorem lineLoop_clauseLine (ln : List Char) (vs : List Int) (h : ClauseLine ln vs) :
    (∀ v ∈ vs, v.natAbs ≤ 2147483647) → ∀ (fuel : Nat) (st : CacheState), vs.length < fuel →
      ∃ x, lineLoop fuel ln st = Except.ok
        { x := x
          lits := st.lits ++ vs.map toLit
          clauses := st.clauses ++ [st.lits ++ vs.map toLit]
          maxVar := max st.maxVar (maxAbs vs) } := by
  induction h with
  | zero ws z trail hws hz htrail =>
    intro _ fuel st hfuel
    obtain ⟨f, rfl⟩ : ∃ f, fuel = f + 1 := ⟨fuel - 1, by omega⟩
    obtain ⟨hne, hc⟩ := token_chars z 0 hz
    have hext := extract_token ws z trail st.x hws hne hc (by
      cases trail with
      | nil => exact Or.inl rfl
      | cons c r => exact Or.inr ⟨c, r, rfl, htrail c (by simp)⟩)
    have hstoi := stoi_token z 0 hz (by simp)
    refine ⟨z, ?_⟩
    simp only [lineLoop, hext, hstoi]
    simp [maxAbs]
  | lit ws t sp rest v vs hws ht hv hsp hrest ih =>
    intro hrange fuel st hfuel
    obtain ⟨f, rfl⟩ : ∃ f, fuel = f + 1 := ⟨fuel - 1, by omega⟩
    obtain ⟨hne, hc⟩ := token_chars t v ht
    have hext := extract_token ws t (sp :: rest) st.x hws hne hc
      (Or.inr ⟨sp, rest, rfl, hsp⟩)
    have hvr : v.natAbs ≤ 2147483647 := hrange v (by simp)
    have hstoi := stoi_token t v ht hvr
    have hmin : v ≠ -2147483648 := by omega
    obtain ⟨x, hx⟩ := ih (fun w hw => hrange w (by simp [hw])) f
      { x := t
        lits := st.lits ++ [{ var := v.natAbs - 1, sign := decide (v < 0) }]
        clauses := st.clauses
        maxVar := max st.maxVar v.natAbs }
      (by simpa using hfuel)
    refine ⟨x, ?_⟩
    simp only [lineLoop, hext, hstoi, if_neg hv, if_neg hmin]
    simp only [ne_eq, reduceCtorEq, not_false_eq_true, decide_True, if_true]
    rw [hx]
    simp [toLit, maxAbs, max_assoc]

theorem clauseLine_length (ln : List Char) (vs : List Int) (h : ClauseLine ln vs) :
    vs.length < ln.length := by
  induction h with
  | zero ws z trail hws hz htrail =>
    have hne := (token_chars z 0 hz).1
    have : 0 < z.length := List.length_pos.mpr hne
    simp only [List.length_nil, List.length_append]
    omega
  | lit ws t sp rest v vs hws ht hv hsp hrest ih =>
    have hne := (token_chars t v ht).1
    have : 0 < t.length := List.length_pos.mpr hne
    simp only [List.length_cons, List.length_append] at ih ⊢
    omega

theorem notMarker_of_isspace (c : Char) (h : isspace c = true) : NotMarker c := by
  refine ⟨?_, ?_, ?_⟩ <;> (intro e; subst e; revert h; decide)

theorem notMarker_of_isdigit (c : Char) (h : isdigit c = true) : NotMarker c := by
  refine ⟨?_, ?_, ?_⟩ <;> (intro e; subst e; revert h; decide)

theorem token_head (t : List Char) (v : Int) (h : IntToken t v) :
    ∃ c r, t = c :: r ∧ NotMarker c := by
  cases h with
  | unsigned ds hne hd =>
    cases t with
    | nil => exact absurd rfl hne
    | cons a t => exact ⟨a, t, rfl, notMarker_of_isdigit a (hd a (by simp))⟩
  | plus ds hne hd => exact ⟨'+', ds, rfl, by decide, by decide, by decide⟩
  | minus ds hne hd => exact ⟨'-', ds, rfl, by decide, by decide, by decide⟩

theorem head_append_token (ws t rest : List Char) (v : Int)
    (hws : ∀ c ∈ ws, isspace c = true) (ht : IntToken t v) :
    ∃ c r, ws ++ t ++ rest = c :: r ∧ NotMarker c := by
  cases ws with
  | nil =>
    obtain ⟨c, r, hcr, hm⟩ := token_head t v ht
    exact ⟨c, r ++ rest, by simp [hcr], hm⟩
  | cons a ws =>
    exact ⟨a, ws ++ t ++ rest, by simp, notMarker_of_isspace a (hws a (by simp))⟩

theorem clauseLine_head (ln : List Char) (vs : List Int) (h : ClauseLine ln vs) :
    ∃ c r, ln = c :: r ∧ NotMarker c := by
  cases h with
  | zero ws z trail hws hz htrail => exact head_append_token ws z trail 0 hws hz
  | lit ws t sp rest v vs hws ht hv hsp hrest =>
    exact head_append_token ws t (sp :: rest) v hws ht

theorem processLine_skip (st : CacheState) (ln : List Char)
    (h : ln = [] ∨ ln.head? = some 'c' ∨ ln.head? = some 'p') :
    processLine st ln = Except.ok st := by
  unfold processLine
  rw [if_pos]
  rcases h with h | h | h
  · exact Or.inl (by simp [h])
  · exact Or.inr (Or.inr h)
  · exact Or.inr (Or.inl h)

theorem processLine_clauseLine (st : CacheState) (ln : List Char) (vs : List Int)
    (h : ClauseLine ln vs) (hr : ∀ v ∈ vs, v.natAbs ≤ 2147483647) :
    ∃ x, processLine st ln = Except.ok
      { x := x
        lits := vs.map toLit
        clauses := st.clauses ++ [vs.map toLit]
        maxVar := max st.maxVar (maxAbs vs) } := by
  obtain ⟨c, r, hcr, hp, hc, hx⟩ := clauseLine_head ln vs h
  obtain ⟨x, hx2⟩ := lineLoop_clauseLine ln vs h hr (ln.length + 1) { st with lits := [] }
    (Nat.lt_succ_of_lt (clauseLine_length ln vs h))
  refine ⟨x, ?_⟩
  unfold processLine
  rw [if_neg, if_neg, hx2]
  · simp
  · simp [hcr, hx]
  · simp [hcr, hp, hc]

theorem maxAbs_append (vs ws : List Int) :
    maxAbs (vs ++ ws) = max (maxAbs vs) (maxAbs ws) := by
  induction vs with
  | nil => simp [maxAbs]
  | cons v vs ih =>
    simp only [maxAbs, List.cons_append, List.foldr_cons] at ih ⊢
    rw [ih, max_assoc]

theorem parseLines_document (lns : List (List Char)) (vss : List (List Int))
    (h : Document lns vss) :
    (∀ vs ∈ vss, ∀ v ∈ vs, v.natAbs ≤ 2147483647) → ∀ st : CacheState,
      ∃ x lits, parseLines lns st = Except.ok
        { x := x
          lits := lits
          clauses := st.clauses ++ vss.map (fun vs => vs.map toLit)
          maxVar := max st.maxVar (maxAbs vss.flatten) } := by
  induction h with
  | nil =>
    intro _ st
    exact ⟨st.x, st.lits, by simp [parseLines, maxAbs]⟩
  | skip ln lns vss hskip hrest ih =>
    intro hr st
    obtain ⟨x, lits, hx⟩ := ih hr st
    exact ⟨x, lits, by simp only [parseLines, processLine_skip st ln hskip, hx]⟩
  | clause ln lns vs vss hcl hrest ih =>
    intro hr st
    obtain ⟨y, hy⟩ := processLine_clauseLine st ln vs hcl (hr vs (by simp))
    obtain ⟨x, lits, hx⟩ := ih (fun ws hws => hr ws (by simp [hws]))
      { x := y
        lits := vs.map toLit
        clauses := st.clauses ++ [vs.map toLit]
        maxVar := max st.maxVar (maxAbs vs) }
    refine ⟨x, lits, ?_⟩
    simp only [parseLines, hy, hx]
    simp [maxAbs_append, max_assoc]

theorem parseLines_append (pre post : List (List Char)) :
    ∀ st st1 : CacheState, parseLines pre st = Except.ok st1 →
      parseLines (pre ++ post) st = parseLines post st1 := by
  induction pre with
  | nil =>
    intro st st1 h
    simp only [parseLines, Except.ok.injEq] at h
    simp [h]
  | cons ln pre ih =>
    intro st st1 h
    simp only [List.cons_append, parseLines] at h ⊢
    cases hp : processLine st ln with
    | error e => rw [hp] at h; cases h
    | ok st2 =>
      rw [hp] at h
      simp only [] at h ⊢
      exact ih st2 st1 h

theorem parseLines_xor (pre post : List (List Char)) (r : List Char) :
    ∀ st : CacheState, ∃ e, parseLines (pre ++ ('x' :: r) :: post) st = Except.error e := by
  induction pre with
  | nil =>
    intro st
    exact ⟨ParseError.xorClause, by simp [parseLines, processLine]⟩
  | cons ln pre ih =>
    intro st
    simp only [List.cons_append, parseLines]
    cases hp : processLine st ln with
    | error e => exact ⟨e, rfl⟩
    | ok st2 => exact ih st2

/-- C5 (amended): for every DIMACS text in which each line is empty, starts with `c` or
`p`, or is a white-space separated list of non-zero decimal integers followed by a 0
token, and in which every integer has absolute value at most `2^31 - 1`, the
constructor yields, in line order, exactly one clause per clause line, with the literals
(variable `|v| - 1`, negated iff `v < 0`) in token order, and `maxVar` is the maximum
`|v|` over all literal tokens (0 if there are none); the skipped lines have no effect. -/
theorem DIMACSCache_read_document (text : List Char) (vss : List (List Int))
    (hdoc : Document (getlines text) vss)
    (hrange : ∀ vs ∈ vss, ∀ v ∈ vs, v.natAbs ≤ 2147483647) :
    DIMACSCache.read (some text) = Except.ok
      { clauses := vss.map (fun vs => vs.map toLit), maxVar := maxAbs vss.flatten } := by
  obtain ⟨x, lits, h⟩ := parseLines_document (getlines text) vss hdoc hrange
    { x := [], lits := [], clauses := [], maxVar := 0 }
  simp only [DIMACSCache.read, h]
  simp

/-- Witness of C5 (amended): the text `p cnf 3 2`, `1 -2 0`, `2 3 0` yields the clauses
`[(0,+),(1,-)]` and `[(1,+),(2,+)]` and `maxVar = 3`. -/
theorem DIMACSCache_read_document_witness :
    (Document (getlines "p cnf 3 2\n1 -2 0\n2 3 0\n".toList) [[1, -2], [2, 3]] ∧
      ∀ vs ∈ [[1, -2], [2, 3]], ∀ v ∈ vs, Int.natAbs v ≤ 2147483647) ∧
    DIMACSCache.read (some "p cnf 3 2\n1 -2 0\n2 3 0\n".toList) = Except.ok
      { clauses := [[⟨0, false⟩, ⟨1, true⟩], [⟨1, false⟩, ⟨2, false⟩]], maxVar := 3 } := by
  have hlines : getlines "p cnf 3 2\n1 -2 0\n2 3 0\n".toList =
      ["p cnf 3 2".toList, "1 -2 0".toList, "2 3 0".toList] := by decide
  have t0 : IntToken ['0'] 0 := IntToken.unsigned ['0'] (by decide) (by decide)
  have t1 : IntToken ['1'] 1 := IntToken.unsigned ['1'] (by decide) (by decide)
  have t2 : IntToken ['2'] 2 := IntToken.unsigned ['2'] (by decide) (by decide)
  have t3 : IntToken ['3'] 3 := IntToken.unsigned ['3'] (by decide) (by decide)
  have tm2 : IntToken ['-', '2'] (-2) := IntToken.minus ['2'] (by decide) (by decide)
  have z : ClauseLine [' ', '0'] [] := ClauseLine.zero [' '] ['0'] [] (by decide) t0 (by decide)
  have l1 : ClauseLine "1 -2 0".toList [1, -2] :=
    ClauseLine.lit [] ['1'] ' ' ['-', '2', ' ', '0'] 1 [-2] (by decide) t1 (by decide)
      (by decide)
      (ClauseLine.lit [' '] ['-', '2'] ' ' ['0'] (-2) [] (by decide) tm2 (by decide)
        (by decide) z)
  have l2 : ClauseLine "2 3 0".toList [2, 3] :=
    ClauseLine.lit [] ['2'] ' ' ['3', ' ', '0'] 2 [3] (by decide) t2 (by decide) (by decide)
      (ClauseLine.lit [' '] ['3'] ' ' ['0'] 3 [] (by decide) t3 (by decide) (by decide) z)
  have hdoc : Document (getlines "p cnf 3 2\n1 -2 0\n2 3 0\n".toList) [[1, -2], [2, 3]] := by
    rw [hlines]
    exact Document.skip _ _ _ (Or.inr (Or.inr rfl))
      (Document.clause _ _ _ _ l1 (Document.clause _ _ _ _ l2 Document.nil))
  have hrange : ∀ vs ∈ [[1, -2], [2, 3]], ∀ v ∈ vs, Int.natAbs v ≤ 2147483647 := by decide
  exact ⟨⟨hdoc, hrange⟩, DIMACSCache_read_document _ _ hdoc hrange⟩

/-- C5 as stated fails on an integer that is not an `int`: the one-line text
`2147483648 0` is a clause line listing the non-zero decimal integer `2^31`, and the
constructor ends with the uncaught `std::out_of_range` of `stoi` instead of yielding a
clause. -/
theorem DIMACSCache_read_counterexample :
    Document (getlines "2147483648 0\n".toList) [[2147483648]] ∧
      DIMACSCache.read (some "2147483648 0\n".toList) =
        Except.error ParseError.outOfRange := by
  have hlines : getlines "2147483648 0\n".toList = ["2147483648 0".toList] := by decide
  have t0 : IntToken ['0'] 0 := IntToken.unsigned ['0'] (by decide) (by decide)
  have tbig : IntToken "2147483648".toList 2147483648 :=
    IntToken.unsigned "2147483648".toList (by decide) (by decide)
  refine ⟨?_, rfl⟩
  rw [hlines]
  exact Document.clause _ _ _ _
    (ClauseLine.lit [] "2147483648".toList ' ' ['0'] 2147483648 [] (by decide) tbig
      (by decide) (by decide)
      (ClauseLine.zero [' '] ['0'] [] (by decide) t0 (by decide)))
    Document.nil

/-- C8: when the text contains a line whose first character is `x` and the lines before
it are well-formed, the constructor ends with an error and returns no clauses, whatever
lines precede or follow; when the integers of the earlier lines fit an `int`, the error
is the one reported for the `x` line. -/
theorem DIMACSCache_read_xor (text r : List Char) (pre post : List (List Char))
    (vss : List (List Int)) (hlines : getlines text = pre ++ ('x' :: r) :: post)
    (hdoc : Document pre vss) :
    (∃ e, DIMACSCache.read (some text) = Except.error e) ∧
    ((∀ vs ∈ vss, ∀ v ∈ vs, v.natAbs ≤ 2147483647) →
      DIMACSCache.read (some text) = Except.error ParseError.xorClause) := by
  refine ⟨?_, ?_⟩
  · obtain ⟨e, he⟩ := parseLines_xor pre post r
      { x := [], lits := [], clauses := [], maxVar := 0 }
    exact ⟨e, by simp only [DIMACSCache.read, hlines, he]⟩
  · intro hrange
    obtain ⟨x, lits, h⟩ := parseLines_document pre vss hdoc hrange
      { x := [], lits := [], clauses := [], maxVar := 0 }
    have := parseLines_append pre (('x' :: r) :: post) _ _ h
    simp only [DIMACSCache.read, hlines, this]
    simp [parseLines, processLine]

/-- Witness of C8: a clause line, then the line `x1 2 0`, then another clause line. -/
theorem DIMACSCache_read_xor_witness :
    (getlines "1 0\nx1 2 0\n2 0\n".toList = ["1 0".toList] ++ ('x' :: "1 2 0".toList) ::
        ["2 0".toList] ∧ Document ["1 0".toList] [[1]]) ∧
    ((∃ e, DIMACSCache.read (some "1 0\nx1 2 0\n2 0\n".toList) = Except.error e) ∧
      ((∀ vs ∈ [[(1 : Int)]], ∀ v ∈ vs, v.natAbs ≤ 2147483647) →
        DIMACSCache.read (some "1 0\nx1 2 0\n2 0\n".toList) =
          Except.error ParseError.xorClause)) := by
  have hlines : getlines "1 0\nx1 2 0\n2 0\n".toList =
      ["1 0".toList] ++ ('x' :: "1 2 0".toList) :: ["2 0".toList] := by decide
  have t0 : IntToken ['0'] 0 := IntToken.unsigned ['0'] (by decide) (by decide)
  have t1 : IntToken ['1'] 1 := IntToken.unsigned ['1'] (by decide) (by decide)
  have hdoc : Document ["1 0".toList] [[1]] :=
    Document.clause _ _ _ _
      (ClauseLine.lit [] ['1'] ' ' ['0'] 1 [] (by decide) t1 (by decide) (by decide)
        (ClauseLine.zero [' '] ['0'] [] (by decide) t0 (by decide)))
      Document.nil
  exact ⟨⟨hlines, hdoc⟩, DIMACSCache_read_xor _ _ _ _ _ hlines hdoc⟩

/-! ### C6 and C7: deduplication -/

theorem dedupStep_of_mem (hash : BoolePolynomial → Nat)
    (st : List BoolePolynomial × List Nat) (p : BoolePolynomial) (h : hash p ∈ st.2) :
    dedupStep hash st p = st := by
  simp [dedupStep, h]

theorem dedupStep_of_not_mem (hash : BoolePolynomial → Nat)
    (st : List BoolePolynomial × List Nat) (p : BoolePolynomial) (h : hash p ∉ st.2) :
    dedupStep hash st p = (st.1 ++ [p], hash p :: st.2) := by
  simp [dedupStep, h]

theorem dedup_seen (hash : BoolePolynomial → Nat) (xs : List BoolePolynomial) :
    ∀ h, h ∈ (xs.foldl (dedupStep hash) ([], [])).2 ↔ h ∈ xs.map hash := by
  induction xs using List.reverseRecOn with
  | nil => simp
  | append_singleton xs x ih =>
    intro h
    rw [List.foldl_append, List.foldl_cons, List.foldl_nil]
    by_cases hin : hash x ∈ (xs.foldl (dedupStep hash) ([], [])).2
    · rw [dedupStep_of_mem hash _ x hin, ih]
      rw [ih] at hin
      simp only [List.map_append, List.map_cons, List.map_nil, List.mem_append,
        List.mem_singleton]
      constructor
      · exact Or.inl
      · rintro (h1 | h1)
        · exact h1
        · rw [h1]; exact hin
    · rw [dedupStep_of_not_mem hash _ x hin]
      simp only [List.mem_cons, ih, List.map_append, List.map_cons, List.map_nil,
        List.mem_append, List.mem_singleton, List.not_mem_nil, or_false]
      exact or_comm

/-- The effect of one more input element on the output. -/
theorem deduplicate_snoc (hash : BoolePolynomial → Nat) (xs : List BoolePolynomial)
    (x : BoolePolynomial) :
    deduplicate hash (xs ++ [x]) =
      deduplicate hash xs ++ (if hash x ∈ xs.map hash then [] else [x]) := by
  unfold deduplicate
  rw [List.foldl_append, List.foldl_cons, List.foldl_nil]
  by_cases hin : hash x ∈ (xs.foldl (dedupStep hash) ([], [])).2
  · rw [dedupStep_of_mem hash _ x hin, if_pos ((dedup_seen hash xs _).mp hin),
      List.append_nil]
  · rw [dedupStep_of_not_mem hash _ x hin,
      if_neg (fun h => hin ((dedup_seen hash xs _).mpr h))]

theorem firstOfEachHash_snoc (hash : BoolePolynomial → Nat) (xs : List BoolePolynomial)
    (x : BoolePolynomial) :
    firstOfEachHash hash (xs ++ [x]) =
      firstOfEachHash hash xs ++ (if hash x ∈ xs.map hash then [] else [x]) := by
  unfold firstOfEachHash
  rw [List.length_append, List.length_singleton, List.range_succ, List.filterMap_append]
  congr 1
  · apply List.filterMap_congr
    intro i hi
    have hi1 : i < xs.length := List.mem_range.mp hi
    have e1 : (xs ++ [x])[i]? = xs[i]? := List.getElem?_append_left hi1
    have e2 : ∀ j, j < i → (xs ++ [x])[j]? = xs[j]? :=
      fun j hj => List.getElem?_append_left (lt_trans hj hi1)
    rw [e1]
    have : (∀ j, j < i → ((xs ++ [x])[j]?).map hash ≠ (xs[i]?).map hash) ↔
        (∀ j, j < i → (xs[j]?).map hash ≠ (xs[i]?).map hash) := by
      constructor
      · intro h j hj; rw [← e2 j hj]; exact h j hj
      · intro h j hj; rw [e2 j hj]; exact h j hj
    simp only [this]
  · have e1 : (xs ++ [x])[xs.length]? = some x := by simp
    have hiff : (∀ j, j < xs.length → ((xs ++ [x])[j]?).map hash ≠ some (hash x)) ↔
        hash x ∉ xs.map hash := by
      constructor
      · intro h hin
        obtain ⟨y, hy, hyx⟩ := List.mem_map.mp hin
        obtain ⟨j, hj, hjy⟩ := List.getElem_of_mem hy
        have := h j hj
        rw [List.getElem?_append_left hj, List.getElem?_eq_getElem hj, hjy] at this
        exact this (by simp [hyx])
      · intro h j hj heq
        rw [List.getElem?_append_left hj, List.getElem?_eq_getElem hj] at heq
        simp only [Option.map_some', Option.some.injEq] at heq
        exact h (List.mem_map.mpr ⟨xs[j], List.getElem_mem hj, heq⟩)
    simp only [List.filterMap_cons, List.filterMap_nil, e1, Option.map_some']
    by_cases hin : hash x ∈ xs.map hash
    · have hn : ¬ ∀ j, j < xs.length → ((xs ++ [x])[j]?).map hash ≠ some (hash x) :=
        fun h => hiff.mp h hin
      rw [if_neg hn, if_pos hin]
    · rw [if_pos (hiff.mpr hin), if_neg hin]

theorem deduplicate_eq_firstOfEachHash (hash : BoolePolynomial → Nat)
    (xs : List BoolePolynomial) : deduplicate hash xs = firstOfEachHash hash xs := by
  induction xs using List.reverseRecOn with
  | nil => rfl
  | append_singleton xs x ih => rw [deduplicate_snoc, firstOfEachHash_snoc, ih]

theorem deduplicate_sublist (hash : BoolePolynomial → Nat) (xs : List BoolePolynomial) :
    List.Sublist (deduplicate hash xs) xs := by
  induction xs using List.reverseRecOn with
  | nil => exact List.Sublist.refl _
  | append_singleton xs x ih =>
    rw [deduplicate_snoc]
    apply List.Sublist.append ih
    split
    · exact List.nil_sublist _
    · exact List.Sublist.refl _

theorem deduplicate_hashes (hash : BoolePolynomial → Nat) (xs : List BoolePolynomial) :
    ∀ h, h ∈ (deduplicate hash xs).map hash ↔ h ∈ xs.map hash := by
  induction xs using List.reverseRecOn with
  | nil => intro h; rfl
  | append_singleton xs x ih =>
    intro h
    rw [deduplicate_snoc]
    by_cases hin : hash x ∈ xs.map hash
    · rw [if_pos hin, List.append_nil, ih]
      simp only [List.map_append, List.map_cons, List.map_nil, List.mem_append,
        List.mem_singleton]
      constructor
      · exact Or.inl
      · rintro (h1 | h1)
        · exact h1
        · rw [h1]; exact hin
    · rw [if_neg hin]
      simp only [List.map_append, List.mem_append, ih]

theorem deduplicate_nodup (hash : BoolePolynomial → Nat) (xs : List BoolePolynomial) :
    ((deduplicate hash xs).map hash).Nodup := by
  induction xs using List.reverseRecOn with
  | nil => exact List.nodup_nil
  | append_singleton xs x ih =>
    rw [deduplicate_snoc]
    by_cases hin : hash x ∈ xs.map hash
    · rw [if_pos hin, List.append_nil]; exact ih
    · rw [if_neg hin, List.map_append]
      refine List.Nodup.append ih (by simp) ?_
      intro h h1 h2
      simp only [List.map_cons, List.map_nil, List.mem_singleton] at h2
      rw [h2, deduplicate_hashes] at h1
      exact hin h1

theorem deduplicate_of_nodup (hash : BoolePolynomial → Nat) (xs : List BoolePolynomial)
    (h : (xs.map hash).Nodup) : deduplicate hash xs = xs := by
  induction xs using List.reverseRecOn with
  | nil => rfl
  | append_singleton xs x ih =>
    rw [List.map_append, List.nodup_append] at h
    obtain ⟨h1, _, h3⟩ := h
    have hin : hash x ∉ xs.map hash := fun hx => h3 hx (by simp)
    rw [deduplicate_snoc, if_neg hin, ih h1]

theorem deduplicate_append (hash : BoolePolynomial → Nat) (xs ys : List BoolePolynomial) :
    (xs ++ ys).foldl (dedupStep hash) ([], []) =
      ys.foldl (dedupStep hash) (xs.foldl (dedupStep hash) ([], [])) :=
  List.foldl_append _ _ _ _

/-- C6: `Library::deduplicate` replaces the sequence by the subsequence that keeps the
element at position `i` exactly when no earlier position has the same hash value. The
order is preserved, the output is no longer than the input, no two output elements
share a hash, every hash value of the input occurs in the output, and an element whose
hash equals that of an earlier element, equal or different, is dropped: the output is
the one obtained without it. -/
theorem deduplicate_spec (hash : BoolePolynomial → Nat) (learnt : List BoolePolynomial) :
    deduplicate hash learnt = firstOfEachHash hash learnt ∧
    List.Sublist (deduplicate hash learnt) learnt ∧
    (deduplicate hash learnt).length ≤ learnt.length ∧
    ((deduplicate hash learnt).map hash).Nodup ∧
    (∀ p ∈ learnt, ∃ q ∈ deduplicate hash learnt, hash q = hash p) ∧
    (∀ (before after : List BoolePolynomial) (p q : BoolePolynomial),
      learnt = before ++ q :: after → p ∈ before → hash p = hash q →
        deduplicate hash learnt = deduplicate hash (before ++ after)) := by
  refine ⟨deduplicate_eq_firstOfEachHash hash learnt, deduplicate_sublist hash learnt,
    (deduplicate_sublist hash learnt).length_le, deduplicate_nodup hash learnt, ?_, ?_⟩
  · intro p hp
    have := (deduplicate_hashes hash learnt (hash p)).mpr (List.mem_map.mpr ⟨p, hp, rfl⟩)
    obtain ⟨q, hq, hqp⟩ := List.mem_map.mp this
    exact ⟨q, hq, hqp⟩
  · intro before after p q hl hp hpq
    subst hl
    have hin : hash q ∈ (before.foldl (dedupStep hash) ([], [])).2 := by
      rw [dedup_seen]
      exact List.mem_map.mpr ⟨p, hp, hpq⟩
    unfold deduplicate
    rw [deduplicate_append, deduplicate_append, List.foldl_cons]
    rw [dedupStep_of_mem hash _ q hin]

/-- C7: `Library::deduplicate` is idempotent. -/
theorem deduplicate_idempotent (hash : BoolePolynomial → Nat)
    (learnt : List BoolePolynomial) :
    deduplicate hash (deduplicate hash learnt) = deduplicate hash learnt :=
  deduplicate_of_nodup hash _ (deduplicate_nodup hash learnt)

/-! ### C9: the scheduler stops after one macro-iteration when nothing can run -/

/-- A turn of a disabled strategy whose countdown is 0 and whose wait count is 0. -/
theorem turn_disabled {A C S : Type} (E : Engines A C S) (config : ConfigData)
    (extra : List Clause) (orig_cnf_file : Bool) (timeout : Nat → Bool)
    (hXL : config.doXL = false) (hEL : config.doEL = false) (hSAT : config.doSAT = false)
    (st : SimplifyState A C S) (hc : st.countdowns st.subIters = 0)
    (hw : st.waits st.subIters = 0) :
    turn E config extra orig_cnf_file timeout st =
      { st with
        changes := Function.update st.changes st.subIters false
        waits := Function.update st.waits st.subIters 1
        countdowns := Function.update st.countdowns st.subIters 0
        numIters := if st.subIters < 2 then st.numIters else st.numIters + 1
        subIters := if st.subIters < 2 then st.subIters + 1 else 0
        loop_learnt :=
          if st.subIters < 2 then st.loop_learnt else deduplicate E.hash st.loop_learnt
        timeout := timeout (st.turns + 1)
        turns := st.turns + 1 } := by
  have hrun : runStrategy E config extra orig_cnf_file st = (0, st) := by
    unfold runStrategy
    simp only [hXL, hEL, hSAT, Bool.false_eq_true, if_false]
    split <;> rfl
  unfold turn
  simp only [hc, lt_irrefl, if_false, hrun, le_refl, if_true, Function.update_same, schedule,
    Bool.false_eq_true, hw]
  by_cases h2 : st.subIters < 2
  · simp [h2, series]
  · simp [h2, series]

/-- C9: with the three strategies disabled, `minIter = 0`, a deadline that is never
reached and an equation system that is consistent after the initial propagation, the
loop of `Library::simplify` ends after exactly three passes, that is one
macro-iteration (`numIters = 1`, `subIters = 0`), calls no strategy engine, and
`simplify` returns the undetermined solution; any bound of at least three passes lets
the loop end. -/
theorem simplify_all_disabled {A C S : Type} (E : Engines A C S) (config : ConfigData)
    (extra : List Clause) (orig_cnf_file : Bool) (timeout : Nat → Bool) (anf : A)
    (loop_learnt : List BoolePolynomial) (fuel : Nat)
    (hXL : config.doXL = false) (hEL : config.doEL = false) (hSAT : config.doSAT = false)
    (hmin : config.minIter = 0) (htime : ∀ k, timeout k = false)
    (hok : E.getOK (E.propagate anf).2 = true) (hfuel : 3 ≤ fuel) :
    (∃ st, simplifyLoop E config extra orig_cnf_file timeout fuel
        (initialState E timeout anf loop_learnt) = some st ∧
      st.turns = 3 ∧ st.numIters = 1 ∧ st.subIters = 0 ∧ st.invoked = [] ∧
      st.solution.ret = lbool.l_Undef) ∧
    simplify E config extra false timeout fuel anf orig_cnf_file loop_learnt =
      some ({ ret := lbool.l_Undef },
        E.contextualize (E.propagate anf).2 (deduplicate E.hash loop_learnt),
        deduplicate E.hash loop_learnt) := by
  obtain ⟨f, rfl⟩ : ∃ f, fuel = f + 3 := ⟨fuel - 3, by omega⟩
  have t1 := turn_disabled E config extra orig_cnf_file timeout hXL hEL hSAT
    (initialState E timeout anf loop_learnt) rfl rfl
  have c0 : loopCond E config (initialState E timeout anf loop_learnt) = true := by
    simp [loopCond, initialState, htime, hok]
  have c1 : loopCond E config
      (turn E config extra orig_cnf_file timeout (initialState E timeout anf loop_learnt)) =
        true := by
    rw [t1]
    simp [loopCond, initialState, htime, hok]
  have t2 := turn_disabled E config extra orig_cnf_file timeout hXL hEL hSAT
    (turn E config extra orig_cnf_file timeout (initialState E timeout anf loop_learnt))
    (by rw [t1]; simp [initialState]) (by rw [t1]; simp [initialState])
  have c2 : loopCond E config
      (turn E config extra orig_cnf_file timeout
        (turn E config extra orig_cnf_file timeout
          (initialState E timeout anf loop_learnt))) = true := by
    rw [t2, t1]
    simp [loopCond, initialState, htime, hok]
  have t3 := turn_disabled E config extra orig_cnf_file timeout hXL hEL hSAT
    (turn E config extra orig_cnf_file timeout
      (turn E config extra orig_cnf_file timeout (initialState E timeout anf loop_learnt)))
    (by rw [t2, t1]; simp [initialState]) (by rw [t2, t1]; simp [initialState])
  have c3 : loopCond E config
      (turn E config extra orig_cnf_file timeout
        (turn E config extra orig_cnf_file timeout
          (turn E config extra orig_cnf_file timeout
            (initialState E timeout anf loop_learnt)))) = false := by
    rw [t3, t2, t1]
    simp [loopCond, initialState, htime, hok, hmin, Function.update]
  have hloop : simplifyLoop E config extra orig_cnf_file timeout (f + 3)
      (initialState E timeout anf loop_learnt) =
        some (turn E config extra orig_cnf_file timeout
          (turn E config extra orig_cnf_file timeout
            (turn E config extra orig_cnf_file timeout
              (initialState E timeout anf loop_learnt)))) := by
    rw [simplifyLoop, if_pos c0, simplifyLoop, if_pos c1, simplifyLoop, if_pos c2]
    cases f with
    | zero => rw [simplifyLoop, c3]; rfl
    | succ f => rw [simplifyLoop, c3]; rfl
  refine ⟨⟨_, hloop, ?_, ?_, ?_, ?_, ?_⟩, ?_⟩
  · rw [t3, t2, t1]; simp [initialState]
  · rw [t3, t2, t1]; simp [initialState]
  · rw [t3, t2, t1]; simp [initialState]
  · rw [t3, t2, t1]; simp [initialState]
  · rw [t3, t2, t1]; simp [initialState]
  · unfold simplify
    rw [if_neg (by simp), hloop]
    simp only []
    rw [t3, t2, t1]
    simp [initialState]

/-- Witness of C9: engines that never learn, an empty learnt list and a consistent
system. -/
theorem simplify_all_disabled_witness :
    ((⟨5, false, false, false, 0⟩ : ConfigData).doXL = false ∧
      (⟨5, false, false, false, 0⟩ : ConfigData).doEL = false ∧
      (⟨5, false, false, false, 0⟩ : ConfigData).doSAT = false ∧
      (⟨5, false, false, false, 0⟩ : ConfigData).minIter = 0 ∧
      (∀ k : Nat, (fun _ : Nat => false) k = false) ∧
      idleEngines.getOK (idleEngines.propagate true).2 = true ∧ 3 ≤ 3) ∧
    ((∃ st, simplifyLoop idleEngines ⟨5, false, false, false, 0⟩ [] false (fun _ => false) 3
        (initialState idleEngines (fun _ => false) true []) = some st ∧
      st.turns = 3 ∧ st.numIters = 1 ∧ st.subIters = 0 ∧ st.invoked = [] ∧
      st.solution.ret = lbool.l_Undef) ∧
    simplify idleEngines ⟨5, false, false, false, 0⟩ [] false (fun _ => false) 3 true false
        [] =
      some ({ ret := lbool.l_Undef },
        idleEngines.contextualize (idleEngines.propagate true).2
          (deduplicate idleEngines.hash []),
        deduplicate idleEngines.hash [])) :=
  ⟨⟨rfl, rfl, rfl, rfl, fun _ => rfl, rfl, le_refl 3⟩,
    simplify_all_disabled idleEngines ⟨5, false, false, false, 0⟩ [] false (fun _ => false)
      true [] 3 rfl rfl rfl rfl (fun _ => rfl) rfl (le_refl 3)⟩

/-! ### C10: the backoff of a stalling strategy -/

/-- What the scheduling step does in a turn that produces no new fact: the pair of
`turn` is the one of `schedule false`, whether the strategy was skipped or attempted. -/
theorem turn_schedule {A C S : Type} (E : Engines A C S) (config : ConfigData)
    (extra : List Clause) (orig_cnf_file : Bool) (timeout : Nat → Bool)
    (st : SimplifyState A C S)
    (h : 0 < st.countdowns st.subIters ∨
      (runStrategy E config extra orig_cnf_file st).1 ≤ 0) :
    ((turn E config extra orig_cnf_file timeout st).waits st.subIters,
        (turn E config extra orig_cnf_file timeout st).countdowns st.subIters) =
      schedule false (st.waits st.subIters) (st.countdowns st.subIters) := by
  have hrun : ∀ t : SimplifyState A C S,
      (runStrategy E config extra orig_cnf_file t).2.waits = t.waits ∧
      (runStrategy E config extra orig_cnf_file t).2.countdowns = t.countdowns := by
    intro t
    unfold runStrategy
    split
    all_goals try dsimp only
    all_goals repeat' split
    all_goals exact ⟨rfl, rfl⟩
  unfold turn
  by_cases hc : 0 < st.countdowns st.subIters
  · simp only [gt_iff_lt, hc, if_true, le_refl, Function.update_same]
    by_cases h2 : st.subIters < 2 <;> simp [h2]
  · have hle : (runStrategy E config extra orig_cnf_file st).1 ≤ 0 := h.resolve_left hc
    simp only [gt_iff_lt, hc, if_false, hle, if_true, Function.update_same]
    by_cases h2 : st.subIters < 2 <;> simp [h2, (hrun st).1, (hrun st).2]

/-- The countdown that a stalled attempt made with wait count `w` sets. -/
theorem schedule_attempt (w : Nat) :
    schedule false w 0 = (w + 1, series.getD (min w 11) 0) := by
  simp [schedule, series]

theorem schedule_skip (w c : Nat) (h : 0 < c) : schedule false w c = (w, c - 1) := by
  simp [schedule, h]

theorem series_le (w : Nat) : series.getD (min w 11) 0 ≤ 89 := by
  have h : ∀ k, k ≤ 11 → series.getD k 0 ≤ 89 := by decide
  exact h _ (Nat.min_le_right _ _)

theorem series_mono (w : Nat) : series.getD (min w 11) 0 ≤ series.getD (min (w + 1) 11) 0 := by
  by_cases hw : w < 11
  · have h : ∀ k, k < 11 → series.getD (min k 11) 0 ≤ series.getD (min (k + 1) 11) 0 := by
      decide
    exact h w hw
  · have h1 : min w 11 = 11 := by omega
    have h2 : min (w + 1) 11 = 11 := by omega
    rw [h1, h2]

theorem series_strict (w : Nat) (h1 : w ≠ 1) (h2 : w < 11) :
    series.getD (min w 11) 0 < series.getD (min (w + 1) 11) 0 := by
  have h : ∀ k, k < 11 → k ≠ 1 →
      series.getD (min k 11) 0 < series.getD (min (k + 1) 11) 0 := by
    decide
  exact h w h2 h1

theorem series_last (w : Nat) (h : 11 ≤ w) : series.getD (min w 11) 0 = 89 := by
  have h1 : min w 11 = 11 := by omega
  rw [h1]
  rfl

/-- While the countdown runs, every turn is a skip that lowers it by one. -/
theorem stalledRun_skips (n w c : Nat) (h : stalledRun n = (w, c)) :
    ∀ i, i ≤ c → stalledRun (n + i) = (w, c - i) := by
  intro i
  induction i with
  | zero => intro _; simpa using h
  | succ i ih =>
    intro hi
    have := ih (by omega)
    rw [← Nat.add_assoc]
    show schedule false (stalledRun (n + i)).1 (stalledRun (n + i)).2 = _
    rw [this, schedule_skip w (c - i) (by omega)]
    congr 1

theorem countSkips_eq (g : Nat) :
    ∀ (fuel m : Nat), g < fuel → (∀ i, i < g → attempted (m + i) = false) →
      attempted (m + g) = true → countSkips fuel m = g := by
  induction g with
  | zero =>
    intro fuel m hf _ ha
    obtain ⟨f, rfl⟩ : ∃ f, fuel = f + 1 := ⟨fuel - 1, by omega⟩
    simp only [Nat.add_zero] at ha
    simp [countSkips, ha]
  | succ g ih =>
    intro fuel m hf hs ha
    obtain ⟨f, rfl⟩ : ∃ f, fuel = f + 1 := ⟨fuel - 1, by omega⟩
    have h0 : attempted m = false := by simpa using hs 0 (by omega)
    have := ih f (m + 1) (by omega)
      (fun i hi => by have := hs (i + 1) (by omega); rwa [show m + (i + 1) = m + 1 + i by omega] at this)
      (by rwa [show m + (g + 1) = m + 1 + g by omega] at ha)
    simp only [countSkips, h0, Bool.false_eq_true, if_false, this]
    omega

/-- After an attempt in turn `n` made with wait count `w`, the strategy is skipped for
exactly `series[min w 11]` turns and attempted in the next one, with wait count `w+1`. -/
theorem skippedAfter_eq (n : Nat) (h : attempted n = true) :
    skippedAfter n = series.getD (min (stalledRun n).1 11) 0 ∧
    (∀ i, i < skippedAfter n → attempted (n + 1 + i) = false) ∧
    attempted (n + 1 + skippedAfter n) = true ∧
    (stalledRun (n + 1 + skippedAfter n)).1 = (stalledRun n).1 + 1 := by
  have hc : (stalledRun n).2 = 0 := by simpa [attempted] using h
  have h1 : stalledRun (n + 1) =
      ((stalledRun n).1 + 1, series.getD (min (stalledRun n).1 11) 0) := by
    show schedule false (stalledRun n).1 (stalledRun n).2 = _
    rw [hc, schedule_attempt]
  have hrun := stalledRun_skips (n + 1) _ _ h1
  have hfalse : ∀ i, i < series.getD (min (stalledRun n).1 11) 0 →
      attempted (n + 1 + i) = false := by
    intro i hi
    simp only [attempted, hrun i (le_of_lt hi), decide_eq_false_iff_not]
    omega
  have htrue : attempted (n + 1 + series.getD (min (stalledRun n).1 11) 0) = true := by
    rw [attempted, hrun _ (le_refl _)]
    simp
  have hs : skippedAfter n = series.getD (min (stalledRun n).1 11) 0 :=
    countSkips_eq _ 90 (n + 1) (Nat.lt_succ_of_le (series_le _)) hfalse htrue
  rw [hs]
  refine ⟨rfl, hfalse, htrue, ?_⟩
  rw [hrun _ (le_refl _)]

/-- C10 (amended): for a strategy that keeps stalling, after an attempt made in turn `n`
with `w` earlier stalled attempts the strategy is skipped for `series[min w 11]` turns
and then attempted again; the number of turns skipped before the following attempt is
never smaller and never exceeds 89; it is strictly larger unless `w = 1` (one turn is
skipped after the second attempt and one after the third) or `w ≥ 11`, where it has
reached the maximum 89 of the schedule. -/
theorem backoff_gaps (n : Nat) (h : attempted n = true) :
    skippedAfter n = series.getD (min (stalledRun n).1 11) 0 ∧
    (∀ i, i < skippedAfter n → attempted (n + 1 + i) = false) ∧
    attempted (n + 1 + skippedAfter n) = true ∧
    skippedAfter n ≤ skippedAfter (n + 1 + skippedAfter n) ∧
    skippedAfter (n + 1 + skippedAfter n) ≤ 89 ∧
    ((stalledRun n).1 ≠ 1 → (stalledRun n).1 < 11 →
      skippedAfter n < skippedAfter (n + 1 + skippedAfter n)) ∧
    (11 ≤ (stalledRun n).1 → skippedAfter n = 89) := by
  obtain ⟨h1, h2, h3, h4⟩ := skippedAfter_eq n h
  obtain ⟨g1, _, _, _⟩ := skippedAfter_eq (n + 1 + skippedAfter n) h3
  refine ⟨h1, h2, h3, ?_, ?_, ?_, ?_⟩
  · rw [g1, h4, h1]; exact series_mono _
  · rw [g1]; exact series_le _
  · intro hw1 hw2
    rw [g1, h4, h1]; exact series_strict _ hw1 hw2
  · intro hw
    rw [h1]; exact series_last _ hw

/-- Witness of C10 (amended): the attempt of turn 5, the fourth one, is followed by two
skipped turns and the next attempt by three. -/
theorem backoff_gaps_witness :
    attempted 5 = true ∧
    (skippedAfter 5 = series.getD (min (stalledRun 5).1 11) 0 ∧
    (∀ i, i < skippedAfter 5 → attempted (5 + 1 + i) = false) ∧
    attempted (5 + 1 + skippedAfter 5) = true ∧
    skippedAfter 5 ≤ skippedAfter (5 + 1 + skippedAfter 5) ∧
    skippedAfter (5 + 1 + skippedAfter 5) ≤ 89 ∧
    ((stalledRun 5).1 ≠ 1 → (stalledRun 5).1 < 11 →
      skippedAfter 5 < skippedAfter (5 + 1 + skippedAfter 5)) ∧
    (11 ≤ (stalledRun 5).1 → skippedAfter 5 = 89)) :=
  ⟨by decide, backoff_gaps 5 (by decide)⟩

/-- C10 as stated fails between the second, third and fourth attempts of a stalling
strategy (turns 1, 3 and 5): one turn is skipped after the second attempt and again one
after the third, although the maximum 89 has not been reached. -/
theorem backoff_gaps_counterexample :
    attempted 1 = true ∧ attempted 2 = false ∧ attempted 3 = true ∧ attempted 4 = false ∧
      attempted 5 = true ∧ skippedAfter 1 = 1 ∧ skippedAfter 3 = 1 ∧ skippedAfter 1 < 89 ∧
      ¬ (skippedAfter 1 < skippedAfter 3) := by
  decide

/-! ### C12: what the extra-clauses side-channel records -/

/-- The scan commutes with putting clauses in front of the two output lists. -/
theorem scan_prepend (L : Nat) (e c : List Clause) :
    ∀ (ls : List Lit) (s : ChunkState),
      ls.foldl (chunkStep L)
          { s with extra_clauses := e ++ s.extra_clauses,
                   chunked_clauses := c ++ s.chunked_clauses } =
        { ls.foldl (chunkStep L) s with
          extra_clauses := e ++ (ls.foldl (chunkStep L) s).extra_clauses
          chunked_clauses := c ++ (ls.foldl (chunkStep L) s).chunked_clauses } := by
  intro ls
  induction ls with
  | nil => intro s; rfl
  | cons l ls ih =>
    intro s
    simp only [List.foldl_cons]
    rw [← ih (chunkStep L s l)]
    congr 1
    rw [chunkStep_eq, chunkStep_eq]
    by_cases h : s.count + l.positive > L
    · simp [h]
    · simp [h]

/-- The scan pushes the same clauses onto both output lists. -/
theorem scan_extra_eq_chunked (L : Nat) (ls : List Lit) (s : ChunkState)
    (h : s.extra_clauses = s.chunked_clauses) :
    (ls.foldl (chunkStep L) s).extra_clauses = (ls.foldl (chunkStep L) s).chunked_clauses := by
  apply foldl_inv (fun t => t.extra_clauses = t.chunked_clauses) (chunkStep L) _ ls s h
  intro t a ht
  rw [chunkStep_eq]
  split
  · simp [ht]
  · exact ht

theorem chopClause_prepend (L : Nat) (e c : List Clause) (s : ChunkState) (clause : Clause) :
    chopClause L { s with extra_clauses := e ++ s.extra_clauses,
                          chunked_clauses := c ++ s.chunked_clauses } clause =
      { chopClause L s clause with
        extra_clauses := e ++ (chopClause L s clause).extra_clauses
        chunked_clauses := c ++ (chopClause L s clause).chunked_clauses } := by
  unfold chopClause
  have h := scan_prepend L e c clause { s with collect := [], count := 0 }
  simp only [] at h ⊢
  rw [h]
  by_cases hc : (clause.foldl (chunkStep L) { s with collect := [], count := 0 }).collect = []
  · simp [hc]
  · simp [hc]

theorem chopClause_extra_eq_chunked (L : Nat) (s : ChunkState) (clause : Clause)
    (h : s.extra_clauses = s.chunked_clauses) :
    (chopClause L s clause).extra_clauses = (chopClause L s clause).chunked_clauses := by
  unfold chopClause
  have h1 := scan_extra_eq_chunked L clause { s with collect := [], count := 0 } h
  simp only [] at h1 ⊢
  split
  · simp [h1]
  · exact h1

/-- The state from which `emitted` runs the loop body. -/
theorem chopClause_from_empty (L : Nat) (s : ChunkState) (clause : Clause) :
    chopClause L s clause =
      { chopClause L ⟨[], 0, s.maxVar, [], []⟩ clause with
        extra_clauses :=
          s.extra_clauses ++ (chopClause L ⟨[], 0, s.maxVar, [], []⟩ clause).chunked_clauses
        chunked_clauses :=
          s.chunked_clauses ++
            (chopClause L ⟨[], 0, s.maxVar, [], []⟩ clause).chunked_clauses } := by
  have h := chopClause_prepend L s.extra_clauses s.chunked_clauses
    ⟨s.collect, s.count, s.maxVar, [], []⟩ clause
  have h2 : chopClause L ⟨s.collect, s.count, s.maxVar, [], []⟩ clause =
      chopClause L ⟨[], 0, s.maxVar, [], []⟩ clause := rfl
  have h3 := chopClause_extra_eq_chunked L ⟨[], 0, s.maxVar, [], []⟩ clause rfl
  simp only [List.append_nil] at h
  rw [h2] at h
  rw [h3] at h
  exact h

/-- Whether the loop body chops the clause up instead of pushing it unchanged. -/
theorem chunkClause_cases (L : Nat) (s : ChunkState) (clause : Clause) :
    ((clause.length ≤ L ∨ positive_count clause ≤ L) ∧
      chunkClause L s clause = { s with chunked_clauses := s.chunked_clauses ++ [clause] }) ∨
    (¬ (clause.length ≤ L ∨ positive_count clause ≤ L) ∧
      chunkClause L s clause = chopClause L s clause) := by
  unfold chunkClause
  by_cases h1 : clause.length ≤ L
  · exact Or.inl ⟨Or.inl h1, by simp [h1]⟩
  · by_cases h2 : positive_count clause ≤ L
    · exact Or.inl ⟨Or.inr h2, by simp [h1, h2]⟩
    · exact Or.inr ⟨by simp [h1, h2], by simp [h1, h2]⟩

theorem chunkClause_chunked (L : Nat) (s : ChunkState) (clause : Clause) :
    (chunkClause L s clause).chunked_clauses = s.chunked_clauses ++ emitted L s.maxVar clause ∧
    (chunkClause L s clause).maxVar =
      (chunkClause L ⟨[], 0, s.maxVar, [], []⟩ clause).maxVar := by
  unfold emitted
  rcases chunkClause_cases L s clause with ⟨_, h⟩ | ⟨_, h⟩
  · rcases chunkClause_cases L ⟨[], 0, s.maxVar, [], []⟩ clause with ⟨_, g⟩ | ⟨hn, _⟩
    · rw [h, g]; simp
    · contradiction
  · rcases chunkClause_cases L ⟨[], 0, s.maxVar, [], []⟩ clause with ⟨hn, _⟩ | ⟨_, g⟩
    · contradiction
    · rw [h, g, chopClause_from_empty L s clause]
      simp

theorem chunkClause_extra (L : Nat) (s : ChunkState) (clause : Clause) :
    (chunkClause L s clause).extra_clauses =
      s.extra_clauses ++
        (if clause.length ≤ L ∨ positive_count clause ≤ L then [] else
          emitted L s.maxVar clause) := by
  unfold emitted
  rcases chunkClause_cases L s clause with ⟨hid, h⟩ | ⟨hid, h⟩
  · rw [h, if_pos hid]; simp
  · rcases chunkClause_cases L ⟨[], 0, s.maxVar, [], []⟩ clause with ⟨hn, _⟩ | ⟨_, g⟩
    · contradiction
    · rw [h, g, if_neg hid, chopClause_from_empty L s clause]

theorem chunkAll_extra (L : Nat) :
    ∀ (cls : List Clause) (s t : ChunkState), s.maxVar = t.maxVar →
      ∃ X, (cls.foldl (chunkClause L) s).extra_clauses = s.extra_clauses ++ X ∧
        ((cls.filter (fun c => decide (¬ (c.length ≤ L ∨ positive_count c ≤ L)))).foldl
          (chunkClause L) t).chunked_clauses = t.chunked_clauses ++ X := by
  intro cls
  induction cls with
  | nil => intro s t _; exact ⟨[], by simp, by simp⟩
  | cons a cls ih =>
    intro s t hm
    by_cases hid : a.length ≤ L ∨ positive_count a ≤ L
    · have hs := chunkClause_extra L s a
      rw [if_pos hid, List.append_nil] at hs
      have hmv := (chunkClause_chunked L s a).2
      rcases chunkClause_cases L ⟨[], 0, s.maxVar, [], []⟩ a with ⟨_, g⟩ | ⟨hn, _⟩
      · rw [g] at hmv
        obtain ⟨X, h1, h2⟩ := ih (chunkClause L s a) t (by rw [hmv]; exact hm)
        refine ⟨X, ?_, ?_⟩
        · rw [List.foldl_cons, h1, hs]
        · rw [List.filter_cons_of_neg (by simp only [decide_eq_true_eq, not_not]; exact hid)]
          exact h2
      · contradiction
    · have hs := chunkClause_extra L s a
      rw [if_neg hid] at hs
      have ht := (chunkClause_chunked L t a).1
      have hmv : (chunkClause L s a).maxVar = (chunkClause L t a).maxVar := by
        rw [(chunkClause_chunked L s a).2, (chunkClause_chunked L t a).2, hm]
      obtain ⟨X, h1, h2⟩ := ih (chunkClause L s a) (chunkClause L t a) hmv
      refine ⟨emitted L s.maxVar a ++ X, ?_, ?_⟩
      · rw [List.foldl_cons, h1, hs, List.append_assoc]
      · rw [List.filter_cons_of_pos (by simp only [decide_eq_true_eq]; exact hid), List.foldl_cons, h2, ht, hm,
          List.append_assoc]

/-- C12 (amended): after the chunking loop of `Library::read_cnf`, the side-channel
`extra_clauses` holds, after its earlier content and in emission order, exactly the
clauses that the loop appends to `chunked_clauses` for the clauses it chops up; each of
them is in `chunked_clauses`; a clause pushed unchanged because its size or its
positive-literal count is at most `L` is appended to `chunked_clauses` only. -/
theorem chunk_extra_clauses (L m : Nat) (extra : List Clause) (orig_clauses : List Clause) :
    (chunk L m extra orig_clauses).extra_clauses =
      extra ++ (chunk L m []
        (orig_clauses.filter
          (fun c => decide (¬ (c.length ≤ L ∨ positive_count c ≤ L))))).chunked_clauses ∧
    (∀ (s : ChunkState) (clause : Clause),
      (clause.length ≤ L ∨ positive_count clause ≤ L) →
        (chunkClause L s clause).extra_clauses = s.extra_clauses ∧
        (chunkClause L s clause).chunked_clauses = s.chunked_clauses ++ [clause]) ∧
    (∀ (s : ChunkState) (clause : Clause),
      ¬ (clause.length ≤ L ∨ positive_count clause ≤ L) →
        (chunkClause L s clause).extra_clauses =
          s.extra_clauses ++ emitted L s.maxVar clause ∧
        (chunkClause L s clause).chunked_clauses =
          s.chunked_clauses ++ emitted L s.maxVar clause) := by
  refine ⟨?_, ?_, ?_⟩
  · obtain ⟨X, h1, h2⟩ := chunkAll_extra L orig_clauses
      { collect := [], count := 0, maxVar := m, extra_clauses := extra, chunked_clauses := [] }
      { collect := [], count := 0, maxVar := m, extra_clauses := [], chunked_clauses := [] }
      rfl
    unfold chunk
    rw [h1, h2]
    simp
  · intro s clause hid
    have h := chunkClause_extra L s clause
    rw [if_pos hid, List.append_nil] at h
    refine ⟨h, ?_⟩
    rcases chunkClause_cases L s clause with ⟨_, e⟩ | ⟨hn, _⟩
    · rw [e]
    · exact absurd hid hn
  · intro s clause hid
    have h := chunkClause_extra L s clause
    rw [if_neg hid] at h
    exact ⟨h, (chunkClause_chunked L s clause).1⟩

/-- C12 as stated fails on a clause that is pushed unchanged: with `L = 2` the clause
`x0 ∨ x1` is appended to `chunked_clauses` and the side-channel stays empty. -/
theorem chunk_extra_clauses_counterexample :
    (chunk 2 2 [] [[⟨0, false⟩, ⟨1, false⟩]]).chunked_clauses = [[⟨0, false⟩, ⟨1, false⟩]] ∧
      (chunk 2 2 [] [[⟨0, false⟩, ⟨1, false⟩]]).extra_clauses = [] ∧
      ¬ (∀ c ∈ (chunk 2 2 [] [[⟨0, false⟩, ⟨1, false⟩]]).chunked_clauses,
          c ∈ (chunk 2 2 [] [[⟨0, false⟩, ⟨1, false⟩]]).extra_clauses) := by
  decide

/-! ### C17 and C18: the counter, the auxiliary variables and the size of the output -/

theorem foldl_inv_mem {S A : Type} (P : S → Prop) (f : S → A → S) :
    ∀ (l : List A) (s : S), (∀ s a, a ∈ l → P s → P (f s a)) → P s → P (l.foldl f s) := by
  intro l
  induction l with
  | nil => intro s _ hs; simpa using hs
  | cons a l ih =>
    intro s h hs
    simp only [List.foldl_cons]
    exact ih (f s a) (fun t b hb ht => h t b (by simp [hb]) ht) (h s a (by simp) hs)

theorem chunkStep_maxVar_le (L : Nat) (s : ChunkState) (l : Lit) :
    s.maxVar ≤ (chunkStep L s l).maxVar := by
  rw [chunkStep_eq]
  split
  · exact Nat.le_succ _
  · exact le_refl _

theorem stepAllocations_eq (L : Nat) (s : ChunkState) (l : Lit) :
    stepAllocations L s l =
      if s.count + l.positive > L then [s.maxVar % 2147483648] else [] := by
  unfold stepAllocations
  rw [chunkStep_eq]
  split
  · simp
  · simp

/-- The auxiliary variables of a scan are the successive values of the counter, each
narrowed to the 31 bits of a literal; the counter ends right after them, and each of
them comes with one emitted clause. -/
theorem scanAllocations_spec (L : Nat) :
    ∀ (ls : List Lit) (s : ChunkState),
      scanAllocations L s ls =
        (List.range' s.maxVar (scanAllocations L s ls).length).map
          (fun a => a % 2147483648) ∧
      (ls.foldl (chunkStep L) s).maxVar = s.maxVar + (scanAllocations L s ls).length ∧
      (ls.foldl (chunkStep L) s).chunked_clauses.length =
        s.chunked_clauses.length + (scanAllocations L s ls).length ∧
      (scanAllocations L s ls).length ≤ ls.length := by
  intro ls
  induction ls with
  | nil => intro s; simp [scanAllocations]
  | cons l ls ih =>
    intro s
    obtain ⟨h1, h2, h3, h4⟩ := ih (chunkStep L s l)
    simp only [scanAllocations, stepAllocations_eq, List.foldl_cons]
    by_cases hsplit : s.count + l.positive > L
    · have hm : (chunkStep L s l).maxVar = s.maxVar + 1 := by
        rw [chunkStep_eq, if_pos hsplit]
      have hc : (chunkStep L s l).chunked_clauses.length = s.chunked_clauses.length + 1 := by
        rw [chunkStep_eq, if_pos hsplit]; simp
      rw [if_pos hsplit]
      simp only [List.singleton_append, List.length_cons]
      refine ⟨?_, ?_, ?_, ?_⟩
      · rw [List.range'_succ, List.map_cons]
        congr 1
        rw [← hm]
        exact h1
      · rw [h2, hm]; omega
      · rw [h3, hc]; omega
      · omega
    · have hm : (chunkStep L s l).maxVar = s.maxVar := by
        rw [chunkStep_eq, if_neg hsplit]
      have hc : (chunkStep L s l).chunked_clauses.length = s.chunked_clauses.length := by
        rw [chunkStep_eq, if_neg hsplit]
      rw [if_neg hsplit]
      simp only [List.nil_append, List.length_cons]
      refine ⟨?_, ?_, ?_, ?_⟩
      · rw [← hm]; exact h1
      · rw [h2, hm]
      · rw [h3, hc]
      · omega

theorem chopClause_counts (L : Nat) (s : ChunkState) (clause : Clause) :
    (chopClause L s clause).maxVar =
      s.maxVar + (scanAllocations L { s with collect := [], count := 0 } clause).length ∧
    (chopClause L s clause).chunked_clauses.length ≤
      s.chunked_clauses.length +
        (scanAllocations L { s with collect := [], count := 0 } clause).length + 1 := by
  obtain ⟨_, h2, h3, _⟩ := scanAllocations_spec L clause { s with collect := [], count := 0 }
  unfold chopClause
  simp only []
  split
  · simp only [List.length_append, List.length_singleton]
    exact ⟨h2, by rw [h3]⟩
  · exact ⟨h2, by rw [h3]; exact Nat.le_succ _⟩

theorem clauseAllocations_spec (L : Nat) (s : ChunkState) (clause : Clause) :
    clauseAllocations L s clause =
      (List.range' s.maxVar (clauseAllocations L s clause).length).map
        (fun a => a % 2147483648) ∧
    (chunkClause L s clause).maxVar = s.maxVar + (clauseAllocations L s clause).length ∧
    (chunkClause L s clause).chunked_clauses.length ≤
      s.chunked_clauses.length + (clauseAllocations L s clause).length + 1 ∧
    (clauseAllocations L s clause).length ≤ clause.length := by
  unfold clauseAllocations
  rcases chunkClause_cases L s clause with ⟨hid, h⟩ | ⟨hid, h⟩
  · have e : (if clause.length ≤ L then ([] : List Nat)
        else if positive_count clause ≤ L then []
        else scanAllocations L { s with collect := [], count := 0 } clause) = [] := by
      rcases hid with h1 | h1
      · rw [if_pos h1]
      · by_cases h0 : clause.length ≤ L
        · rw [if_pos h0]
        · rw [if_neg h0, if_pos h1]
    rw [e, h]
    simp
  · have e : (if clause.length ≤ L then ([] : List Nat)
        else if positive_count clause ≤ L then []
        else scanAllocations L { s with collect := [], count := 0 } clause) =
          scanAllocations L { s with collect := [], count := 0 } clause := by
      rw [if_neg (fun h0 => hid (Or.inl h0)), if_neg (fun h0 => hid (Or.inr h0))]
    rw [e, h]
    obtain ⟨h1, _, _, h4⟩ := scanAllocations_spec L clause { s with collect := [], count := 0 }
    obtain ⟨g1, g2⟩ := chopClause_counts L s clause
    exact ⟨h1, g1, g2, h4⟩

theorem allocations_spec (L : Nat) :
    ∀ (cls : List Clause) (s : ChunkState),
      allocations L s cls =
        (List.range' s.maxVar (allocations L s cls).length).map (fun a => a % 2147483648) ∧
      (cls.foldl (chunkClause L) s).maxVar = s.maxVar + (allocations L s cls).length := by
  intro cls
  induction cls with
  | nil => intro s; simp [allocations]
  | cons a cls ih =>
    intro s
    obtain ⟨h1, h2⟩ := ih (chunkClause L s a)
    obtain ⟨g1, g2, _, _⟩ := clauseAllocations_spec L s a
    simp only [allocations, List.foldl_cons, List.length_append]
    refine ⟨?_, ?_⟩
    · rw [Nat.add_comm (clauseAllocations L s a).length, ← List.range'_append_1,
        List.map_append, ← g2, ← h1]
      congr 1
    · rw [h2, g2]; omega

/-- All variables of the bucket and of the emitted clauses are below the counter. -/
theorem chunkStep_varsBelow (L : Nat) (s : ChunkState) (l : Lit) (hl : l.var < s.maxVar)
    (h : (∀ x ∈ s.collect, x.var < s.maxVar) ∧
      ∀ c ∈ s.chunked_clauses, ∀ x ∈ c, x.var < s.maxVar) :
    (∀ x ∈ (chunkStep L s l).collect, x.var < (chunkStep L s l).maxVar) ∧
      ∀ c ∈ (chunkStep L s l).chunked_clauses, ∀ x ∈ c, x.var < (chunkStep L s l).maxVar := by
  obtain ⟨h1, h2⟩ := h
  rw [chunkStep_eq]
  split
  · refine ⟨?_, ?_⟩
    · intro x hx
      simp only [List.mem_cons, List.mem_singleton, List.not_mem_nil, or_false] at hx
      rcases hx with hx | hx
      · subst hx; exact Nat.lt_succ_of_le (Nat.mod_le _ _)
      · subst hx; exact Nat.lt_succ_of_lt hl
    · intro c hc x hx
      simp only [List.mem_append, List.mem_singleton] at hc
      rcases hc with hc | hc
      · exact Nat.lt_succ_of_lt (h2 c hc x hx)
      · subst hc
        simp only [List.mem_append, List.mem_singleton] at hx
        rcases hx with hx | hx
        · exact Nat.lt_succ_of_lt (h1 x hx)
        · subst hx; exact Nat.lt_succ_of_le (Nat.mod_le _ _)
  · refine ⟨?_, h2⟩
    intro x hx
    simp only [List.mem_append, List.mem_singleton] at hx
    rcases hx with hx | hx
    · exact h1 x hx
    · subst hx; exact hl

theorem chunkClause_varsBelow (L : Nat) (s : ChunkState) (clause : Clause)
    (hcl : ∀ x ∈ clause, x.var < s.maxVar)
    (h : ∀ c ∈ s.chunked_clauses, ∀ x ∈ c, x.var < s.maxVar) :
    ∀ c ∈ (chunkClause L s clause).chunked_clauses, ∀ x ∈ c,
      x.var < (chunkClause L s clause).maxVar := by
  rcases chunkClause_cases L s clause with ⟨_, e⟩ | ⟨_, e⟩
  · rw [e]
    intro c hc x hx
    simp only [List.mem_append, List.mem_singleton] at hc
    rcases hc with hc | hc
    · exact h c hc x hx
    · subst hc; exact hcl x hx
  · rw [e]
    have key := foldl_inv_mem
      (fun t : ChunkState => s.maxVar ≤ t.maxVar ∧ (∀ x ∈ t.collect, x.var < t.maxVar) ∧
        ∀ c ∈ t.chunked_clauses, ∀ x ∈ c, x.var < t.maxVar)
      (chunkStep L) clause { s with collect := [], count := 0 }
      (fun t a ha ht =>
        ⟨le_trans ht.1 (chunkStep_maxVar_le L t a),
          chunkStep_varsBelow L t a (lt_of_lt_of_le (hcl a ha) ht.1) ht.2⟩)
      ⟨le_refl _, by simp, h⟩
    obtain ⟨_, k2, k3⟩ := key
    unfold chopClause
    simp only []
    split
    · intro c hc x hx
      simp only [List.mem_append, List.mem_singleton] at hc
      rcases hc with hc | hc
      · exact k3 c hc x hx
      · subst hc; exact k2 x hx
    · exact k3

theorem chunkAll_varsBelow (L : Nat) :
    ∀ (cls : List Clause) (s : ChunkState),
      (∀ c ∈ cls, ∀ x ∈ c, x.var < s.maxVar) →
      (∀ c ∈ s.chunked_clauses, ∀ x ∈ c, x.var < s.maxVar) →
      ∀ c ∈ (cls.foldl (chunkClause L) s).chunked_clauses, ∀ x ∈ c,
        x.var < (cls.foldl (chunkClause L) s).maxVar := by
  intro cls
  induction cls with
  | nil => intro s _ h; simpa using h
  | cons a cls ih =>
    intro s hcl h
    simp only [List.foldl_cons]
    have hle : s.maxVar ≤ (chunkClause L s a).maxVar := by
      rw [(clauseAllocations_spec L s a).2.1]; exact Nat.le_add_right _ _
    exact ih (chunkClause L s a)
      (fun c hc x hx => lt_of_lt_of_le (hcl c (by simp [hc]) x hx) hle)
      (chunkClause_varsBelow L s a (hcl a (by simp)) h)

theorem map_mod_range' (m k : Nat) (h : m + k ≤ 2147483648) :
    (List.range' m k).map (fun a => a % 2147483648) = List.range' m k := by
  have e : ∀ a ∈ List.range' m k, (fun a => a % 2147483648) a = id a := by
    intro a ha
    have h2 := (List.mem_range'_1.mp ha).2
    exact Nat.mod_eq_of_lt (by omega)
  rw [List.map_congr_left e, List.map_id]

/-- C17 (amended): in one run of the chunking loop of `Library::read_cnf` whose counter
starts at `m`, the `k` splits take the values `m, m+1, ..., m+k-1` of the counter, each
once and in this order, and the auxiliary variable written into the clauses by a split is
its counter value modulo `2^31`, the width of the variable of a literal; so when
`m + k ≤ 2^31` the auxiliary variables are exactly `m, m+1, ..., m+k-1`. The counter
never decreases, in a step of the scan or over a clause, and ends at `m + k`; and when
every variable of every original clause is below `m`, every variable of every chunked
clause is below `m + k`, the size of the ring. -/
theorem chunk_allocations (L m : Nat) (extra : List Clause) (orig_clauses : List Clause) :
    allocations L ⟨[], 0, m, extra, []⟩ orig_clauses =
      (List.range' m (allocations L ⟨[], 0, m, extra, []⟩ orig_clauses).length).map
        (fun a => a % 2147483648) ∧
    (m + (allocations L ⟨[], 0, m, extra, []⟩ orig_clauses).length ≤ 2147483648 →
      allocations L ⟨[], 0, m, extra, []⟩ orig_clauses =
        List.range' m (allocations L ⟨[], 0, m, extra, []⟩ orig_clauses).length) ∧
    (chunk L m extra orig_clauses).maxVar =
      m + (allocations L ⟨[], 0, m, extra, []⟩ orig_clauses).length ∧
    (∀ (s : ChunkState) (l : Lit), s.maxVar ≤ (chunkStep L s l).maxVar) ∧
    (∀ (s : ChunkState) (clause : Clause), s.maxVar ≤ (chunkClause L s clause).maxVar) ∧
    ((∀ c ∈ orig_clauses, ∀ l ∈ c, l.var < m) →
      ∀ c ∈ (chunk L m extra orig_clauses).chunked_clauses, ∀ l ∈ c,
        l.var < m + (allocations L ⟨[], 0, m, extra, []⟩ orig_clauses).length) := by
  obtain ⟨h1, h2⟩ := allocations_spec L orig_clauses ⟨[], 0, m, extra, []⟩
  refine ⟨h1, ?_, h2, chunkStep_maxVar_le L, ?_, ?_⟩
  · intro hfit
    exact h1.trans (map_mod_range' m _ hfit)
  · intro s clause
    rw [(clauseAllocations_spec L s clause).2.1]; exact Nat.le_add_right _ _
  · intro hvars c hc l hl
    have := chunkAll_varsBelow L orig_clauses ⟨[], 0, m, extra, []⟩ hvars
      (by intro c hc; simp at hc) c hc l hl
    rw [h2] at this
    exact this

/-- Witness of C17 (amended): `L = 2`, `m = 5` and the clauses `x0 ∨ x1 ∨ x2 ∨ x3 ∨ x4`
and `x0 ∨ ¬x1`: three splits, all in the first clause, with the auxiliary variables 5, 6
and 7 written into the chunked clauses. -/
theorem chunk_allocations_witness :
    allocations 2 ⟨[], 0, 5, [], []⟩
        [[⟨0, false⟩, ⟨1, false⟩, ⟨2, false⟩, ⟨3, false⟩, ⟨4, false⟩],
          [⟨0, false⟩, ⟨1, true⟩]] = [5, 6, 7] ∧
    (chunk 2 5 [] [[⟨0, false⟩, ⟨1, false⟩, ⟨2, false⟩, ⟨3, false⟩, ⟨4, false⟩],
        [⟨0, false⟩, ⟨1, true⟩]]).chunked_clauses =
      [[⟨0, false⟩, ⟨1, false⟩, ⟨5, true⟩], [⟨5, false⟩, ⟨2, false⟩, ⟨6, true⟩],
        [⟨6, false⟩, ⟨3, false⟩, ⟨7, true⟩], [⟨7, false⟩, ⟨4, false⟩],
        [⟨0, false⟩, ⟨1, true⟩]] ∧
    allocations 2 ⟨[], 0, 5, [], []⟩
        [[⟨0, false⟩, ⟨1, false⟩, ⟨2, false⟩, ⟨3, false⟩, ⟨4, false⟩],
          [⟨0, false⟩, ⟨1, true⟩]] =
      List.range' 5 (allocations 2 ⟨[], 0, 5, [], []⟩
        [[⟨0, false⟩, ⟨1, false⟩, ⟨2, false⟩, ⟨3, false⟩, ⟨4, false⟩],
          [⟨0, false⟩, ⟨1, true⟩]]).length ∧
    ∀ c ∈ (chunk 2 5 [] [[⟨0, false⟩, ⟨1, false⟩, ⟨2, false⟩, ⟨3, false⟩, ⟨4, false⟩],
        [⟨0, false⟩, ⟨1, true⟩]]).chunked_clauses, ∀ l ∈ c,
      l.var < 5 + (allocations 2 ⟨[], 0, 5, [], []⟩
        [[⟨0, false⟩, ⟨1, false⟩, ⟨2, false⟩, ⟨3, false⟩, ⟨4, false⟩],
          [⟨0, false⟩, ⟨1, true⟩]]).length :=
  ⟨by decide, by decide,
    (chunk_allocations 2 5 [] [[⟨0, false⟩, ⟨1, false⟩, ⟨2, false⟩, ⟨3, false⟩, ⟨4, false⟩],
      [⟨0, false⟩, ⟨1, true⟩]]).2.1 (by decide),
    (chunk_allocations 2 5 [] [[⟨0, false⟩, ⟨1, false⟩, ⟨2, false⟩, ⟨3, false⟩, ⟨4, false⟩],
      [⟨0, false⟩, ⟨1, true⟩]]).2.2.2.2.2 (by decide)⟩

/-- C17 as stated fails once the counter passes `2^31`: with `m = 2^31 - 1`, `L = 2` and
the clause `x0 ∨ x1 ∨ x2 ∨ x3` there are two splits; the counter ends at `m + 2`, but the
auxiliary variables written into the clauses are `2^31 - 1` and `0`, not `m` and `m + 1`,
and the second one is the variable of an original literal. -/
theorem chunk_allocations_counterexample :
    allocations 2 ⟨[], 0, 2147483647, [], []⟩
        [[⟨0, false⟩, ⟨1, false⟩, ⟨2, false⟩, ⟨3, false⟩]] = [2147483647, 0] ∧
    (chunk 2 2147483647 [] [[⟨0, false⟩, ⟨1, false⟩, ⟨2, false⟩, ⟨3, false⟩]]).maxVar =
      2147483647 + 2 ∧
    (chunk 2 2147483647 [] [[⟨0, false⟩, ⟨1, false⟩, ⟨2, false⟩, ⟨3, false⟩]]).chunked_clauses =
      [[⟨0, false⟩, ⟨1, false⟩, ⟨2147483647, true⟩],
        [⟨2147483647, false⟩, ⟨2, false⟩, ⟨0, true⟩], [⟨0, false⟩, ⟨3, false⟩]] ∧
    allocations 2 ⟨[], 0, 2147483647, [], []⟩
        [[⟨0, false⟩, ⟨1, false⟩, ⟨2, false⟩, ⟨3, false⟩]] ≠
      List.range' 2147483647 (allocations 2 ⟨[], 0, 2147483647, [], []⟩
        [[⟨0, false⟩, ⟨1, false⟩, ⟨2, false⟩, ⟨3, false⟩]]).length := by
  decide

/-- C18: for every bound `L`, `L = 0` included, the scan of a clause, a fold over its
literals that reads each of them once, creates at most one auxiliary variable per
literal, so at most `size` of them, moves the counter by their number, and appends at
most `size + 1` clauses to `chunked_clauses`; the same bounds hold for the whole loop
body, which may also push the clause unchanged. -/
theorem scan_bounds (L : Nat) (s : ChunkState) (clause : Clause) :
    (scanAllocations L { s with collect := [], count := 0 } clause).length ≤ clause.length ∧
    (chopClause L s clause).maxVar =
      s.maxVar + (scanAllocations L { s with collect := [], count := 0 } clause).length ∧
    (chopClause L s clause).maxVar ≤ s.maxVar + clause.length ∧
    (chopClause L s clause).chunked_clauses.length ≤
      s.chunked_clauses.length + clause.length + 1 ∧
    (clauseAllocations L s clause).length ≤ clause.length ∧
    (chunkClause L s clause).maxVar ≤ s.maxVar + clause.length ∧
    (chunkClause L s clause).chunked_clauses.length ≤
      s.chunked_clauses.length + clause.length + 1 ∧
    (emitted L s.maxVar clause).length ≤ clause.length + 1 := by
  obtain ⟨_, _, _, h4⟩ := scanAllocations_spec L clause { s with collect := [], count := 0 }
  obtain ⟨g1, g2⟩ := chopClause_counts L s clause
  obtain ⟨_, k2, k3, k4⟩ := clauseAllocations_spec L s clause
  have he := (chunkClause_chunked L s clause).1
  have hlen : (chunkClause L s clause).chunked_clauses.length =
      s.chunked_clauses.length + (emitted L s.maxVar clause).length := by
    rw [he, List.length_append]
  refine ⟨h4, g1, by omega, by omega, k4, by omega, by omega, by omega⟩

/-! ### C19: the counter of the scan for a bound of at least 2 -/

theorem chunkStep_splitInv (L : Nat) (hL : 2 ≤ L) (base : List Clause) (done : Clause)
    (t : ChunkState) (l : Lit) (h : SplitInv L base done t) :
    SplitInv L base (done ++ [l]) (chunkStep L t l) ∧
      (t.count + l.positive > L → (back (t.collect ++ [l]) l).sign = false) := by
  obtain ⟨h1, h2, X, h3, h4, h5, h6⟩ := h
  have hl := positive_le_one l
  rw [chunkStep_eq, back_append_singleton]
  by_cases hsplit : t.count + l.positive > L
  · have hl1 : l.positive = 1 := by omega
    have hsign : l.sign = false := by
      cases hs : l.sign
      · rfl
      · simp [Lit.positive, hs] at hl1
    rw [if_pos hsplit]
    refine ⟨⟨?_, hL, X ++ [t.collect ++ [{ var := t.maxVar % 2147483648, sign := true }]], ?_, ?_, ?_, ?_⟩,
      fun _ => hsign⟩
    · simp only [positive_count_cons, positive_count_nil, hl1]
      simp [Lit.positive]
    · simp only [h3, List.append_assoc]
    · intro c hc
      simp only [List.mem_append, List.mem_singleton] at hc
      rcases hc with hc | hc
      · exact h4 c hc
      · subst hc
        simp only [positive_count_append, positive_count_cons, positive_count_nil]
        simp only [Lit.positive, if_true]
        omega
    · intro hX; simp at hX
    · intro _; exact le_refl 2
  · rw [if_neg hsplit]
    refine ⟨⟨?_, by simpa using hsplit, X, h3, h4, ?_, ?_⟩, fun hc => absurd hc hsplit⟩
    · simp only [positive_count_append, positive_count_cons, positive_count_nil]
      omega
    · intro hX
      simp only [positive_count_append, positive_count_cons, positive_count_nil]
      have := h5 hX
      omega
    · intro hX
      have := h6 hX
      show 2 ≤ t.count + l.positive
      omega

theorem scan_splitInv (L : Nat) (hL : 2 ≤ L) (base : List Clause) :
    ∀ (ls : List Lit) (done : Clause) (t : ChunkState), SplitInv L base done t →
      SplitInv L base (done ++ ls) (ls.foldl (chunkStep L) t) := by
  intro ls
  induction ls with
  | nil => intro done t h; simpa using h
  | cons l ls ih =>
    intro done t h
    have := ih (done ++ [l]) (chunkStep L t l) (chunkStep_splitInv L hL base done t l h).1
    simpa using this

/-- C19: for a bound `L ≥ 2` and a clause that is chopped up (more than `L` literals and
more than `L` non-negated ones), after every part of the scan the counter `count` is
the number of non-negated literals of the pending bucket; the literal `prev` displaced
at a split is non-negated; every clause emitted at a split contains exactly `L`
non-negated literals; and the final emitted clause contains at least 2 and at most `L`
of them. -/
theorem scan_count_invariant (L : Nat) (s : ChunkState) (clause : Clause) (hL : 2 ≤ L)
    (hlen : L < clause.length) (hpos : L < positive_count clause) :
    chunkClause L s clause = chopClause L s clause ∧
    (∀ done rest : List Lit, clause = done ++ rest →
      (done.foldl (chunkStep L) { s with collect := [], count := 0 }).count =
        positive_count (done.foldl (chunkStep L) { s with collect := [], count := 0 }).collect) ∧
    (∀ (done : List Lit) (l : Lit) (rest : List Lit), clause = done ++ l :: rest →
      (done.foldl (chunkStep L) { s with collect := [], count := 0 }).count + l.positive > L →
      (back ((done.foldl (chunkStep L) { s with collect := [], count := 0 }).collect ++ [l])
        l).sign = false) ∧
    (∃ (atSplits : List Clause) (final : Clause),
      (chunkClause L s clause).chunked_clauses = s.chunked_clauses ++ atSplits ++ [final] ∧
      atSplits ≠ [] ∧ (∀ c ∈ atSplits, positive_count c = L) ∧
      2 ≤ positive_count final ∧ positive_count final ≤ L) := by
  have hinit : SplitInv L s.chunked_clauses [] { s with collect := [], count := 0 } :=
    ⟨by simp, by simp, [], by simp, by simp, by simp, by simp⟩
  have hchop : chunkClause L s clause = chopClause L s clause := by
    rcases chunkClause_cases L s clause with ⟨hid, _⟩ | ⟨_, e⟩
    · rcases hid with h | h <;> omega
    · exact e
  refine ⟨hchop, ?_, ?_, ?_⟩
  · intro done rest _
    exact (scan_splitInv L hL s.chunked_clauses done [] _ hinit).1
  · intro done l rest _ hgt
    exact (chunkStep_splitInv L hL s.chunked_clauses ([] ++ done) _ l
      (scan_splitInv L hL s.chunked_clauses done [] _ hinit)).2 hgt
  · obtain ⟨h1, h2, X, h3, h4, h5, h6⟩ := scan_splitInv L hL s.chunked_clauses clause [] _ hinit
    have hne : clause ≠ [] := by
      intro h0; subst h0; simp at hlen
    have hX : X ≠ [] := by
      intro h0
      have := h5 h0
      simp only [List.nil_append] at this
      omega
    refine ⟨X, (clause.foldl (chunkStep L) { s with collect := [], count := 0 }).collect,
      ?_, hX, h4, ?_, ?_⟩
    · rw [hchop, chopClause_eq L s clause hne]
      simp only [h3]
    · rw [← h1]; exact h6 hX
    · rw [← h1]; exact h2

/-- Witness of C19: `L = 2` and the clause `x0 ∨ x1 ∨ x2 ∨ ¬x3 ∨ x4`. -/
theorem scan_count_invariant_witness :
    (2 ≤ 2 ∧ 2 < ([⟨0, false⟩, ⟨1, false⟩, ⟨2, false⟩, ⟨3, true⟩, ⟨4, false⟩] : Clause).length ∧
      2 < positive_count [⟨0, false⟩, ⟨1, false⟩, ⟨2, false⟩, ⟨3, true⟩, ⟨4, false⟩]) ∧
    (chunkClause 2 ⟨[], 0, 5, [], []⟩
        [⟨0, false⟩, ⟨1, false⟩, ⟨2, false⟩, ⟨3, true⟩, ⟨4, false⟩]).chunked_clauses =
      [[⟨0, false⟩, ⟨1, false⟩, ⟨5, true⟩], [⟨5, false⟩, ⟨2, false⟩, ⟨3, true⟩, ⟨6, true⟩],
        [⟨6, false⟩, ⟨4, false⟩]] ∧
    ∃ (atSplits : List Clause) (final : Clause),
      (chunkClause 2 ⟨[], 0, 5, [], []⟩
          [⟨0, false⟩, ⟨1, false⟩, ⟨2, false⟩, ⟨3, true⟩, ⟨4, false⟩]).chunked_clauses =
        [] ++ atSplits ++ [final] ∧
      atSplits ≠ [] ∧ (∀ c ∈ atSplits, positive_count c = 2) ∧
      2 ≤ positive_count final ∧ positive_count final ≤ 2 :=
  ⟨by decide, by decide,
    (scan_count_invariant 2 ⟨[], 0, 5, [], []⟩
      [⟨0, false⟩, ⟨1, false⟩, ⟨2, false⟩, ⟨3, true⟩, ⟨4, false⟩] (by decide) (by decide)
      (by decide)).2.2.2⟩

/-! ### C20: the emitted clauses spell the original clause -/

theorem scan_collect_frame (L : Nat) (e c : List Clause) (ls : List Lit) (t : ChunkState) :
    (ls.foldl (chunkStep L) { t with extra_clauses := e, chunked_clauses := c }).collect =
      (ls.foldl (chunkStep L) t).collect := by
  have h1 := scan_prepend L e c ls { t with extra_clauses := [], chunked_clauses := [] }
  have h2 := scan_prepend L t.extra_clauses t.chunked_clauses ls
    { t with extra_clauses := [], chunked_clauses := [] }
  simp only [List.append_nil] at h1 h2
  rw [h1, h2]

theorem scan_chunked_frame (L : Nat) (ls : List Lit) (t : ChunkState) :
    (ls.foldl (chunkStep L) t).chunked_clauses =
      t.chunked_clauses ++
        (ls.foldl (chunkStep L)
          { t with extra_clauses := [], chunked_clauses := [] }).chunked_clauses := by
  have h2 := scan_prepend L t.extra_clauses t.chunked_clauses ls
    { t with extra_clauses := [], chunked_clauses := [] }
  simp only [List.append_nil] at h2
  rw [h2]

theorem pending_nil (L : Nat) (t : ChunkState) : pending L t [] = [t.collect] := rfl

theorem pending_cons_split (L : Nat) (t : ChunkState) (l : Lit) (ls : List Lit)
    (h : t.count + l.positive > L) :
    pending L t (l :: ls) =
      (t.collect ++ [{ var := t.maxVar % 2147483648, sign := true }]) ::
        pending L ⟨[{ var := t.maxVar % 2147483648, sign := false }, l], 2, t.maxVar + 1, [], []⟩ ls := by
  unfold pending
  simp only [List.foldl_cons]
  rw [chunkStep_eq, if_pos (by simpa using h), chunkStep_eq, if_pos h]
  simp only [List.nil_append]
  rw [scan_chunked_frame]
  simp only [List.singleton_append, List.cons_append]
  congr 2
  exact congrArg (fun x => [x]) (scan_collect_frame L _ _ ls
    ⟨[{ var := t.maxVar % 2147483648, sign := false }, l], 2, t.maxVar + 1, [], []⟩)

theorem pending_cons_keep (L : Nat) (t : ChunkState) (l : Lit) (ls : List Lit)
    (h : ¬ t.count + l.positive > L) :
    pending L t (l :: ls) =
      pending L { t with collect := t.collect ++ [l], count := t.count + l.positive } ls := by
  unfold pending
  simp only [List.foldl_cons]
  rw [chunkStep_eq, if_neg (by simpa using h), chunkStep_eq, if_neg h]

theorem pending_ne_nil (L : Nat) (t : ChunkState) (ls : List Lit) : pending L t ls ≠ [] := by
  unfold pending
  simp

/-- What the loop body emits for a clause that it chops up. -/
theorem emitted_eq_pending (L m : Nat) (clause : Clause)
    (h : ¬ (clause.length ≤ L ∨ positive_count clause ≤ L)) :
    emitted L m clause = pending L ⟨[], 0, m, [], []⟩ clause := by
  have hne : clause ≠ [] := by
    intro h0; subst h0; simp at h
  unfold emitted
  rcases chunkClause_cases L ⟨[], 0, m, [], []⟩ clause with ⟨hid, _⟩ | ⟨_, e⟩
  · contradiction
  · rw [e, chopClause_eq L _ clause hne]
    rfl

theorem emitted_identity (L m : Nat) (clause : Clause)
    (h : clause.length ≤ L ∨ positive_count clause ≤ L) : emitted L m clause = [clause] := by
  unfold emitted
  rcases chunkClause_cases L ⟨[], 0, m, [], []⟩ clause with ⟨_, e⟩ | ⟨hn, _⟩
  · rw [e]; rfl
  · exact absurd h hn

theorem stripAuxTail_cons (c : Clause) (cs : List Clause) (h : cs ≠ []) :
    stripAuxTail (c :: cs) = c.tail.dropLast ++ stripAuxTail cs := by
  cases cs with
  | nil => exact absurd rfl h
  | cons d cs => rfl

theorem stripAux_cons (c : Clause) (cs : List Clause) (h : cs ≠ []) :
    stripAux (c :: cs) = c.dropLast ++ stripAuxTail cs := by
  cases cs with
  | nil => exact absurd rfl h
  | cons d cs => rfl

theorem stripAuxTail_pending (L : Nat) :
    ∀ (ls : List Lit) (t : ChunkState), t.collect ≠ [] →
      stripAuxTail (pending L t ls) = t.collect.tail ++ ls := by
  intro ls
  induction ls with
  | nil => intro t _; simp [pending_nil, stripAuxTail]
  | cons l ls ih =>
    intro t ht
    by_cases hsplit : t.count + l.positive > L
    · rw [pending_cons_split L t l ls hsplit, stripAuxTail_cons _ _ (pending_ne_nil L _ ls),
        ih _ (by simp)]
      cases hc : t.collect with
      | nil => exact absurd hc ht
      | cons a as => simp
    · rw [pending_cons_keep L t l ls hsplit, ih _ (by simp)]
      cases hc : t.collect with
      | nil => exact absurd hc ht
      | cons a as => simp

theorem stripAux_pending (L : Nat) :
    ∀ (ls : List Lit) (t : ChunkState), stripAux (pending L t ls) = t.collect ++ ls := by
  intro ls
  induction ls with
  | nil => intro t; simp [pending_nil, stripAux]
  | cons l ls ih =>
    intro t
    by_cases hsplit : t.count + l.positive > L
    · rw [pending_cons_split L t l ls hsplit, stripAux_cons _ _ (pending_ne_nil L _ ls),
        stripAuxTail_pending L ls _ (by simp)]
      simp
    · rw [pending_cons_keep L t l ls hsplit, ih]
      simp

theorem pending_head (L : Nat) :
    ∀ (ls : List Lit) (t : ChunkState), t.collect ≠ [] →
      ((pending L t ls)[0]?).bind List.head? = t.collect.head? := by
  intro ls
  induction ls with
  | nil => intro t _; simp [pending_nil]
  | cons l ls ih =>
    intro t ht
    cases hc : t.collect with
    | nil => exact absurd hc ht
    | cons a as =>
      by_cases hsplit : t.count + l.positive > L
      · rw [pending_cons_split L t l ls hsplit, hc]
        simp
      · rw [pending_cons_keep L t l ls hsplit, ih _ (by simp), hc]
        simp

/-- Where the auxiliary literals are: the clause number `i`, when it is not the last
one, ends with the negated auxiliary variable number `i`, which is the value of the
counter narrowed to 31 bits, and the next clause starts with the same variable,
non-negated. -/
theorem pending_aux (L : Nat) :
    ∀ (ls : List Lit) (t : ChunkState) (i : Nat), i + 1 < (pending L t ls).length →
      ((pending L t ls)[i]?).bind List.getLast? =
        some { var := (t.maxVar + i) % 2147483648, sign := true } ∧
      ((pending L t ls)[i + 1]?).bind List.head? =
        some { var := (t.maxVar + i) % 2147483648, sign := false } := by
  intro ls
  induction ls with
  | nil => intro t i hi; simp [pending_nil] at hi
  | cons l ls ih =>
    intro t i hi
    by_cases hsplit : t.count + l.positive > L
    · rw [pending_cons_split L t l ls hsplit] at hi ⊢
      cases i with
      | zero =>
        refine ⟨by simp, ?_⟩
        have := pending_head L ls
          ⟨[{ var := t.maxVar % 2147483648, sign := false }, l], 2, t.maxVar + 1, [], []⟩ (by simp)
        simpa using this
      | succ j =>
        have hj : j + 1 < (pending L
            ⟨[{ var := t.maxVar % 2147483648, sign := false }, l], 2, t.maxVar + 1, [], []⟩ ls).length := by
          simpa using hi
        obtain ⟨h1, h2⟩ := ih _ j hj
        have e : t.maxVar + 1 + j = t.maxVar + (j + 1) := by omega
        simp only [List.getElem?_cons_succ]
        rw [h1, h2]
        simp only [e, and_self]
    · rw [pending_cons_keep L t l ls hsplit] at hi ⊢
      exact ih _ i hi

/-- With fresh auxiliary variables that fit the 31 bits of a literal, the literals over
original variables are the literals of the bucket and of the clause, in order. -/
theorem pending_filter_orig (L m0 : Nat) :
    ∀ (ls : List Lit) (t : ChunkState), (∀ l ∈ ls, l.var < m0) → m0 ≤ t.maxVar →
      t.maxVar + ((pending L t ls).length - 1) ≤ 2147483648 →
      (pending L t ls).flatten.filter (fun l => decide (l.var < m0)) =
        t.collect.filter (fun l => decide (l.var < m0)) ++ ls := by
  intro ls
  induction ls with
  | nil => intro t _ _ _; simp [pending_nil]
  | cons l ls ih =>
    intro t hls hm hfit
    have hl : l.var < m0 := hls l (by simp)
    have hls1 : ∀ x ∈ ls, x.var < m0 := fun x hx => hls x (by simp [hx])
    by_cases hsplit : t.count + l.positive > L
    · rw [pending_cons_split L t l ls hsplit] at hfit ⊢
      have hpos := List.length_pos.mpr (pending_ne_nil L
        ⟨[{ var := t.maxVar % 2147483648, sign := false }, l], 2, t.maxVar + 1, [], []⟩ ls)
      simp only [List.length_cons, Nat.add_sub_cancel] at hfit
      have hmod : t.maxVar % 2147483648 = t.maxVar := Nat.mod_eq_of_lt (by omega)
      rw [List.flatten_cons, List.filter_append,
        ih _ hls1 (Nat.le_succ_of_le hm) (by simp only []; omega)]
      have hna : ¬ t.maxVar < m0 := by omega
      simp [List.filter_cons, hmod, hna, hl]
    · rw [pending_cons_keep L t l ls hsplit] at hfit ⊢
      rw [ih { t with collect := t.collect ++ [l], count := t.count + l.positive } hls1 hm hfit]
      simp [List.filter_cons, hl]

/-- With fresh auxiliary variables that fit the 31 bits of a literal, the literals over
auxiliary variables are the pairs `¬a, a` for the successive auxiliary variables `a`. -/
theorem pending_filter_aux (L m0 : Nat) :
    ∀ (ls : List Lit) (t : ChunkState), (∀ l ∈ ls, l.var < m0) → m0 ≤ t.maxVar →
      t.maxVar + ((pending L t ls).length - 1) ≤ 2147483648 →
      (pending L t ls).flatten.filter (fun l => decide (m0 ≤ l.var)) =
        t.collect.filter (fun l => decide (m0 ≤ l.var)) ++
          ((List.range' t.maxVar ((pending L t ls).length - 1)).map auxPair).flatten := by
  intro ls
  induction ls with
  | nil => intro t _ _ _; simp [pending_nil]
  | cons l ls ih =>
    intro t hls hm hfit
    have hl : ¬ m0 ≤ l.var := Nat.not_le.mpr (hls l (by simp))
    have hls1 : ∀ x ∈ ls, x.var < m0 := fun x hx => hls x (by simp [hx])
    by_cases hsplit : t.count + l.positive > L
    · rw [pending_cons_split L t l ls hsplit] at hfit ⊢
      have hlen : (pending L ⟨[{ var := t.maxVar % 2147483648, sign := false }, l], 2, t.maxVar + 1, [], []⟩
          ls).length - 1 + 1 = (pending L
            ⟨[{ var := t.maxVar % 2147483648, sign := false }, l], 2, t.maxVar + 1, [], []⟩ ls).length := by
        have := List.length_pos.mpr (pending_ne_nil L
          ⟨[{ var := t.maxVar % 2147483648, sign := false }, l], 2, t.maxVar + 1, [], []⟩ ls)
        omega
      simp only [List.length_cons, Nat.add_sub_cancel] at hfit
      have hmod : t.maxVar % 2147483648 = t.maxVar := Nat.mod_eq_of_lt (by omega)
      rw [List.flatten_cons, List.filter_append,
        ih _ hls1 (Nat.le_succ_of_le hm) (by simp only []; omega)]
      simp only [List.length_cons, Nat.add_sub_cancel]
      rw [← hlen, List.range'_succ]
      simp [List.filter_cons, hmod, hm, hl, auxPair]
    · rw [pending_cons_keep L t l ls hsplit] at hfit ⊢
      rw [ih { t with collect := t.collect ++ [l], count := t.count + l.positive } hls1 hm hfit]
      simp [List.filter_cons, hl]

/-- C20 (amended): for every clause and every bound `L`, deleting from the clauses
emitted for the clause the auxiliary literals, the last literal of every emitted clause
but the last and the first literal of every emitted clause but the first, and
concatenating in emission order gives back the clause, literal for literal. The
auxiliary literal that ends the emitted clause number `i` is negated and over the
variable `(m + i) mod 2^31`, the counter narrowed to the width of the variable of a
literal, and the one that starts the next clause is the same variable, non-negated.
When the variables of the clause are below the counter `m` and the counter ends at no
more than `2^31`, deleting the literals over variables `≥ m` gives the clause, and the
deleted literals are the pairs `¬a, a` for `a = m, m+1, ...`, so that each auxiliary
variable occurs exactly twice. -/
theorem emitted_spells_clause (L m : Nat) (clause : Clause) :
    stripAux (emitted L m clause) = clause ∧
    (∀ i, i + 1 < (emitted L m clause).length →
      ((emitted L m clause)[i]?).bind List.getLast? =
        some { var := (m + i) % 2147483648, sign := true } ∧
      ((emitted L m clause)[i + 1]?).bind List.head? =
        some { var := (m + i) % 2147483648, sign := false }) ∧
    ((∀ l ∈ clause, l.var < m) → m + ((emitted L m clause).length - 1) ≤ 2147483648 →
      (emitted L m clause).flatten.filter (fun l => decide (l.var < m)) = clause ∧
      (emitted L m clause).flatten.filter (fun l => decide (m ≤ l.var)) =
        ((List.range' m ((emitted L m clause).length - 1)).map auxPair).flatten) := by
  by_cases hid : clause.length ≤ L ∨ positive_count clause ≤ L
  · rw [emitted_identity L m clause hid]
    refine ⟨rfl, ?_, ?_⟩
    · intro i hi; simp at hi
    · intro hv _
      refine ⟨?_, ?_⟩
      · simp only [List.flatten_cons, List.flatten_nil, List.append_nil]
        exact List.filter_eq_self.mpr (fun l hl => by simpa using hv l hl)
      · simp only [List.flatten_cons, List.flatten_nil, List.append_nil, List.length_singleton,
          Nat.sub_self, List.range'_zero, List.map_nil]
        exact List.filter_eq_nil_iff.mpr
          (fun l hl => by simpa using hv l hl)
  · rw [emitted_eq_pending L m clause hid]
    refine ⟨?_, ?_, ?_⟩
    · simpa using stripAux_pending L clause ⟨[], 0, m, [], []⟩
    · intro i hi
      exact pending_aux L clause ⟨[], 0, m, [], []⟩ i hi
    · intro hv hfit
      refine ⟨?_, ?_⟩
      · simpa using pending_filter_orig L m clause ⟨[], 0, m, [], []⟩ hv (le_refl m) hfit
      · simpa using pending_filter_aux L m clause ⟨[], 0, m, [], []⟩ hv (le_refl m) hfit

/-- Witness of C20 (amended): `L = 2`, `m = 5` and the clause
`x0 ∨ x1 ∨ x2 ∨ x3 ∨ x4`, emitted as four clauses with the auxiliary variables 5, 6
and 7. -/
theorem emitted_spells_clause_witness :
    emitted 2 5 [⟨0, false⟩, ⟨1, false⟩, ⟨2, false⟩, ⟨3, false⟩, ⟨4, false⟩] =
      [[⟨0, false⟩, ⟨1, false⟩, ⟨5, true⟩], [⟨5, false⟩, ⟨2, false⟩, ⟨6, true⟩],
        [⟨6, false⟩, ⟨3, false⟩, ⟨7, true⟩], [⟨7, false⟩, ⟨4, false⟩]] ∧
    (emitted 2 5 [⟨0, false⟩, ⟨1, false⟩, ⟨2, false⟩, ⟨3, false⟩, ⟨4, false⟩]).flatten.filter
        (fun l => decide (l.var < 5)) =
      [⟨0, false⟩, ⟨1, false⟩, ⟨2, false⟩, ⟨3, false⟩, ⟨4, false⟩] ∧
    (emitted 2 5 [⟨0, false⟩, ⟨1, false⟩, ⟨2, false⟩, ⟨3, false⟩, ⟨4, false⟩]).flatten.filter
        (fun l => decide (5 ≤ l.var)) =
      ((List.range' 5
        ((emitted 2 5 [⟨0, false⟩, ⟨1, false⟩, ⟨2, false⟩, ⟨3, false⟩, ⟨4, false⟩]).length
          - 1)).map auxPair).flatten :=
  ⟨by decide,
    (emitted_spells_clause 2 5
      [⟨0, false⟩, ⟨1, false⟩, ⟨2, false⟩, ⟨3, false⟩, ⟨4, false⟩]).2.2
      (by decide) (by decide)⟩

/-- C20 as stated fails once the counter passes `2^31`: with `m = 2^31 - 1`, `L = 2` and
the clause `x0 ∨ x1 ∨ x2 ∨ x3`, whose variables are below `m`, the second emitted clause
ends with the negated variable 0, not `m + 1`; deleting the literals over variables
`≥ m` leaves `x0, x1, x2, ¬x0, x0, x3`, which is not the clause; and the auxiliary
variable 0 occurs three times among the emitted literals. -/
theorem emitted_spells_clause_counterexample :
    (∀ l ∈ [(⟨0, false⟩ : Lit), ⟨1, false⟩, ⟨2, false⟩, ⟨3, false⟩], l.var < 2147483647) ∧
    emitted 2 2147483647 [⟨0, false⟩, ⟨1, false⟩, ⟨2, false⟩, ⟨3, false⟩] =
      [[⟨0, false⟩, ⟨1, false⟩, ⟨2147483647, true⟩],
        [⟨2147483647, false⟩, ⟨2, false⟩, ⟨0, true⟩], [⟨0, false⟩, ⟨3, false⟩]] ∧
    ((emitted 2 2147483647 [⟨0, false⟩, ⟨1, false⟩, ⟨2, false⟩, ⟨3, false⟩])[1]?).bind
        List.getLast? ≠ some { var := 2147483647 + 1, sign := true } ∧
    (emitted 2 2147483647
        [⟨0, false⟩, ⟨1, false⟩, ⟨2, false⟩, ⟨3, false⟩]).flatten.filter
          (fun l => decide (l.var < 2147483647)) =
      [⟨0, false⟩, ⟨1, false⟩, ⟨2, false⟩, ⟨0, true⟩, ⟨0, false⟩, ⟨3, false⟩] ∧
    (emitted 2 2147483647
        [⟨0, false⟩, ⟨1, false⟩, ⟨2, false⟩, ⟨3, false⟩]).flatten.filter
          (fun l => decide (l.var < 2147483647)) ≠
      [⟨0, false⟩, ⟨1, false⟩, ⟨2, false⟩, ⟨3, false⟩] ∧
    ((emitted 2 2147483647
        [⟨0, false⟩, ⟨1, false⟩, ⟨2, false⟩, ⟨3, false⟩]).flatten.filter
          (fun l => decide (l.var = 0))).length = 3 := by
  decide

/-! ### C13: `maxVar` bounds the variables of the parsed clauses -/

theorem lineLoop_inv :
    ∀ (fuel : Nat) (iss : List Char) (st st1 : CacheState), CacheInv st →
      lineLoop fuel iss st = Except.ok st1 → CacheInv st1 := by
  intro fuel
  induction fuel with
  | zero =>
    intro iss st st1 hinv h
    simp only [lineLoop, Except.ok.injEq] at h
    rw [← h]; exact hinv
  | succ f ih =>
    intro iss st st1 hinv h
    obtain ⟨h1, h2⟩ := hinv
    simp only [lineLoop] at h
    split at h
    · cases h
    · rename_i v _
      split at h
      · simp only [Except.ok.injEq] at h
        rw [← h]
        refine ⟨h1, ?_⟩
        intro c hc
        simp only [List.mem_append, List.mem_singleton] at hc
        rcases hc with hc | hc
        · exact h2 c hc
        · subst hc; exact h1
      · rename_i hv
        split at h
        · cases h
        · have hpos : 0 < v.natAbs := Int.natAbs_pos.mpr hv
          have hnew : CacheInv
              { x := (extract iss st.x).2.2
                lits := st.lits ++ [{ var := v.natAbs - 1, sign := decide (v < 0) }]
                clauses := st.clauses
                maxVar := max st.maxVar v.natAbs } := by
            refine ⟨?_, ?_⟩
            · intro l hl
              simp only [List.mem_append, List.mem_singleton] at hl
              rcases hl with hl | hl
              · exact lt_of_lt_of_le (h1 l hl) (le_max_left _ _)
              · subst hl
                exact lt_of_lt_of_le (by show v.natAbs - 1 < v.natAbs; omega)
                  (le_max_right _ _)
            · intro c hc l hl
              exact lt_of_lt_of_le (h2 c hc l hl) (le_max_left _ _)
          split at h
          · exact ih _ _ _ hnew h
          · simp only [Except.ok.injEq] at h
            rw [← h]; exact hnew

theorem processLine_inv (st st1 : CacheState) (temp : List Char) (hinv : CacheInv st)
    (h : processLine st temp = Except.ok st1) : CacheInv st1 := by
  unfold processLine at h
  split at h
  · simp only [Except.ok.injEq] at h
    rw [← h]; exact hinv
  · split at h
    · cases h
    · exact lineLoop_inv _ _ { st with lits := [] } _
        ⟨fun l hl => absurd hl (List.not_mem_nil l), hinv.2⟩ h

theorem parseLines_inv :
    ∀ (lns : List (List Char)) (st st1 : CacheState), CacheInv st →
      parseLines lns st = Except.ok st1 → CacheInv st1 := by
  intro lns
  induction lns with
  | nil =>
    intro st st1 hinv h
    simp only [parseLines, Except.ok.injEq] at h
    rw [← h]; exact hinv
  | cons ln lns ih =>
    intro st st1 hinv h
    simp only [parseLines] at h
    cases hp : processLine st ln with
    | error e => rw [hp] at h; cases h
    | ok st2 =>
      rw [hp] at h
      exact ih st2 st1 (processLine_inv st st2 ln hinv hp) h

theorem clauseLine_nonzero (ln : List Char) (vs : List Int) (h : ClauseLine ln vs) :
    ∀ v ∈ vs, v ≠ 0 := by
  induction h with
  | zero ws z trail hws hz htrail => intro v hv; simp at hv
  | lit ws t sp rest v vs hws ht hv hsp hrest ih =>
    intro w hw
    simp only [List.mem_cons] at hw
    rcases hw with hw | hw
    · subst hw; exact hv
    · exact ih w hw

theorem document_nonzero (lns : List (List Char)) (vss : List (List Int))
    (h : Document lns vss) : ∀ vs ∈ vss, ∀ v ∈ vs, v ≠ 0 := by
  induction h with
  | nil => intro vs hvs; simp at hvs
  | skip ln lns vss hskip hrest ih => exact ih
  | clause ln lns vs vss hcl hrest ih =>
    intro ws hws
    simp only [List.mem_cons] at hws
    rcases hws with hws | hws
    · subst hws; exact clauseLine_nonzero ln _ hcl
    · exact ih ws hws

theorem maxAbs_le (vs : List Int) (m : Nat) (h : ∀ v ∈ vs, v.natAbs ≤ m) : maxAbs vs ≤ m := by
  induction vs with
  | nil => simp [maxAbs]
  | cons v vs ih =>
    simp only [maxAbs, List.foldr_cons] at ih ⊢
    exact max_le (h v (by simp)) (ih (fun w hw => h w (by simp [hw])))

theorem read_inv (text : List Char) (r : DIMACSCache)
    (h : DIMACSCache.read (some text) = Except.ok r) :
    ∀ c ∈ r.clauses, ∀ l ∈ c, l.var < r.maxVar := by
  simp only [DIMACSCache.read] at h
  cases hp : parseLines (getlines text) { x := [], lits := [], clauses := [], maxVar := 0 } with
  | error e => rw [hp] at h; cases h
  | ok st =>
    rw [hp] at h
    simp only [Except.ok.injEq] at h
    rw [← h]
    exact (parseLines_inv _ _ st ⟨by simp, by simp⟩ hp).2

/-- What the constructor yields on a well-formed text whose integers fit an `int`. -/
theorem read_of_document (text : List Char) (vss : List (List Int))
    (hdoc : Document (getlines text) vss)
    (hrange : ∀ vs ∈ vss, ∀ v ∈ vs, v.natAbs ≤ 2147483647) :
    DIMACSCache.read (some text) = Except.ok
      { clauses := vss.map (fun vs => vs.map toLit), maxVar := maxAbs vss.flatten } := by
  obtain ⟨x, lits, h⟩ := parseLines_document (getlines text) vss hdoc hrange
    { x := [], lits := [], clauses := [], maxVar := 0 }
  simp only [DIMACSCache.read, h]
  simp

/-- C13 (amended): for every text that the constructor accepts, every literal of every
parsed clause has a variable index below the resulting `maxVar`; and when every line of
the text is empty, starts with `c` or `p`, or is a clause line ended by a 0 token, with
integers that fit an `int`, `maxVar` is the smallest such bound. -/
theorem DIMACSCache_maxVar (text : List Char) :
    (∀ r, DIMACSCache.read (some text) = Except.ok r →
      ∀ c ∈ r.clauses, ∀ l ∈ c, l.var < r.maxVar) ∧
    (∀ vss, Document (getlines text) vss →
      (∀ vs ∈ vss, ∀ v ∈ vs, Int.natAbs v ≤ 2147483647) →
      ∃ r, DIMACSCache.read (some text) = Except.ok r ∧
        (∀ c ∈ r.clauses, ∀ l ∈ c, l.var < r.maxVar) ∧
        ∀ m, (∀ c ∈ r.clauses, ∀ l ∈ c, l.var < m) → r.maxVar ≤ m) := by
  refine ⟨fun r h => read_inv text r h, ?_⟩
  intro vss hdoc hrange
  have hread := read_of_document text vss hdoc hrange
  refine ⟨_, hread, read_inv text _ hread, ?_⟩
  intro m hm
  apply maxAbs_le
  intro v hv
  obtain ⟨vs, hvs, hvvs⟩ := List.mem_flatten.mp hv
  have hnz : v ≠ 0 := document_nonzero _ _ hdoc vs hvs v hvvs
  have hpos : 0 < v.natAbs := Int.natAbs_pos.mpr hnz
  have := hm (vs.map toLit) (List.mem_map.mpr ⟨vs, hvs, rfl⟩) (toLit v)
    (List.mem_map.mpr ⟨v, hvvs, rfl⟩)
  simp only [toLit] at this
  omega

/-- C13 as stated fails on a clause line that lacks its 0 token: the constructor accepts
the one-line text `5`, stores no clause and sets `maxVar = 5`, whereas 0 already bounds
the variables of the parsed clauses. -/
theorem DIMACSCache_maxVar_counterexample :
    DIMACSCache.read (some "5\n".toList) = Except.ok { clauses := [], maxVar := 5 } ∧
      (∀ c ∈ ([] : List Clause), ∀ l ∈ c, l.var < 0) ∧ ¬ (5 ≤ 0) := by
  refine ⟨rfl, ?_, by decide⟩
  intro c hc
  simp at hc

/-! ### C15: the encoder's fold is the product of the literal terms -/

namespace BoolePolynomial

/-- The GF(2) sum of the monomials of a polynomial, each taken as a polynomial, is the
polynomial. -/
theorem fold_singleton_eq (p : BoolePolynomial) :
    p.fold symmDiff ∅ (fun m => ({m} : BoolePolynomial)) = p := by
  induction p using Finset.induction_on with
  | empty => rfl
  | insert hm ih =>
    rename_i m p
    rw [Finset.fold_insert hm, ih]
    ext x
    simp only [Finset.mem_symmDiff, Finset.mem_singleton, Finset.mem_insert]
    constructor
    · rintro (⟨h1, _⟩ | ⟨h1, _⟩)
      · exact Or.inl h1
      · exact Or.inr h1
    · rintro (h1 | h1)
      · exact Or.inl ⟨h1, fun hx => hm (h1 ▸ hx)⟩
      · exact Or.inr ⟨h1, fun hx => hm (hx ▸ h1)⟩

/-- A GF(2) sum over a polynomial is additive in the polynomial. -/
theorem fold_symmDiff (f : BooleMonomial → BoolePolynomial) (q r : BoolePolynomial) :
    (symmDiff q r).fold symmDiff ∅ f =
      symmDiff (q.fold symmDiff ∅ f) (r.fold symmDiff ∅ f) := by
  have h1 := @Finset.fold_union_inter _ _ symmDiff _ _ f _ q r ∅ ∅
  have hdisj : (symmDiff q r) ∩ (q ∩ r) = ∅ := by
    ext x
    simp only [Finset.mem_inter, Finset.mem_symmDiff, Finset.not_mem_empty, iff_false]
    rintro ⟨h | h, hq, hr⟩
    · exact h.2 hr
    · exact h.2 hq
  have hunion : (symmDiff q r) ∪ (q ∩ r) = q ∪ r := by
    ext x
    simp only [Finset.mem_union, Finset.mem_inter, Finset.mem_symmDiff]
    constructor
    · rintro ((⟨h, _⟩ | ⟨h, _⟩) | ⟨h, _⟩)
      · exact Or.inl h
      · exact Or.inr h
      · exact Or.inl h
    · rintro (h | h)
      · by_cases hr : x ∈ r
        · exact Or.inr ⟨h, hr⟩
        · exact Or.inl (Or.inl ⟨h, hr⟩)
      · by_cases hq : x ∈ q
        · exact Or.inr ⟨hq, h⟩
        · exact Or.inl (Or.inr ⟨h, hq⟩)
  have h2 := @Finset.fold_union_inter _ _ symmDiff _ _ f _ (symmDiff q r) (q ∩ r) ∅ ∅
  rw [hdisj, hunion, Finset.fold_empty] at h2
  -- h2 : F(q ∪ r) ∆ ∅ = F(q ∆ r) ∆ F(q ∩ r);  h1 : F(q ∪ r) ∆ F(q ∩ r) = F q ∆ F r
  rw [← h1]
  have e : symmDiff (Finset.fold symmDiff ∅ f (q ∪ r)) (∅ : BoolePolynomial) =
      Finset.fold symmDiff ∅ f (q ∪ r) := symmDiff_bot _
  rw [e] at h2
  rw [h2, symmDiff_assoc, symmDiff_self]
  exact (symmDiff_bot _).symm

theorem mulMonom_symmDiff (m : BooleMonomial) (q r : BoolePolynomial) :
    mulMonom m (symmDiff q r) = symmDiff (mulMonom m q) (mulMonom m r) :=
  fold_symmDiff _ q r

/-- Multiplication distributes over addition. -/
theorem mul_add (p q r : BoolePolynomial) : mul p (add q r) = add (mul p q) (mul p r) := by
  unfold mul add
  have h : (fun m => mulMonom m (symmDiff q r)) =
      fun m => symmDiff (mulMonom m q) (mulMonom m r) := by
    funext m; exact mulMonom_symmDiff m q r
  have hd := @Finset.fold_op_distrib _ _ symmDiff _ _ p (fun m => mulMonom m q)
    (fun m => mulMonom m r) ∅ ∅
  have e : symmDiff (∅ : BoolePolynomial) ∅ = ∅ := by simp
  rw [e] at hd
  rw [h, hd]

theorem mul_one (p : BoolePolynomial) : mul p one = p := by
  unfold mul one
  have h : (fun m => mulMonom m ({∅} : BoolePolynomial)) = fun m => ({m} : BoolePolynomial) := by
    funext m
    unfold mulMonom
    rw [Finset.fold_singleton, Finset.union_empty]
    exact symmDiff_bot _
  rw [h]
  exact fold_singleton_eq p

theorem add_zero (p : BoolePolynomial) : add p zero = p := symmDiff_bot p

theorem add_comm (p q : BoolePolynomial) : add p q = add q p := symmDiff_comm p q

end BoolePolynomial

/-- One step of the encoder multiplies the accumulator by the term of the literal. -/
theorem encodeStep_eq_mul_term (poly : BoolePolynomial) (l : Lit) :
    encodeStep poly l = BoolePolynomial.mul poly (term l) := by
  unfold encodeStep term
  cases hs : l.sign
  · simp only [Bool.not_false, if_true, Bool.false_eq_true, if_false]
    rw [BoolePolynomial.mul_add, BoolePolynomial.mul_one, BoolePolynomial.add_comm]
  · simp only [Bool.not_true, Bool.false_eq_true, if_false, if_true]
    exact BoolePolynomial.add_zero _

theorem encode_foldl_eq (clause : Clause) (poly : BoolePolynomial) :
    clause.foldl encodeStep poly = (clause.map term).foldl BoolePolynomial.mul poly := by
  induction clause generalizing poly with
  | nil => rfl
  | cons l c ih =>
    simp only [List.foldl_cons, List.map_cons]
    rw [encodeStep_eq_mul_term, ih]

/-- C15: for every clause, the polynomial that the encoder's left fold computes (start
with 1; for each literal `P := P * x + (P if the literal is non-negated, else 0)`)
equals, in the Boolean polynomial ring over GF(2) with `x*x = x`, the product over the
literals of `term l`, where `term l` is `1 + x` for a non-negated literal and `x` for a
negated one; each step of the fold multiplies by the term of its literal. -/
theorem encodeClause_eq_termProduct :
    (∀ clause : Clause, encodeClause clause = termProduct clause) ∧
    (∀ (poly : BoolePolynomial) (l : Lit),
      encodeStep poly l = BoolePolynomial.mul poly (term l)) :=
  ⟨fun clause => encode_foldl_eq clause BoolePolynomial.one, encodeStep_eq_mul_term⟩

/-! ### C16: the schedule of one strategy -/

/-- The engines leave the scheduling variables alone. -/
theorem runStrategy_frame {A C S : Type} (E : Engines A C S) (config : ConfigData)
    (extra : List Clause) (orig_cnf_file : Bool) (t : SimplifyState A C S) :
    (runStrategy E config extra orig_cnf_file t).2.waits = t.waits ∧
    (runStrategy E config extra orig_cnf_file t).2.countdowns = t.countdowns ∧
    (runStrategy E config extra orig_cnf_file t).2.changes = t.changes ∧
    (runStrategy E config extra orig_cnf_file t).2.subIters = t.subIters := by
  unfold runStrategy
  split
  all_goals try dsimp only
  all_goals repeat' split
  all_goals exact ⟨rfl, rfl, rfl, rfl⟩

/-- The scheduling step of any turn: the pair of the strategy whose turn it is becomes
the one given by `schedule`, applied to whether the turn has produced a new fact; the
pairs of the other strategies stay. -/
theorem turn_schedule_general {A C S : Type} (E : Engines A C S) (config : ConfigData)
    (extra : List Clause) (orig_cnf_file : Bool) (timeout : Nat → Bool)
    (st : SimplifyState A C S) :
    ((turn E config extra orig_cnf_file timeout st).waits st.subIters,
        (turn E config extra orig_cnf_file timeout st).countdowns st.subIters) =
      schedule
        (decide (0 < (if st.countdowns st.subIters > 0 then (0 : Int)
          else (runStrategy E config extra orig_cnf_file st).1)))
        (st.waits st.subIters) (st.countdowns st.subIters) ∧
    (∀ j, j ≠ st.subIters →
      (turn E config extra orig_cnf_file timeout st).waits j = st.waits j ∧
      (turn E config extra orig_cnf_file timeout st).countdowns j = st.countdowns j) := by
  obtain ⟨f1, f2, f3, f4⟩ := runStrategy_frame E config extra orig_cnf_file st
  unfold turn
  by_cases hc : st.countdowns st.subIters > 0
  · simp only [hc, if_true, le_refl, Function.update_same, lt_irrefl, decide_False]
    by_cases h2 : st.subIters < 2
    · simp only [h2, if_true]
      exact ⟨by simp, fun j hj => by simp [Function.update_noteq hj]⟩
    · simp only [h2, if_false]
      exact ⟨by simp, fun j hj => by simp [Function.update_noteq hj]⟩
  · simp only [hc, if_false]
    by_cases hle : (runStrategy E config extra orig_cnf_file st).1 ≤ 0
    · have hnd : ¬ (0 < (runStrategy E config extra orig_cnf_file st).1) := not_lt.mpr hle
      simp only [hle, if_true, Function.update_same, hnd, decide_False]
      by_cases h2 : st.subIters < 2
      · simp only [h2, if_true]
        exact ⟨by simp [f1, f2], fun j hj => by simp [Function.update_noteq hj, f1, f2]⟩
      · simp only [h2, if_false]
        exact ⟨by simp [f1, f2], fun j hj => by simp [Function.update_noteq hj, f1, f2]⟩
    · have hd : 0 < (runStrategy E config extra orig_cnf_file st).1 := not_le.mp hle
      simp only [hle, if_false, Function.update_same, hd, decide_True]
      by_cases h2 : st.subIters < 2
      · simp only [h2, if_true]
        exact ⟨by simp [f1, f2], fun j hj => by simp [Function.update_noteq hj, f1, f2]⟩
      · simp only [h2, if_false]
        exact ⟨by simp [f1, f2], fun j hj => by simp [Function.update_noteq hj, f1, f2]⟩

/-- In a stalled run the wait count is the number of attempts made so far. -/
theorem stalledRun_waits (n : Nat) :
    (stalledRun n).1 = ((List.range n).filter attempted).length := by
  induction n with
  | zero => rfl
  | succ n ih =>
    rw [List.range_succ, List.filter_append, List.length_append, ← ih]
    show (schedule false (stalledRun n).1 (stalledRun n).2).1 = _
    by_cases hc : (stalledRun n).2 = 0
    · have ha : attempted n = true := by simp [attempted, hc]
      rw [hc, schedule_attempt]
      simp [ha]
    · have ha : attempted n = false := by simp [attempted, hc]
      rw [schedule_skip _ _ (Nat.pos_of_ne_zero hc)]
      simp [ha]

/-- C16: in `Library::simplify` the scheduling step of a turn acts on the pair
`(waits[i], countdowns[i])` of the strategy `i` whose turn it is as `schedule` does, and
leaves the other strategies alone. An attempt, made with countdown 0, that produces a
new fact sets `waits[i]` to 0 and leaves the countdown at 0, which is the initial pair.
From there, when the attempt of turn `n` is the `k`-th consecutive one without a new
fact, right after it the countdown is `series[min (k-1) 11]`; the strategy is then
skipped for exactly that many turns, the countdown going down by one per turn, and is
attempted again in the next turn. -/
theorem schedule_of_strategy :
    (∀ {A C S : Type} (E : Engines A C S) (config : ConfigData) (extra : List Clause)
      (orig_cnf_file : Bool) (timeout : Nat → Bool) (st : SimplifyState A C S),
      ((turn E config extra orig_cnf_file timeout st).waits st.subIters,
          (turn E config extra orig_cnf_file timeout st).countdowns st.subIters) =
        schedule
          (decide (0 < (if st.countdowns st.subIters > 0 then (0 : Int)
            else (runStrategy E config extra orig_cnf_file st).1)))
          (st.waits st.subIters) (st.countdowns st.subIters) ∧
      (∀ j, j ≠ st.subIters →
        (turn E config extra orig_cnf_file timeout st).waits j = st.waits j ∧
        (turn E config extra orig_cnf_file timeout st).countdowns j = st.countdowns j)) ∧
    (∀ w : Nat, schedule true w 0 = (0, 0)) ∧ stalledRun 0 = (0, 0) ∧
    (∀ n : Nat, attempted n = true →
      stalledRun (n + 1) =
        (((List.range (n + 1)).filter attempted).length,
          series.getD (min (((List.range (n + 1)).filter attempted).length - 1) 11) 0) ∧
      (∀ i, i ≤ (stalledRun (n + 1)).2 →
        stalledRun (n + 1 + i) = ((stalledRun (n + 1)).1, (stalledRun (n + 1)).2 - i)) ∧
      (∀ i, i < (stalledRun (n + 1)).2 → attempted (n + 1 + i) = false) ∧
      attempted (n + 1 + (stalledRun (n + 1)).2) = true) := by
  refine ⟨fun E config extra ocf timeout st =>
    turn_schedule_general E config extra ocf timeout st, fun w => rfl, rfl, ?_⟩
  intro n hn
  have hc : (stalledRun n).2 = 0 := by simpa [attempted] using hn
  have hk : ((List.range (n + 1)).filter attempted).length = (stalledRun n).1 + 1 := by
    rw [List.range_succ, List.filter_append, List.length_append, ← stalledRun_waits]
    simp [hn]
  have h1 : stalledRun (n + 1) =
      ((stalledRun n).1 + 1, series.getD (min (stalledRun n).1 11) 0) := by
    show schedule false (stalledRun n).1 (stalledRun n).2 = _
    rw [hc, schedule_attempt]
  obtain ⟨g1, g2, g3, _⟩ := skippedAfter_eq n hn
  have hrun := stalledRun_skips (n + 1) _ _ h1
  refine ⟨?_, ?_, ?_, ?_⟩
  · rw [h1, hk, Nat.add_sub_cancel]
  · intro i hi
    rw [h1] at hi ⊢
    exact hrun i hi
  · intro i hi
    rw [h1] at hi
    exact g2 i (by rw [g1]; exact hi)
  · rw [h1]
    rw [g1] at g3
    exact g3

/-! ### C11: what `simplify` returns after an engine has reported an inconsistency -/

/-- As long as the loop condition holds, the loop makes turns. -/
theorem simplifyLoop_iterate {A C S : Type} (E : Engines A C S) (config : ConfigData)
    (extra : List Clause) (orig_cnf_file : Bool) (timeout : Nat → Bool) :
    ∀ (k fuel : Nat) (st : SimplifyState A C S),
      (∀ j, j < k →
        loopCond E config ((turn E config extra orig_cnf_file timeout)^[j] st) = true) →
      simplifyLoop E config extra orig_cnf_file timeout (k + fuel) st =
        simplifyLoop E config extra orig_cnf_file timeout fuel
          ((turn E config extra orig_cnf_file timeout)^[k] st) := by
  intro k
  induction k with
  | zero => intro fuel st _; simp
  | succ k ih =>
    intro fuel st h
    have h0 : loopCond E config st = true := h 0 (Nat.succ_pos k)
    rw [show k + 1 + fuel = (k + fuel) + 1 by omega, simplifyLoop, if_pos h0,
      ih fuel _ (fun j hj => by
        have := h (j + 1) (Nat.succ_lt_succ hj)
        rwa [Function.iterate_succ_apply] at this),
      Function.iterate_succ_apply]

/-- The turn in which the linearization or the elimination engine reports an
inconsistency marks the system and leaves the solution as it was. -/
theorem turn_signal {A C S : Type} (E : Engines A C S) (config : ConfigData)
    (extra : List Clause) (orig_cnf_file : Bool) (timeout : Nat → Bool)
    (st : SimplifyState A C S) (hc : st.countdowns st.subIters = 0)
    (hsig : (st.subIters = 0 ∧ config.doXL = true ∧
        (E.extendedLinearization st.anf st.loop_learnt).1 = false) ∨
      (st.subIters = 1 ∧ config.doEL = true ∧
        (E.elimLin st.anf st.loop_learnt).1 = false)) :
    (turn E config extra orig_cnf_file timeout st).anf = E.setNOTOK st.anf ∧
    (turn E config extra orig_cnf_file timeout st).solution = st.solution := by
  have hrun : (runStrategy E config extra orig_cnf_file st).1 = 0 ∧
      (runStrategy E config extra orig_cnf_file st).2.anf = E.setNOTOK st.anf ∧
      (runStrategy E config extra orig_cnf_file st).2.solution = st.solution := by
    unfold runStrategy
    rcases hsig with ⟨h0, hx, hr⟩ | ⟨h1, hx, hr⟩
    · rw [h0]
      simp only [hx, if_true, hr, Bool.not_false]
      exact ⟨trivial, trivial, trivial⟩
    · rw [h1]
      simp only [hx, if_true, hr, Bool.not_false]
      exact ⟨trivial, trivial, trivial⟩
  obtain ⟨r1, r2, r3⟩ := hrun
  unfold turn
  simp only [hc, lt_irrefl, gt_iff_lt, if_false, r1, le_refl, if_true]
  by_cases h2 : st.subIters < 2
  · simp only [h2, if_true]
    exact ⟨r2, r3⟩
  · simp only [h2, if_false]
    exact ⟨r2, r3⟩

/-- C11 (amended): when, in a turn of `Library::simplify`, the linearization or the
elimination engine reports that the equation system is inconsistent, the system is
marked as not OK, the loop ends with this turn, and the solution status that `simplify`
returns is undetermined: the inconsistency is recorded in the equation system and not
in the returned status. Here `k` turns precede the reporting one, and `setNOTOK` is
taken to make `getOK` false. -/
theorem simplify_inconsistent {A C S : Type} (E : Engines A C S) (config : ConfigData)
    (extra : List Clause) (orig_cnf_file : Bool) (timeout : Nat → Bool) (anf : A)
    (loop_learnt : List BoolePolynomial) (k fuel : Nat)
    (hnot : ∀ a, E.getOK (E.setNOTOK a) = false)
    (hrun : ∀ j, j ≤ k → loopCond E config
      ((turn E config extra orig_cnf_file timeout)^[j]
        (initialState E timeout anf loop_learnt)) = true)
    (hc : ((turn E config extra orig_cnf_file timeout)^[k]
        (initialState E timeout anf loop_learnt)).countdowns
      ((turn E config extra orig_cnf_file timeout)^[k]
        (initialState E timeout anf loop_learnt)).subIters = 0)
    (hsig :
      (((turn E config extra orig_cnf_file timeout)^[k]
          (initialState E timeout anf loop_learnt)).subIters = 0 ∧ config.doXL = true ∧
        (E.extendedLinearization
          ((turn E config extra orig_cnf_file timeout)^[k]
            (initialState E timeout anf loop_learnt)).anf
          ((turn E config extra orig_cnf_file timeout)^[k]
            (initialState E timeout anf loop_learnt)).loop_learnt).1 = false) ∨
      (((turn E config extra orig_cnf_file timeout)^[k]
          (initialState E timeout anf loop_learnt)).subIters = 1 ∧ config.doEL = true ∧
        (E.elimLin
          ((turn E config extra orig_cnf_file timeout)^[k]
            (initialState E timeout anf loop_learnt)).anf
          ((turn E config extra orig_cnf_file timeout)^[k]
            (initialState E timeout anf loop_learnt)).loop_learnt).1 = false))
    (hfuel : k + 1 ≤ fuel) :
    simplifyLoop E config extra orig_cnf_file timeout fuel
        (initialState E timeout anf loop_learnt) =
      some ((turn E config extra orig_cnf_file timeout)^[k + 1]
        (initialState E timeout anf loop_learnt)) ∧
    E.getOK ((turn E config extra orig_cnf_file timeout)^[k + 1]
      (initialState E timeout anf loop_learnt)).anf = false ∧
    ∃ a l, simplify E config extra false timeout fuel anf orig_cnf_file loop_learnt =
      some ({ ret := lbool.l_Undef }, a, l) := by
  obtain ⟨f, rfl⟩ : ∃ f, fuel = k + 1 + f := ⟨fuel - (k + 1), by omega⟩
  have hk := hrun k (le_refl k)
  obtain ⟨t1, t2⟩ := turn_signal E config extra orig_cnf_file timeout _ hc hsig
  have hsol : ((turn E config extra orig_cnf_file timeout)^[k]
      (initialState E timeout anf loop_learnt)).solution.ret = lbool.l_Undef := by
    simp only [loopCond, Bool.and_eq_true, decide_eq_true_eq] at hk
    exact hk.1.2
  have hstop : loopCond E config ((turn E config extra orig_cnf_file timeout)^[k + 1]
      (initialState E timeout anf loop_learnt)) = false := by
    rw [Function.iterate_succ_apply']
    simp [loopCond, t1, hnot]
  have hloop : simplifyLoop E config extra orig_cnf_file timeout (k + 1 + f)
      (initialState E timeout anf loop_learnt) =
        some ((turn E config extra orig_cnf_file timeout)^[k + 1]
          (initialState E timeout anf loop_learnt)) := by
    rw [simplifyLoop_iterate E config extra orig_cnf_file timeout (k + 1) f _
      (fun j hj => hrun j (Nat.lt_succ_iff.mp hj))]
    cases f with
    | zero => rw [simplifyLoop, hstop]; rfl
    | succ f => rw [simplifyLoop, hstop]; rfl
  refine ⟨hloop, ?_, ?_⟩
  · rw [Function.iterate_succ_apply', t1]; exact hnot _
  · have hsol1 : ((turn E config extra orig_cnf_file timeout)^[k + 1]
        (initialState E timeout anf loop_learnt)).solution = { ret := lbool.l_Undef } := by
      rw [Function.iterate_succ_apply', t2]
      cases hs : ((turn E config extra orig_cnf_file timeout)^[k]
        (initialState E timeout anf loop_learnt)).solution
      rw [hs] at hsol
      simp only at hsol
      rw [hsol]
    refine ⟨E.contextualize
        ((turn E config extra orig_cnf_file timeout)^[k + 1]
          (initialState E timeout anf loop_learnt)).anf
        ((turn E config extra orig_cnf_file timeout)^[k + 1]
          (initialState E timeout anf loop_learnt)).loop_learnt,
      ((turn E config extra orig_cnf_file timeout)^[k + 1]
        (initialState E timeout anf loop_learnt)).loop_learnt, ?_⟩
    unfold simplify
    rw [if_neg (by simp), hloop]
    simp only []
    rw [hsol1]

/-- Witness of C11 (amended): the linearization engine reports an inconsistency in the
first turn. -/
theorem simplify_inconsistent_witness :
    (∀ a, failingEngines.getOK (failingEngines.setNOTOK a) = false) ∧
    simplifyLoop failingEngines ⟨5, true, true, true, 0⟩ [] false (fun _ => false) 1
        (initialState failingEngines (fun _ => false) true []) =
      some ((turn failingEngines ⟨5, true, true, true, 0⟩ [] false (fun _ => false))^[0 + 1]
        (initialState failingEngines (fun _ => false) true [])) ∧
    failingEngines.getOK
      ((turn failingEngines ⟨5, true, true, true, 0⟩ [] false (fun _ => false))^[0 + 1]
        (initialState failingEngines (fun _ => false) true [])).anf = false ∧
    ∃ a l, simplify failingEngines ⟨5, true, true, true, 0⟩ [] false (fun _ => false) 1 true
        false [] = some ({ ret := lbool.l_Undef }, a, l) :=
  ⟨fun _ => rfl,
    simplify_inconsistent failingEngines ⟨5, true, true, true, 0⟩ [] false (fun _ => false)
      true [] 0 1 (fun _ => rfl)
      (fun j hj => by
        have : j = 0 := by omega
        subst this
        rfl)
      rfl (Or.inl ⟨rfl, rfl, rfl⟩) (le_refl 1)⟩

/-- C11 as stated fails: with a linearization engine that reports the system as
inconsistent in the first turn, `simplify` returns the undetermined status `l_Undef`,
not the unsatisfiable one, while the system is left marked as not OK. -/
theorem simplify_inconsistent_counterexample :
    (failingEngines.extendedLinearization true []).1 = false ∧
      simplify failingEngines ⟨5, true, true, true, 0⟩ [] false (fun _ => false) 10 true
          false [] = some ({ ret := lbool.l_Undef }, false, []) ∧
      ({ ret := lbool.l_Undef } : Solution) ≠ { ret := lbool.l_False } := by
  refine ⟨rfl, rfl, by decide⟩

/-! ### C14: the one-shot guard -/

namespace BoolePolynomial

theorem card_symmDiff_le (p q : BoolePolynomial) :
    (symmDiff p q).card ≤ p.card + q.card := by
  have hsub : symmDiff p q ⊆ p ∪ q := by
    intro x hx
    rcases Finset.mem_symmDiff.mp hx with h | h
    · exact Finset.mem_union_left _ h.1
    · exact Finset.mem_union_right _ h.1
  exact le_trans (Finset.card_le_card hsub) (Finset.card_union_le p q)

/-- A GF(2) sum of polynomials of at most one monomial each has at most as many
monomials as it has summands. -/
theorem card_fold_le (f : BooleMonomial → BoolePolynomial) (hf : ∀ m, (f m).card ≤ 1)
    (p : BoolePolynomial) : (p.fold symmDiff ∅ f).card ≤ p.card := by
  induction p using Finset.induction_on with
  | empty => simp
  | insert hm ih =>
    rename_i m p
    rw [Finset.fold_insert hm, Finset.card_insert_of_not_mem hm]
    have h1 := card_symmDiff_le (f m) (p.fold symmDiff ∅ f)
    have h2 := hf m
    omega

theorem card_mulMonom_variable (m : BooleMonomial) (v : Nat) :
    (mulMonom m (BooleVariable v)).card ≤ 1 := by
  unfold mulMonom BooleVariable
  rw [Finset.fold_singleton]
  have h := card_symmDiff_le ({m ∪ {v}} : BoolePolynomial) ∅
  simpa using h

/-- Multiplying by a variable does not increase the number of monomials. -/
theorem card_mul_variable_le (p : BoolePolynomial) (v : Nat) :
    (mul p (BooleVariable v)).card ≤ p.card :=
  card_fold_le (fun m => mulMonom m (BooleVariable v)) (fun m => card_mulMonom_variable m v) p

/-- A polynomial that vanishes under every assignment has no monomial: evaluate at the
assignment that sets exactly the variables of a monomial that is minimal for
inclusion. -/
theorem eq_empty_of_eval_eq_zero (p : BoolePolynomial) (h : ∀ σ, eval σ p = 0) : p = ∅ := by
  by_contra hne
  obtain ⟨m, hm, hmin⟩ := Finset.exists_minimal p (Finset.nonempty_iff_ne_empty.mpr hne)
  have hother : ∀ n ∈ p, n ≠ m → evalMonom (fun v => decide (v ∈ m)) n = 0 := by
    intro n hn hnm
    unfold evalMonom
    rw [if_neg]
    intro hall
    have hsub : n ⊆ m := fun v hv => by simpa using hall v hv
    exact hmin n hn (lt_of_le_of_ne hsub hnm)
  have hself : evalMonom (fun v => decide (v ∈ m)) m = 1 := by
    unfold evalMonom
    rw [if_pos]
    intro v hv
    simpa using hv
  have hval := h (fun v => decide (v ∈ m))
  unfold eval at hval
  rw [Finset.sum_eq_single_of_mem m hm hother, hself] at hval
  exact one_ne_zero hval

end BoolePolynomial

theorem card_encodeStep_le (poly : BoolePolynomial) (l : Lit) :
    (encodeStep poly l).card ≤ 2 ^ l.positive * poly.card := by
  unfold encodeStep
  have h1 := BoolePolynomial.card_mul_variable_le poly l.var
  cases hs : l.sign
  · have h2 := BoolePolynomial.card_symmDiff_le
      (BoolePolynomial.mul poly (BoolePolynomial.BooleVariable l.var)) poly
    simp only [Bool.not_false, if_true, Lit.positive, hs, Bool.false_eq_true, if_false,
      BoolePolynomial.add, pow_one]
    omega
  · have h2 := BoolePolynomial.card_symmDiff_le
      (BoolePolynomial.mul poly (BoolePolynomial.BooleVariable l.var)) BoolePolynomial.zero
    simp only [Bool.not_true, Bool.false_eq_true, if_false, Lit.positive, hs, if_true,
      BoolePolynomial.add, pow_zero, Nat.one_mul]
    simp only [BoolePolynomial.zero, Finset.card_empty, Nat.add_zero] at h2
    exact le_trans h2 h1

theorem card_encode_foldl_le (clause : Clause) (poly : BoolePolynomial) :
    (clause.foldl encodeStep poly).card ≤ 2 ^ positive_count clause * poly.card := by
  induction clause generalizing poly with
  | nil => simp
  | cons l c ih =>
    simp only [List.foldl_cons, positive_count_cons]
    have h1 := ih (encodeStep poly l)
    have h2 := card_encodeStep_le poly l
    calc (c.foldl encodeStep (encodeStep poly l)).card
        ≤ 2 ^ positive_count c * (encodeStep poly l).card := h1
      _ ≤ 2 ^ positive_count c * (2 ^ l.positive * poly.card) := Nat.mul_le_mul_left _ h2
      _ = 2 ^ (l.positive + positive_count c) * poly.card := by
        rw [pow_add]; ring

/-- A clause with a variable both negated and non-negated is satisfied by every
assignment. -/
theorem sat_of_complementary (σ : Nat → Bool) (clause : Clause)
    (h : ∃ l1 ∈ clause, ∃ l2 ∈ clause, l1.var = l2.var ∧ l1.sign = true ∧ l2.sign = false) :
    Clause.sat σ clause = true := by
  obtain ⟨l1, h1, l2, h2, hv, hs1, hs2⟩ := h
  rw [sat_iff]
  cases hval : σ l2.var
  · exact ⟨l1, h1, Or.inr ⟨hs1, by rw [hv]; exact hval⟩⟩
  · exact ⟨l2, h2, Or.inl ⟨hs2, hval⟩⟩

/-- C21: for every clause with `p` non-negated literals, the polynomial built by the
encoder of `Library::read_cnf`, a sum of distinct square-free monomials over GF(2), has
at most `2^p` monomials; and it is the zero polynomial when the clause contains some
variable both negated and non-negated. -/
theorem encodeClause_monomials :
    (∀ clause : Clause, (encodeClause clause).card ≤ 2 ^ positive_count clause) ∧
    (∀ clause : Clause,
      (∃ l1 ∈ clause, ∃ l2 ∈ clause, l1.var = l2.var ∧ l1.sign = true ∧ l2.sign = false) →
        encodeClause clause = BoolePolynomial.zero) := by
  refine ⟨?_, ?_⟩
  · intro clause
    have h := card_encode_foldl_le clause BoolePolynomial.one
    simpa [encodeClause, BoolePolynomial.one] using h
  · intro clause hc
    apply BoolePolynomial.eq_empty_of_eval_eq_zero
    intro σ
    have h := eval_encode_foldl σ clause BoolePolynomial.one
    rw [BoolePolynomial.eval_one, one_mul, if_pos (sat_of_complementary σ clause hc)] at h
    exact h

end Bosphorus
